import Mathlib

/-!
# Verification of `lilbillybiscuit/random-code`

Shallow embedding of

* `src/parallel_sample/pset1_kernel_v2.1.cpp` : the blocked matrix-multiplication `kernel`;
* `src/ProgCarmel/selectionsortstuff.cpp`     : `selectionsort` and `recursiveselectionsort`;
* `src/dijkstra-prog.cpp`                     : `dijkstras`, `connect` and `main`.

Conventions of the embedding.

* C `int` values are `Int`.  `/` and `%` on `int` are the truncating `Int.tdiv` and `Int.tmod`.
  In `kernel` the index arithmetic is exact.  `kernel32` is the same function with the arithmetic
  of a 32-bit `int`: an operation whose exact result is not representable is undefined behaviour
  in C++ and makes it return `none`, like an access out of bounds.  `kernel32` refines `kernel`
  (`kernel32_refines`): what is proved of every call of `kernel` that returns holds of every call
  of `kernel32` that returns.  The two agree when every value is representable
  (`kernel32_eq_kernel`), as in the layout of the driver with buffers of at most `2^31 - 1` lanes
  (`intSafe_of_layout`).
* A pointer to a buffer is the list of its cells.  Every read or write through an index is
  checked: an index outside the buffer is undefined behaviour in C++ and makes the embedded
  function return `none` (kernel) or `Except.error Fault.outOfBounds` (sorting routines).
* `for (int v = lo; v < hi; ++v)` is a monadic left fold over `intRange lo hi`.
* `intvec`, `BLOCK_SIZE` and `kernel_size` are used but not declared in the repository.  They are
  parameters: `intvec` is a vector of `BLOCK_SIZE` slots over a scalar type `α`, with the
  elementwise `+` and `*` of GCC vector extensions; theorems hold for every commutative ring of
  scalars, in particular `ℤ` (exact arithmetic) and `ZMod (2^w)` (wraparound arithmetic).
  `BLOCK_SIZE` and the two components of `kernel_size` are natural numbers (they size the array
  `ke`), and `kernel_size.second/BLOCK_SIZE` is their quotient.
* `A`, `B` and `C` are `__restrict__` pointers: three separate buffers.  `A` and `B` are `const`
  and are arguments only; the result of `kernel` is the new contents of `C`.
* The global `int arr[10]` of the sorting routines is an explicit argument and result.  The
  recursion of `recursiveselectionsort` is bounded by a fuel argument, one unit per call; running
  out of fuel is the failure `Fault.outOfFuel`, distinct from `Fault.outOfBounds`.
* The globals `nodes`, `dist` and `path` of `dijkstras` and its local `visited` are explicit.  A
  `Node*` is the position of the node in `nodes`.  The vectors `dist` and `path` and the bitset
  `visited`, of `100005` cells each, are functions on indices, and every access checks the index
  against `100005`.  The sum `dist[curnode]+nextweight` is exact and checked against the range of
  a 32-bit `int`.  The priority queue is the list of its entries; `top` is the least entry in the
  order of pairs.  The `while` loop is bounded by fuel, one unit per iteration.  The field `trace`
  of the state is not in the program: it records the pops and the evaluated sums.
-/

/-! ## Counted loops and checked buffers -/

/-- The values taken by `v` in `for (int v = lo; v < hi; ++v)`, in order. -/
def intRange (lo hi : Int) : List Int :=
  (List.range (hi - lo).toNat).map (fun (n : Nat) => lo + (n : Int))

/-- The loop `for (int v = lo; v < hi; ++v) body(v)` over a state, in a monad of failures. -/
def forRange {m : Type → Type} [Monad m] {σ : Type} (lo hi : Int) (body : σ → Int → m σ)
    (s : σ) : m σ :=
  (intRange lo hi).foldlM body s

/-- Checked read `buf[i]`. -/
def readAt {β : Type} (buf : List β) (i : Int) : Option β :=
  if 0 ≤ i then buf[i.toNat]? else none

/-- Checked write `buf[i] = v`. -/
def writeAt {β : Type} (buf : List β) (i : Int) (v : β) : Option (List β) :=
  if 0 ≤ i ∧ i.toNat < buf.length then some (buf.set i.toNat v) else none

/-- The index `i` lies inside a buffer of `n` cells. -/
def inb (i : Int) (n : Nat) : Prop := 0 ≤ i ∧ i < (n : Int)

instance (i : Int) (n : Nat) : Decidable (inb i n) := by unfold inb; infer_instance

/-- Unchecked view of a buffer: the cell at index `i`, and zero outside the buffer. -/
def laneAt {V : Type} [Zero V] (buf : List V) (i : Int) : V := (readAt buf i).getD 0

/-! ## The matrix-multiplication kernel -/

namespace MatKernel

/-- The vector type `intvec`: `BLOCK_SIZE` slots of scalars. -/
abbrev intvec (α : Type) (BLOCK_SIZE : Nat) : Type := Fin BLOCK_SIZE → α

/-- Scalar-to-vector conversion of the GCC vector extension (every slot equal to `a`). -/
def broadcast {α : Type} {BLOCK_SIZE : Nat} (a : α) : intvec α BLOCK_SIZE := fun _ => a

/-- Checked slot read `v[s]`. -/
def slotAt {α : Type} {BLOCK_SIZE : Nat} (v : intvec α BLOCK_SIZE) (s : Int) : Option α :=
  if h : 0 ≤ s ∧ s.toNat < BLOCK_SIZE then some (v ⟨s.toNat, h.2⟩) else none

/-- The zero-initialised accumulator
`intvec ke[kernel_size.first][kernel_size.second/BLOCK_SIZE] = {}`. -/
def keInit (α : Type) [Zero α] (BLOCK_SIZE : Nat) (kernel_size : Nat × Nat) :
    List (List (intvec α BLOCK_SIZE)) :=
  List.replicate kernel_size.1 (List.replicate (kernel_size.2 / BLOCK_SIZE) 0)

/-- Checked `ke[a][b] += v`. -/
def keAdd {V : Type} [Add V] (ke : List (List V)) (a b : Int) (v : V) : Option (List (List V)) := do
  let row ← readAt ke a
  let cell ← readAt row b
  let row' ← writeAt row b (cell + v)
  writeAt ke a row'

/-- Checked read `ke[a][b]`. -/
def keRead {V : Type} (ke : List (List V)) (a b : Int) : Option V := do
  let row ← readAt ke a
  readAt row b

/-- Checked `C[idx] += v`. -/
def addAt {V : Type} [Add V] (C : List V) (idx : Int) (v : V) : Option (List V) := do
  let c ← readAt C idx
  writeAt C idx (c + v)

/-- Body of the innermost loop of the contraction nest (source lines 24-25). -/
def accBody {α : Type} [Zero α] [Add α] [Mul α] (BLOCK_SIZE : Nat)
    (A B : List (intvec α BLOCK_SIZE)) (x y stride k i : Int)
    (ke : List (List (intvec α BLOCK_SIZE))) (j : Int) :
    Option (List (List (intvec α BLOCK_SIZE))) := do
  let lane ← readAt A (i * stride + k.tdiv BLOCK_SIZE)
  let a ← slotAt lane (k.tmod BLOCK_SIZE)
  let tmp : intvec α BLOCK_SIZE := 0 + broadcast a
  let b ← readAt B (k * stride + j)
  keAdd ke (i - x) (j - y) (tmp * b)

/-- The contraction nest (source lines 20-28): returns the final accumulator `ke`. -/
def accumulate {α : Type} [Zero α] [Add α] [Mul α] (BLOCK_SIZE : Nat) (kernel_size : Nat × Nat)
    (A B : List (intvec α BLOCK_SIZE)) (x y l r stride : Int) :
    Option (List (List (intvec α BLOCK_SIZE))) :=
  forRange l r (fun ke k =>
    forRange x (x + kernel_size.1) (fun ke i =>
      forRange y (y + ((kernel_size.2 / BLOCK_SIZE : Nat) : Int))
        (accBody BLOCK_SIZE A B x y stride k i) ke) ke)
    (keInit α BLOCK_SIZE kernel_size)

/-- Body of the inner loop of the write-back nest (source line 32). -/
def flushBody {V : Type} [Add V] (ke : List (List V)) (x y stride i : Int)
    (C : List V) (j : Int) : Option (List V) := do
  let v ← keRead ke (i - x) (j - y)
  addAt C (i * stride + j) v

/-- The write-back nest (source lines 30-34). -/
def flush {V : Type} [Add V] (BLOCK_SIZE : Nat) (kernel_size : Nat × Nat)
    (ke : List (List V)) (C : List V) (x y stride : Int) : Option (List V) :=
  forRange x (x + kernel_size.1) (fun C i =>
    forRange y (y + ((kernel_size.2 / BLOCK_SIZE : Nat) : Int)) (flushBody ke x y stride i) C) C

/-- The function `kernel` of `pset1_kernel_v2.1.cpp`.  `A` and `B` are `const` and only read; the
result is the new contents of `C`, or `none` when some access is out of bounds.  The index
arithmetic is exact here; `kernel32` checks it against the range of a 32-bit `int`. -/
def kernel {α : Type} [Zero α] [Add α] [Mul α] (BLOCK_SIZE : Nat) (kernel_size : Nat × Nat)
    (A B C : List (intvec α BLOCK_SIZE)) (x y l r stride : Int) :
    Option (List (intvec α BLOCK_SIZE)) := do
  let ke ← accumulate BLOCK_SIZE kernel_size A B x y l r stride
  flush BLOCK_SIZE kernel_size ke C x y stride

/-- Unchecked view of the accumulator: the cell `ke[a][b]`, and zero outside it. -/
def cellAt {V : Type} [Zero V] (ke : List (List V)) (a b : Int) : V := (keRead ke a b).getD 0

/-- The accumulator has `n` rows of `w` lanes each. -/
def Rect {V : Type} (ke : List (List V)) (n w : Nat) : Prop :=
  ke.length = n ∧ ∀ row ∈ ke, row.length = w

/-- Logical matrix element `(row, col)` of a buffer of lanes with row stride `stride`: slot
`col mod BLOCK_SIZE` of lane `row*stride + col/BLOCK_SIZE` (zero when that is out of bounds). -/
def elem {α : Type} [Zero α] {BLOCK_SIZE : Nat} (M : List (intvec α BLOCK_SIZE))
    (stride row col : Int) : α :=
  ((readAt M (row * stride + col.tdiv BLOCK_SIZE)).bind
    (fun lane => slotAt lane (col.tmod BLOCK_SIZE))).getD 0

/-- What one call adds to the accumulator cell of tile position `(i, j)`: the sum over `k` in
`[l, r)` of `broadcast(A[i*stride + k/BLOCK_SIZE][k mod BLOCK_SIZE]) * B[k*stride + j]`. -/
def tileGain {α : Type} [Zero α] [Add α] [Mul α] {BLOCK_SIZE : Nat}
    (A B : List (intvec α BLOCK_SIZE)) (stride l r i j : Int) : intvec α BLOCK_SIZE :=
  ((intRange l r).map
    (fun k => (broadcast (elem A stride i k) : intvec α BLOCK_SIZE) * laneAt B (k * stride + j))).sum

/-- What one call adds to the lane of `C` at flat index `q`: the gains of all tile positions
`(i, j)` whose flat index `i*stride + j` is `q`. -/
def delta {α : Type} [Zero α] [Add α] [Mul α] (BLOCK_SIZE : Nat) (kernel_size : Nat × Nat)
    (A B : List (intvec α BLOCK_SIZE)) (x y l r stride q : Int) : intvec α BLOCK_SIZE :=
  ((intRange x (x + kernel_size.1)).map (fun i =>
    ((intRange y (y + ((kernel_size.2 / BLOCK_SIZE : Nat) : Int))).map (fun j =>
      if i * stride + j = q then tileGain A B stride l r i j else 0)).sum)).sum

/-- Every access of `kernel` is in bounds, for buffers of `lenA`, `lenB` and `lenC` lanes: the
accesses to `A`, its slots and `B` in the contraction nest, and the accesses to `C` in the
write-back nest.  By `kernel_isSome_iff` this holds exactly when the call returns. -/
def InBounds (BLOCK_SIZE : Nat) (kernel_size : Nat × Nat) (lenA lenB lenC : Nat)
    (x y l r stride : Int) : Prop :=
  (∀ k ∈ intRange l r, ∀ i ∈ intRange x (x + kernel_size.1),
    ∀ j ∈ intRange y (y + ((kernel_size.2 / BLOCK_SIZE : Nat) : Int)),
      inb (i * stride + k.tdiv BLOCK_SIZE) lenA ∧ inb (k.tmod BLOCK_SIZE) BLOCK_SIZE ∧
        inb (k * stride + j) lenB) ∧
  (∀ i ∈ intRange x (x + kernel_size.1),
    ∀ j ∈ intRange y (y + ((kernel_size.2 / BLOCK_SIZE : Nat) : Int)),
      inb (i * stride + j) lenC)

instance (BLOCK_SIZE : Nat) (kernel_size : Nat × Nat) (lenA lenB lenC : Nat)
    (x y l r stride : Int) :
    Decidable (InBounds BLOCK_SIZE kernel_size lenA lenB lenC x y l r stride) := by
  unfold InBounds; infer_instance

/-- The memory reachable from a call of `kernel`: the buffers behind `A`, `B` and `C`. -/
structure Buffers (V : Type) where
  /-- The buffer behind `const intvec *A`. -/
  A : List V
  /-- The buffer behind `const intvec *B`. -/
  B : List V
  /-- The buffer behind `intvec *C`. -/
  C : List V

/-- The call `kernel(A, B, C, x, y, l, r, stride)` as a transformer of the memory it can reach.
The source has no assignment through `A` or `B`, so these buffers are passed on as they are. -/
def kernelOn {α : Type} [Zero α] [Add α] [Mul α] (BLOCK_SIZE : Nat) (kernel_size : Nat × Nat)
    (m : Buffers (intvec α BLOCK_SIZE)) (x y l r stride : Int) :
    Option (Buffers (intvec α BLOCK_SIZE)) :=
  (kernel BLOCK_SIZE kernel_size m.A m.B m.C x y l r stride).map (fun C' => { m with C := C' })

/-- Contents of a buffer as a list of rows of slots, for display and comparison. -/
def slots {α : Type} {BLOCK_SIZE : Nat} (buf : List (intvec α BLOCK_SIZE)) : List (List α) :=
  buf.map (fun v => List.ofFn v)

/-- The matrix `[[1,2],[3,4]]` with `BLOCK_SIZE = 2` and `stride = 1`. -/
def sampleA : List (intvec Int 2) := [![1, 2], ![3, 4]]

/-- The matrix `[[5,6],[7,8]]` with `BLOCK_SIZE = 2` and `stride = 1`. -/
def sampleB : List (intvec Int 2) := [![5, 6], ![7, 8]]

/-- A zero matrix of `n` lanes. -/
def zeros (BLOCK_SIZE n : Nat) : List (intvec Int BLOCK_SIZE) := List.replicate n 0

/-- A 4 x 1 matrix with `BLOCK_SIZE = 1` and `stride = 1`. -/
def columnA : List (intvec Int 1) := [![0], ![0], ![1], ![10]]

/-- A 2 x 1 matrix with `BLOCK_SIZE = 1` and `stride = 1`. -/
def columnB : List (intvec Int 1) := [![100], ![1000]]

end MatKernel

namespace MatKernel

/-- The value `v` is representable in a 32-bit `int`. -/
def fitsInt (v : Int) : Prop := -2147483648 ≤ v ∧ v ≤ 2147483647

instance (v : Int) : Decidable (fitsInt v) := by unfold fitsInt; infer_instance

/-- The result of an `int` operation whose exact value is `v`: undefined when `v` is not
representable (signed overflow is undefined behaviour in C++). -/
def int32 (v : Int) : Option Int := if fitsInt v then some v else none

/-- Body of the innermost loop of the contraction nest (source lines 24-25), with every `int`
operation checked: `i*stride`, `i*stride + k/BLOCK_SIZE`, `k*stride`, `k*stride + j`, `i-x` and
`j-y`. -/
def accBody32 {α : Type} [Zero α] [Add α] [Mul α] (BLOCK_SIZE : Nat)
    (A B : List (intvec α BLOCK_SIZE)) (x y stride k i : Int)
    (ke : List (List (intvec α BLOCK_SIZE))) (j : Int) :
    Option (List (List (intvec α BLOCK_SIZE))) := do
  let p ← int32 (i * stride)
  let ia ← int32 (p + k.tdiv BLOCK_SIZE)
  let lane ← readAt A ia
  let a ← slotAt lane (k.tmod BLOCK_SIZE)
  let tmp : intvec α BLOCK_SIZE := 0 + broadcast a
  let q ← int32 (k * stride)
  let ib ← int32 (q + j)
  let b ← readAt B ib
  let di ← int32 (i - x)
  let dj ← int32 (j - y)
  keAdd ke di dj (tmp * b)

/-- The contraction nest (source lines 20-28) with every `int` operation checked; the loop bounds
`x+kernel_size.first` and `y+kernel_size.second/BLOCK_SIZE` are computed where the source
computes them, in the loop condition. -/
def accumulate32 {α : Type} [Zero α] [Add α] [Mul α] (BLOCK_SIZE : Nat) (kernel_size : Nat × Nat)
    (A B : List (intvec α BLOCK_SIZE)) (x y l r stride : Int) :
    Option (List (List (intvec α BLOCK_SIZE))) :=
  forRange l r (fun ke k =>
    (int32 (x + kernel_size.1)).bind (fun hi =>
      forRange x hi (fun ke i =>
        (int32 (y + ((kernel_size.2 / BLOCK_SIZE : Nat) : Int))).bind (fun hj =>
          forRange y hj (accBody32 BLOCK_SIZE A B x y stride k i) ke)) ke))
    (keInit α BLOCK_SIZE kernel_size)

/-- Body of the inner loop of the write-back nest (source line 32), with every `int` operation
checked. -/
def flushBody32 {V : Type} [Add V] (ke : List (List V)) (x y stride i : Int)
    (C : List V) (j : Int) : Option (List V) := do
  let di ← int32 (i - x)
  let dj ← int32 (j - y)
  let v ← keRead ke di dj
  let p ← int32 (i * stride)
  let q ← int32 (p + j)
  addAt C q v

/-- The write-back nest (source lines 30-34) with every `int` operation checked. -/
def flush32 {V : Type} [Add V] (BLOCK_SIZE : Nat) (kernel_size : Nat × Nat)
    (ke : List (List V)) (C : List V) (x y stride : Int) : Option (List V) :=
  (int32 (x + kernel_size.1)).bind (fun hi =>
    forRange x hi (fun C i =>
      (int32 (y + ((kernel_size.2 / BLOCK_SIZE : Nat) : Int))).bind (fun hj =>
        forRange y hj (flushBody32 ke x y stride i) C)) C)

/-- The function `kernel` with the arithmetic of a 32-bit `int`: the parameters `x`, `y`, `l`, `r`
and `stride` are `int`s, and every `int` operation whose exact result is not representable makes
the call undefined, like an access out of bounds.  Where it returns, `kernel` returns the same
(`kernel32_refines`). -/
def kernel32 {α : Type} [Zero α] [Add α] [Mul α] (BLOCK_SIZE : Nat) (kernel_size : Nat × Nat)
    (A B C : List (intvec α BLOCK_SIZE)) (x y l r stride : Int) :
    Option (List (intvec α BLOCK_SIZE)) :=
  if fitsInt x ∧ fitsInt y ∧ fitsInt l ∧ fitsInt r ∧ fitsInt stride then do
    let ke ← accumulate32 BLOCK_SIZE kernel_size A B x y l r stride
    flush32 BLOCK_SIZE kernel_size ke C x y stride
  else none

/-- Every `int` value that `kernel` computes is representable: the parameters, the loop bounds,
and the index expressions at every iteration. -/
def IntSafe (BLOCK_SIZE : Nat) (kernel_size : Nat × Nat) (x y l r stride : Int) : Prop :=
  (fitsInt x ∧ fitsInt y ∧ fitsInt l ∧ fitsInt r ∧ fitsInt stride) ∧
  fitsInt (x + kernel_size.1) ∧ fitsInt (y + ((kernel_size.2 / BLOCK_SIZE : Nat) : Int)) ∧
  (∀ i ∈ intRange x (x + kernel_size.1),
    ∀ j ∈ intRange y (y + ((kernel_size.2 / BLOCK_SIZE : Nat) : Int)),
      fitsInt (i * stride) ∧ fitsInt (i * stride + j) ∧ fitsInt (i - x) ∧ fitsInt (j - y)) ∧
  (∀ k ∈ intRange l r, ∀ i ∈ intRange x (x + kernel_size.1),
    ∀ j ∈ intRange y (y + ((kernel_size.2 / BLOCK_SIZE : Nat) : Int)),
      fitsInt (i * stride + k.tdiv BLOCK_SIZE) ∧ fitsInt (k * stride) ∧ fitsInt (k * stride + j))

end MatKernel

/-! ## The sorting routines -/

namespace SelectionSort

/-- Ways in which a run of the sorting routines goes wrong. -/
inductive Fault where
  /-- An index outside `arr` is used (undefined behaviour in C++). -/
  | outOfBounds
  /-- The recursion is deeper than the fuel allows. -/
  | outOfFuel
  deriving DecidableEq, Repr

/-- The initial contents of the global `int arr[10]`. -/
def arr0 : List Int := [6, 3, 1, 7, 1, 2, 7, 1, 8, -1]

/-- Checked read `arr[i]`. -/
def get (arr : List Int) (i : Int) : Except Fault Int :=
  match readAt arr i with
  | some v => Except.ok v
  | none => Except.error Fault.outOfBounds

/-- Checked write `arr[i] = v`. -/
def put (arr : List Int) (i : Int) (v : Int) : Except Fault (List Int) :=
  match writeAt arr i v with
  | some arr' => Except.ok arr'
  | none => Except.error Fault.outOfBounds

/-- Body of the inner loop: `if (arr[j] < arr[min_index]) min_index = j;`. -/
def minStep (arr : List Int) (min_index j : Int) : Except Fault Int := do
  let aj ← get arr j
  let am ← get arr min_index
  if aj < am then pure j else pure min_index

/-- Body of the outer loop of `selectionsort` (source lines 8-16). -/
def sortStep (N : Int) (arr : List Int) (i : Int) : Except Fault (List Int) := do
  let min_index ← forRange (i + 1) N (minStep arr) i
  let temp ← get arr min_index
  let ai ← get arr i
  let arr ← put arr min_index ai
  put arr i temp

/-- The function `selectionsort(N)`, on the contents of the global `arr`. -/
def selectionsort (arr : List Int) (N : Int) : Except Fault (List Int) :=
  forRange 0 (N - 1) (sortStep N) arr

/-- The call `std::swap(arr[a], arr[b])`. -/
def swap (arr : List Int) (a b : Int) : Except Fault (List Int) := do
  let va ← get arr a
  let vb ← get arr b
  let arr ← put arr a vb
  put arr b va

/-- The function `recursiveselectionsort(N, ind)`, on the contents of the global `arr`.  Every call
(the first one included) uses one unit of fuel. -/
def recursiveselectionsort : Nat → List Int → Int → Int → Except Fault (List Int)
  | 0, _, _, _ => Except.error Fault.outOfFuel
  | fuel + 1, arr, N, ind =>
    if ind = N then pure arr
    else do
      let min_index ← forRange (ind + 1) N (minStep arr) ind
      let arr ← swap arr min_index ind
      recursiveselectionsort fuel arr N (ind + 1)

/-- The array printed by `main`: `recursiveselectionsort(10, 0)` on the initial `arr`. -/
def mainOutput : Except Fault (List Int) := recursiveselectionsort 11 arr0 10 0

end SelectionSort

/-! ## Dijkstra's algorithm -/

namespace Dijkstra

/-- Ways in which a run of `dijkstras` or of the walk of `main` goes wrong. -/
inductive Fault where
  /-- An index outside a vector or the bitset is used, or a pointer to no node of `nodes` is
  followed (undefined behaviour in C++). -/
  | outOfBounds
  /-- The sum `dist[curnode]+nextweight` leaves the range of a 32-bit `int` (undefined behaviour
  in C++). -/
  | overflow
  /-- The loop runs for more iterations than the fuel allows. -/
  | outOfFuel
  deriving DecidableEq, Repr

/-- The constant `INT_MAX` of a 32-bit `int`. -/
def INT_MAX : Int := 2147483647

/-- The constant `INT_MIN` of a 32-bit `int`. -/
def INT_MIN : Int := -2147483648

/-- The size `100005` given to `dist`, `path` and `visited`. -/
def CAP : Int := 100005

/-- The index `i` lies inside a vector or bitset of `100005` cells. -/
def inCap (i : Int) : Prop := 0 ≤ i ∧ i < CAP

instance (i : Int) : Decidable (inCap i) := by unfold inCap; infer_instance

/-- The struct `Node`.  A `Node*` is the position of the node in the vector `nodes`. -/
structure Node where
  /-- The field `id`. -/
  id : Int
  /-- The field `children`: pairs of a weight and a pointer to a node. -/
  children : List (Int × Nat)
  deriving Repr

/-- What a run does with values that are not stored: each pop with the value of `dist[curnode]`
tested against `curdist`, and each sum `dist[curnode]+nextweight` that is evaluated. -/
inductive Event where
  /-- The pair `(curdist, curnode)` was popped while `dist[curnode]` held `dcur`. -/
  | popped (curdist curnode dcur : Int)
  /-- The sum `dist[curnode]+nextweight` was evaluated to `sum` for the edge to `nextnode`. -/
  | summed (curnode nextnode sum : Int)
  deriving DecidableEq, Repr

/-- The variables of `dijkstras`.  A vector or bitset of `100005` cells is a function on indices;
every access is checked against the size by `inCap`.  The field `trace` is no variable of the
program: it records the events of the run and is never read. -/
structure State where
  /-- The global `vector<int> dist`. -/
  dist : Int → Int
  /-- The global `vector<int> path`. -/
  path : Int → Int
  /-- The local `bitset<100005> visited`. -/
  visited : Int → Bool
  /-- The local `priority_queue` of pairs `(distance, node)`, as the collection of its entries. -/
  pq : List (Int × Int)
  /-- The events so far, latest first. -/
  trace : List Event

/-- The order `greater<pair<int,int>>` puts on top: lexicographically smaller pairs first. -/
def pairLt (a b : Int × Int) : Prop := a.1 < b.1 ∨ (a.1 = b.1 ∧ a.2 < b.2)

instance (a b : Int × Int) : Decidable (pairLt a b) := by unfold pairLt; infer_instance

/-- The call `pq.top()`: the least entry in the lexicographic order, `none` on an empty queue. -/
def top : List (Int × Int) → Option (Int × Int)
  | [] => none
  | e :: es => some (es.foldl (fun m x => if pairLt x m then x else m) e)

/-- Body of `for (auto &nextedge: nodes[curnode]->children)` (source lines 34-39). -/
def relax (nodes : List Node) (curnode : Int) (s : State) (nextedge : Int × Nat) :
    Except Fault State :=
  match nodes[nextedge.2]? with
  | none => Except.error Fault.outOfBounds
  | some target =>
    if ¬ inCap target.id then Except.error Fault.outOfBounds
    else if s.visited target.id = true then Except.ok s
    else if ¬ inCap curnode then Except.error Fault.outOfBounds
    else if ¬ (INT_MIN ≤ s.dist curnode + nextedge.1 ∧ s.dist curnode + nextedge.1 ≤ INT_MAX) then
      Except.error Fault.overflow
    else if s.dist curnode + nextedge.1 < s.dist target.id then
      Except.ok
        { dist := Function.update s.dist target.id (s.dist curnode + nextedge.1)
          path := Function.update s.path target.id curnode
          visited := s.visited
          pq := (s.dist curnode + nextedge.1, target.id) :: s.pq
          trace := Event.summed curnode target.id (s.dist curnode + nextedge.1) :: s.trace }
    else
      Except.ok
        { s with trace := Event.summed curnode target.id (s.dist curnode + nextedge.1) :: s.trace }

/-- The state after `pq.pop(); visited[curnode]=1;` (source lines 28-30), with the pop recorded. -/
def popped (s : State) (cur : Int × Int) : State :=
  { dist := s.dist
    path := s.path
    visited := Function.update s.visited cur.2 true
    pq := s.pq.erase cur
    trace := Event.popped cur.1 cur.2 (s.dist cur.2) :: s.trace }

/-- Body of `while (!pq.empty())` (source lines 28-40) for the top entry `cur`. -/
def step (nodes : List Node) (s : State) (cur : Int × Int) : Except Fault State :=
  if ¬ inCap cur.2 then Except.error Fault.outOfBounds
  else if cur.1 > s.dist cur.2 then Except.ok (popped s cur)
  else
    match readAt nodes cur.2 with
    | none => Except.error Fault.outOfBounds
    | some node => node.children.foldlM (relax nodes cur.2) (popped s cur)

/-- The loop `while (!pq.empty())`, one unit of fuel per iteration. -/
def loop (nodes : List Node) : Nat → State → Except Fault State
  | 0, s =>
    match top s.pq with
    | none => Except.ok s
    | some _ => Except.error Fault.outOfFuel
  | fuel + 1, s =>
    match top s.pq with
    | none => Except.ok s
    | some cur =>
      match step nodes s cur with
      | Except.error e => Except.error e
      | Except.ok s' => loop nodes fuel s'

/-- The state at the loop entry (source lines 20-26), for `start` inside the vectors. -/
def initial (start : Int) : State :=
  { dist := Function.update (fun _ => INT_MAX) start 0
    path := fun _ => -1
    visited := fun _ => false
    pq := [(0, start)]
    trace := [] }

/-- The function `dijkstras(start, destination)` on the global `nodes`: the final values of its
variables.  The argument `destination` is not used by the source. -/
def dijkstras (nodes : List Node) (fuel : Nat) (start destination : Int) : Except Fault State :=
  let _ := destination
  if ¬ inCap start then Except.error Fault.outOfBounds
  else loop nodes fuel (initial start)

/-- The function `connect(node1, node2, weight)` on the global `nodes`. -/
def connect (nodes : List Node) (node1 node2 : Nat) (weight : Int) : List Node :=
  let nodes := List.modify (fun nd => { nd with children := nd.children ++ [(weight, node2)] })
    node1 nodes
  List.modify (fun nd => { nd with children := nd.children ++ [(weight, node1)] }) node2 nodes

/-- The graph built by `main` (source lines 50-65). -/
def mainNodes : List Node :=
  let nodes : List Node := (List.range 8).map (fun i => { id := (i : Int), children := [] })
  let nodes := connect nodes 0 6 2555
  let nodes := connect nodes 1 6 337
  let nodes := connect nodes 1 2 1843
  let nodes := connect nodes 6 2 1743
  let nodes := connect nodes 6 5 1233
  let nodes := connect nodes 5 2 802
  let nodes := connect nodes 5 4 1387
  let nodes := connect nodes 2 3 849
  let nodes := connect nodes 4 3 142
  let nodes := connect nodes 5 7 1120
  let nodes := connect nodes 7 4 1099
  connect nodes 3 7 1205

/-- The loop `while (curnode!=-1) { cout << curnode; curnode = path[curnode]; }` of `main`: the
list of the nodes printed, one unit of fuel per iteration. -/
def walk (path : Int → Int) : Nat → Int → Except Fault (List Int)
  | 0, curnode => if curnode = -1 then Except.ok [] else Except.error Fault.outOfFuel
  | fuel + 1, curnode =>
    if curnode = -1 then Except.ok []
    else if ¬ inCap curnode then Except.error Fault.outOfBounds
    else
      match walk path fuel (path curnode) with
      | Except.error e => Except.error e
      | Except.ok rest => Except.ok (curnode :: rest)

/-- The function `main`: the nodes it prints, from `finish = 7` back to `start = 0`. -/
def mainOutput (fuel : Nat) : Except Fault (List Int) :=
  match dijkstras mainNodes fuel 0 7 with
  | Except.error e => Except.error e
  | Except.ok s => walk s.path fuel 7

end Dijkstra


namespace Dijkstra

/-- The index `u` is a node of `nodes`. -/
def Valid (nodes : List Node) (u : Int) : Prop := 0 ≤ u ∧ u < (nodes.length : Int)

instance (nodes : List Node) (u : Int) : Decidable (Valid nodes u) := by
  unfold Valid; infer_instance

/-- Node `i` has id `i`: the ids of `nodes`, in order, are `0, 1, 2, ...`. -/
def IdsOk (nodes : List Node) : Prop :=
  nodes.map (fun nd => nd.id) = (List.range nodes.length).map (fun (i : Nat) => (i : Int))

instance (nodes : List Node) : Decidable (IdsOk nodes) := by unfold IdsOk; infer_instance

/-- Every edge weight is non-negative. -/
def NonNeg (nodes : List Node) : Prop := ∀ nd ∈ nodes, ∀ e ∈ nd.children, 0 ≤ e.1

instance (nodes : List Node) : Decidable (NonNeg nodes) := by unfold NonNeg; infer_instance

/-- The graph fits the program: at most `100005` nodes, and every child pointer points to a node of
`nodes`. -/
def Fits (nodes : List Node) : Prop :=
  (nodes.length : Int) ≤ CAP ∧ ∀ nd ∈ nodes, ∀ e ∈ nd.children, e.2 < nodes.length

instance (nodes : List Node) : Decidable (Fits nodes) := by unfold Fits; infer_instance

/-- The number of entries of all adjacency lists. -/
def edgeCount (nodes : List Node) : Nat := (nodes.map (fun nd => nd.children.length)).sum

/-- The adjacency list of node `u` holds an edge of weight `w` to the node with id `v`: what the
loop over `nodes[u]->children` sees as `nextweight` and `nextnode`. -/
def Edge (nodes : List Node) (u w v : Int) : Prop :=
  ∃ nd e tgt, readAt nodes u = some nd ∧ e ∈ nd.children ∧ e.1 = w ∧
    nodes[e.2]? = some tgt ∧ tgt.id = v

/-- The list `π` of nodes is a path from `start` to `v` along edges, of total weight `W`. -/
inductive PathTo (nodes : List Node) (start : Int) : List Int → Int → Int → Prop where
  | single : PathTo nodes start [start] start 0
  | snoc {π : List Int} {u v W w : Int} : PathTo nodes start π u W → Edge nodes u w v →
      PathTo nodes start (π ++ [v]) v (W + w)

/-- The node `v` can be reached from `start` along edges. -/
def Reachable (nodes : List Node) (start v : Int) : Prop := ∃ π W, PathTo nodes start π v W

/-- The list `π` is the path from `start` to `v` that the predecessors `path` describe in state
`s`: each node after `start` is entered from its predecessor, which is visited, by an edge that
accounts for its `dist`, and no node occurs twice. -/
inductive Tree (nodes : List Node) (start : Int) (s : State) : List Int → Int → Prop where
  | root : Tree nodes start s [start] start
  | snoc {π : List Int} {u v w : Int} : Tree nodes start s π u → s.visited u = true →
      Edge nodes u w v → s.path v = u → s.dist v = s.dist u + w → v ∉ π →
      Tree nodes start s (π ++ [v]) v

/-- What holds of a recorded event: a popped node has a `dist` below `INT_MAX`, and an evaluated
sum is the weight of a simple path from `start` to `nextnode`. -/
def EventOk (nodes : List Node) (start : Int) : Event → Prop
  | Event.popped _ _ dcur => dcur < INT_MAX
  | Event.summed _ nextnode sum => ∃ π, PathTo nodes start π nextnode sum ∧ π.Nodup

/-- The loop invariant of `dijkstras`, for weights of any sign.  The argument `pend` is the node
whose adjacency list is being traversed together with the edges still to come, and `none` between
two iterations of the `while` loop. -/
structure Inv (nodes : List Node) (start : Int) (pend : Option (Int × List (Int × Nat)))
    (s : State) : Prop where
  entries : ∀ c v, (c, v) ∈ s.pq → Valid nodes v ∧ s.dist v ≤ c ∧ c < INT_MAX
  frontier : ∀ v, s.visited v = false → s.dist v < INT_MAX → (s.dist v, v) ∈ s.pq
  nodup : s.pq.Nodup
  stale : ∀ c v, (c, v) ∈ s.pq → s.visited v = true → s.dist v < c
  settled : ∀ v, s.visited v = true → Valid nodes v ∧ s.dist v < INT_MAX
  bound : ∀ v, s.dist v ≤ INT_MAX ∧ (s.dist v = INT_MAX → s.path v = -1)
  source : s.dist start = 0 ∧ s.path start = -1
  fresh : s.visited start = false → pend = none ∧ ∀ c v, (c, v) ∈ s.pq → v = start
  tree : ∀ v, s.dist v < INT_MAX → ∃ π, Tree nodes start s π v
  pending : ∀ u rest, pend = some (u, rest) → s.visited u = true ∧
    ∃ node, readAt nodes u = some node ∧ ∀ e ∈ rest, e ∈ node.children
  events : ∀ ev ∈ s.trace, EventOk nodes start ev

/-- The additional loop invariant for non-negative weights. -/
structure InvNN (nodes : List Node) (pend : Option (Int × List (Int × Nat))) (s : State) :
    Prop where
  nonneg : ∀ v, 0 ≤ s.dist v
  relaxed : ∀ u w v, s.visited u = true → Edge nodes u w v →
    (∃ rest, pend = some (u, rest)) ∨ s.dist v ≤ s.dist u + w
  relaxedPending : ∀ u rest, pend = some (u, rest) → ∀ node, readAt nodes u = some node →
    ∀ e ∈ node.children, e ∈ rest ∨ ∀ tgt, nodes[e.2]? = some tgt → s.dist tgt.id ≤ s.dist u + e.1
  keys : ∀ u, s.visited u = true → ∀ c v, (c, v) ∈ s.pq → s.dist u ≤ c
  current : ∀ u rest, pend = some (u, rest) → ∀ x, s.visited x = true → s.dist x ≤ s.dist u

/-- The work left to the loop: the entries of the queue and the adjacency lists of the nodes not
yet visited. -/
def work (nodes : List Node) (s : State) : Nat :=
  s.pq.length + ((List.range nodes.length).map (fun (i : Nat) =>
    if s.visited (i : Int) = true then 0 else ((nodes[i]?).map (fun nd => nd.children.length)).getD 0)).sum

end Dijkstra


namespace Dijkstra

/-- A three-node graph with a negative weight, built with `connect`: edges `0 - 1` of weight `5`,
`0 - 2` of weight `2` and `2 - 1` of weight `-4`. -/
def sampleNeg : List Node :=
  let nodes : List Node := (List.range 3).map (fun i => { id := (i : Int), children := [] })
  let nodes := connect nodes 0 1 5
  let nodes := connect nodes 0 2 2
  connect nodes 2 1 (-4)

end Dijkstra

namespace Dijkstra

/-- A graph of `m + 1` nodes, node `i` with id `i`, whose only edge goes from node `0` to the last
node `m` and has weight `1`. -/
def spoke (m : Nat) : List Node :=
  (List.range (m + 1)).map (fun (i : Nat) =>
    { id := (i : Int), children := if i = 0 then [((1 : Int), m)] else [] })

end Dijkstra

/-! ## Lemmas on counted loops and checked buffers -/

theorem mem_intRange {lo hi k : Int} : k ∈ intRange lo hi ↔ lo ≤ k ∧ k < hi := by
  unfold intRange
  simp only [List.mem_map, List.mem_range]
  constructor
  · rintro ⟨n, hn, rfl⟩
    omega
  · rintro ⟨h1, h2⟩
    exact ⟨(k - lo).toNat, by omega, by omega⟩

theorem intRange_nodup (lo hi : Int) : (intRange lo hi).Nodup := by
  unfold intRange
  apply List.Nodup.map _ (List.nodup_range _)
  intro a b h
  simpa using h

theorem intRange_eq_nil {lo hi : Int} (h : hi ≤ lo) : intRange lo hi = [] := by
  unfold intRange
  have : (hi - lo).toNat = 0 := by omega
  simp [this]

theorem intRange_append {lo mid hi : Int} (h1 : lo ≤ mid) (h2 : mid ≤ hi) :
    intRange lo hi = intRange lo mid ++ intRange mid hi := by
  unfold intRange
  have e : (hi - lo).toNat = (mid - lo).toNat + (hi - mid).toNat := by omega
  rw [e, List.range_add, List.map_append, List.map_map]
  congr 1
  apply List.map_congr_left
  intro n _
  simp only [Function.comp]
  omega

theorem sum_map_indicator {ι V : Type} [DecidableEq ι] [AddCommMonoid V] (L : List ι)
    (hnd : L.Nodup) (a : ι) (f : ι → V) :
    (L.map (fun i => if i = a then f i else 0)).sum = if a ∈ L then f a else 0 := by
  induction L with
  | nil => simp
  | cons b L ih =>
    rw [List.nodup_cons] at hnd
    simp only [List.map_cons, List.sum_cons, ih hnd.2, List.mem_cons]
    by_cases hb : b = a
    · subst hb
      simp [hnd.1]
    · have : ¬ a = b := fun h => hb h.symm
      simp [hb, this]

section Fold
variable {σ ι : Type}

theorem foldlM_inv (Inv : σ → Prop) (body : σ → ι → Option σ) (L : List ι)
    (h : ∀ i ∈ L, ∀ s s', Inv s → body s i = some s' → Inv s') :
    ∀ s s', Inv s → L.foldlM body s = some s' → Inv s' := by
  induction L with
  | nil =>
    intro s s' hI hs
    simp only [List.foldlM_nil, Option.pure_def, Option.some.injEq] at hs
    exact hs ▸ hI
  | cons a L ih =>
    intro s s' hI hs
    rw [List.foldlM_cons] at hs
    cases hb : body s a with
    | none => simp [hb] at hs
    | some s1 =>
      simp only [hb, Option.bind_eq_bind, Option.some_bind] at hs
      exact ih (fun i hi => h i (List.mem_cons_of_mem _ hi)) s1 s'
        (h a (List.mem_cons_self _ _) s s1 hI hb) hs

theorem foldlM_adds {P V : Type} [AddCommMonoid V] (get : σ → P → V)
    (body : σ → ι → Option σ) (c : ι → P → V) (L : List ι)
    (h : ∀ i ∈ L, ∀ s s', body s i = some s' → ∀ p, get s' p = get s p + c i p) :
    ∀ s s', L.foldlM body s = some s' →
      ∀ p, get s' p = get s p + (L.map (fun i => c i p)).sum := by
  induction L with
  | nil =>
    intro s s' hs p
    simp only [List.foldlM_nil, Option.pure_def, Option.some.injEq] at hs
    simp [hs]
  | cons a L ih =>
    intro s s' hs p
    rw [List.foldlM_cons] at hs
    cases hb : body s a with
    | none => simp [hb] at hs
    | some s1 =>
      simp only [hb, Option.bind_eq_bind, Option.some_bind] at hs
      rw [ih (fun i hi => h i (List.mem_cons_of_mem _ hi)) s1 s' hs p,
        h a (List.mem_cons_self _ _) s s1 hb p, List.map_cons, List.sum_cons, add_assoc]

theorem foldlM_isSome_iff (Inv : σ → Prop) (body : σ → ι → Option σ) (ok : ι → Prop)
    (L : List ι)
    (hinv : ∀ i ∈ L, ∀ s s', Inv s → body s i = some s' → Inv s')
    (hok : ∀ i ∈ L, ∀ s, Inv s → ((body s i).isSome ↔ ok i)) :
    ∀ s, Inv s → ((L.foldlM body s).isSome ↔ ∀ i ∈ L, ok i) := by
  induction L with
  | nil => intro s _; simp
  | cons a L ih =>
    intro s hI
    rw [List.foldlM_cons]
    have ha := hok a (List.mem_cons_self _ _) s hI
    cases hb : body s a with
    | none =>
      rw [hb] at ha
      simp only [Option.bind_eq_bind, Option.none_bind, Option.isSome_none, Bool.false_eq_true,
        List.mem_cons, forall_eq_or_imp, false_iff, not_and]
      intro h
      exact absurd (ha.2 h) (by simp)
    | some s1 =>
      rw [hb] at ha
      simp only [Option.bind_eq_bind, Option.some_bind, List.mem_cons, forall_eq_or_imp]
      rw [ih (fun i hi => hinv i (List.mem_cons_of_mem _ hi))
        (fun i hi => hok i (List.mem_cons_of_mem _ hi)) s1
        (hinv a (List.mem_cons_self _ _) s s1 hI hb)]
      simp [ha.1 (by simp)]

end Fold

theorem readAt_isSome {β : Type} (buf : List β) (i : Int) :
    (readAt buf i).isSome ↔ inb i buf.length := by
  unfold readAt inb
  by_cases h : 0 ≤ i
  · simp only [h, if_true, true_and]
    rw [Option.isSome_iff_exists]
    constructor
    · rintro ⟨a, ha⟩
      have := (List.getElem?_eq_some.1 ha).1
      omega
    · intro hlt
      have hl : i.toNat < buf.length := by omega
      exact ⟨buf[i.toNat], List.getElem?_eq_getElem hl⟩
  · simp [h]

theorem readAt_eq_some {β : Type} {buf : List β} {i : Int} {v : β} (h : readAt buf i = some v) :
    inb i buf.length := by
  rw [← readAt_isSome, h]; rfl

theorem writeAt_isSome {β : Type} (buf : List β) (i : Int) (v : β) :
    (writeAt buf i v).isSome ↔ inb i buf.length := by
  unfold writeAt inb
  by_cases h : 0 ≤ i ∧ i.toNat < buf.length
  · rw [if_pos h]
    simp only [Option.isSome_some, true_iff]
    exact ⟨h.1, by omega⟩
  · rw [if_neg h]
    simp only [Option.isSome_none, Bool.false_eq_true, false_iff]
    intro hc
    exact h ⟨hc.1, by omega⟩

theorem writeAt_length {β : Type} {buf buf' : List β} {i : Int} {v : β}
    (h : writeAt buf i v = some buf') : buf'.length = buf.length := by
  unfold writeAt at h
  split at h
  · simp only [Option.some.injEq] at h
    rw [← h, List.length_set]
  · simp at h

theorem readAt_writeAt {β : Type} {buf buf' : List β} {i : Int} {v : β}
    (h : writeAt buf i v = some buf') (q : Int) :
    readAt buf' q = if i = q then some v else readAt buf q := by
  unfold writeAt at h
  split at h
  · rename_i hi
    simp only [Option.some.injEq] at h
    subst h
    unfold readAt
    by_cases hq : 0 ≤ q
    · simp only [hq, if_true, List.getElem?_set]
      by_cases e : i = q
      · subst e
        simp [hi.2]
      · have : ¬ i.toNat = q.toNat := by omega
        simp [e, this]
    · have : ¬ i = q := by omega
      simp [hq, this]
  · simp at h

theorem laneAt_writeAt {V : Type} [Zero V] {buf buf' : List V} {i : Int} {v : V}
    (h : writeAt buf i v = some buf') (q : Int) :
    laneAt buf' q = if i = q then v else laneAt buf q := by
  unfold laneAt
  rw [readAt_writeAt h q]
  split <;> simp

theorem list_eq_of_laneAt {V : Type} [Zero V] {C D : List V} (hlen : C.length = D.length)
    (h : ∀ q : Int, inb q C.length → laneAt C q = laneAt D q) : C = D := by
  apply List.ext_getElem hlen
  intro n h1 h2
  have := h (n : Int) ⟨by omega, by omega⟩
  unfold laneAt readAt at this
  simpa [List.getElem?_eq_getElem, h1, h2] using this

/-! ## Lemmas on the kernel -/

namespace MatKernel

theorem keRead_isSome {V : Type} {ke : List (List V)} {n w : Nat} (hr : Rect ke n w) (a b : Int) :
    (keRead ke a b).isSome ↔ inb a n ∧ inb b w := by
  unfold keRead
  cases h : readAt ke a with
  | none =>
    have := readAt_isSome ke a
    rw [h, hr.1] at this
    simp only [Option.bind_eq_bind, Option.none_bind, Option.isSome_none, Bool.false_eq_true,
      false_iff, not_and]
    intro ha
    exact absurd (this.2 ha) (by simp)
  | some row =>
    have ha : inb a n := hr.1 ▸ readAt_eq_some h
    have hrow : row ∈ ke := by
      unfold readAt at h
      split at h
      · exact List.getElem?_mem h
      · simp at h
    simp only [Option.bind_eq_bind, Option.some_bind, readAt_isSome, hr.2 row hrow, ha, true_and]

section Cells
variable {V : Type} [AddCommMonoid V]

theorem addAt_isSome (C : List V) (idx : Int) (v : V) :
    (addAt C idx v).isSome ↔ inb idx C.length := by
  unfold addAt
  cases h : readAt C idx with
  | none =>
    have := readAt_isSome C idx
    rw [h] at this
    simpa using this
  | some c =>
    simp only [Option.bind_eq_bind, Option.some_bind]
    exact writeAt_isSome C idx (c + v)

theorem addAt_length {C C' : List V} {idx : Int} {v : V} (h : addAt C idx v = some C') :
    C'.length = C.length := by
  unfold addAt at h
  cases hr : readAt C idx with
  | none => simp [hr] at h
  | some c =>
    simp only [hr, Option.bind_eq_bind, Option.some_bind] at h
    exact writeAt_length h

theorem addAt_laneAt {C C' : List V} {idx : Int} {v : V} (h : addAt C idx v = some C')
    (q : Int) : laneAt C' q = laneAt C q + if idx = q then v else 0 := by
  unfold addAt at h
  cases hr : readAt C idx with
  | none => simp [hr] at h
  | some c =>
    simp only [hr, Option.bind_eq_bind, Option.some_bind] at h
    rw [laneAt_writeAt h q]
    by_cases e : idx = q
    · subst e
      simp [laneAt, hr]
    · simp [e]

theorem keAdd_isSome {ke : List (List V)} {n w : Nat} (hr : Rect ke n w) (a b : Int) (v : V) :
    (keAdd ke a b v).isSome ↔ inb a n ∧ inb b w := by
  rw [← keRead_isSome hr]
  unfold keAdd keRead
  cases h : readAt ke a with
  | none => simp
  | some row =>
    simp only [Option.bind_eq_bind, Option.some_bind]
    cases h2 : readAt row b with
    | none => simp
    | some cell =>
      simp only [Option.some_bind, Option.isSome_some, iff_true]
      have hw := (writeAt_isSome row b (cell + v)).2 (readAt_eq_some h2)
      obtain ⟨row', hrow'⟩ := Option.isSome_iff_exists.1 hw
      simp only [hrow', Option.some_bind]
      exact (writeAt_isSome ke a row').2 (readAt_eq_some h)

theorem keAdd_spec {ke ke' : List (List V)} {a b : Int} {v : V} (h : keAdd ke a b v = some ke') :
    ∃ row cell row', readAt ke a = some row ∧ readAt row b = some cell ∧
      writeAt row b (cell + v) = some row' ∧ writeAt ke a row' = some ke' := by
  unfold keAdd at h
  cases h1 : readAt ke a with
  | none => simp [h1] at h
  | some row =>
    simp only [h1, Option.bind_eq_bind, Option.some_bind] at h
    cases h2 : readAt row b with
    | none => simp [h2] at h
    | some cell =>
      simp only [h2, Option.some_bind] at h
      cases h3 : writeAt row b (cell + v) with
      | none => simp [h3] at h
      | some row' =>
        simp only [h3, Option.some_bind] at h
        exact ⟨row, cell, row', rfl, h2, h3, h⟩

theorem keAdd_rect {ke ke' : List (List V)} {n w : Nat} {a b : Int} {v : V}
    (hr : Rect ke n w) (h : keAdd ke a b v = some ke') : Rect ke' n w := by
  obtain ⟨row, cell, row', h1, h2, h3, h4⟩ := keAdd_spec h
  have hrow : row ∈ ke := by
    unfold readAt at h1
    split at h1
    · exact List.getElem?_mem h1
    · simp at h1
  refine ⟨(writeAt_length h4).trans hr.1, ?_⟩
  intro r hmem
  unfold writeAt at h4
  split at h4
  · simp only [Option.some.injEq] at h4
    subst h4
    rcases List.mem_or_eq_of_mem_set hmem with h5 | h5
    · exact hr.2 r h5
    · rw [h5, writeAt_length h3]
      exact hr.2 row hrow
  · simp at h4

theorem keAdd_cellAt {ke ke' : List (List V)} {a b : Int} {v : V}
    (h : keAdd ke a b v = some ke') (p q : Int) :
    cellAt ke' p q = cellAt ke p q + if a = p ∧ b = q then v else 0 := by
  obtain ⟨row, cell, row', h1, h2, h3, h4⟩ := keAdd_spec h
  unfold cellAt keRead
  rw [readAt_writeAt h4 p]
  by_cases e : a = p
  · subst e
    simp only [if_true, Option.bind_eq_bind, Option.some_bind, h1, true_and]
    rw [readAt_writeAt h3 q]
    by_cases e2 : b = q
    · subst e2
      simp [h2]
    · simp [e2]
  · simp [e]

theorem cellAt_keInit (α : Type) [AddCommMonoid α] (BLOCK_SIZE : Nat) (kernel_size : Nat × Nat)
    (a b : Int) : cellAt (keInit α BLOCK_SIZE kernel_size) a b = 0 := by
  unfold cellAt keRead keInit readAt
  by_cases ha : 0 ≤ a
  · simp only [ha, if_true, List.getElem?_replicate]
    split
    · simp only [Option.bind_eq_bind, Option.some_bind]
      by_cases hb : 0 ≤ b
      · simp only [hb, if_true, List.getElem?_replicate]
        split <;> simp
      · simp [hb]
    · simp
  · simp [ha]

theorem rect_keInit (α : Type) [AddCommMonoid α] (BLOCK_SIZE : Nat) (kernel_size : Nat × Nat) :
    Rect (keInit α BLOCK_SIZE kernel_size) kernel_size.1 (kernel_size.2 / BLOCK_SIZE) := by
  unfold Rect keInit
  refine ⟨List.length_replicate _ _, ?_⟩
  intro row hrow
  rw [List.eq_of_mem_replicate hrow, List.length_replicate]

end Cells

end MatKernel

namespace MatKernel

theorem sum_map_ite_const {ι V : Type} [AddCommMonoid V] (L : List ι) (P : Prop) [Decidable P]
    (f : ι → V) : (L.map (fun j => if P then f j else 0)).sum = if P then (L.map f).sum else 0 := by
  by_cases h : P <;> simp [h]

section Flush
variable {V : Type} [AddCommMonoid V]

theorem flushBody_spec {ke : List (List V)} {x y stride i j : Int} {C C' : List V}
    (h : flushBody ke x y stride i C j = some C') :
    C'.length = C.length ∧
      ∀ q, laneAt C' q = laneAt C q + if i * stride + j = q then cellAt ke (i - x) (j - y) else 0 := by
  unfold flushBody at h
  cases hk : keRead ke (i - x) (j - y) with
  | none => simp [hk] at h
  | some v =>
    simp only [hk, Option.bind_eq_bind, Option.some_bind] at h
    refine ⟨addAt_length h, fun q => ?_⟩
    rw [addAt_laneAt h q]
    simp [cellAt, hk]

theorem flushBody_isSome {ke : List (List V)} {n w : Nat} (hr : Rect ke n w)
    (x y stride i j : Int) (C : List V) :
    (flushBody ke x y stride i C j).isSome ↔
      (inb (i - x) n ∧ inb (j - y) w) ∧ inb (i * stride + j) C.length := by
  unfold flushBody
  rw [← keRead_isSome hr, ← addAt_isSome C (i * stride + j) (cellAt ke (i - x) (j - y))]
  cases hk : keRead ke (i - x) (j - y) with
  | none => simp
  | some v => simp [addAt_isSome]

theorem flushRow_length {ke : List (List V)} {x y stride i : Int} (L : List Int) {C C' : List V}
    (h : L.foldlM (flushBody ke x y stride i) C = some C') : C'.length = C.length :=
  foldlM_inv (fun s => s.length = C.length) _ L
    (fun _ _ _ _ hs hb => (flushBody_spec hb).1.trans hs) C C' rfl h

theorem flush_length {BLOCK_SIZE : Nat} {kernel_size : Nat × Nat} {ke : List (List V)}
    {C C' : List V} {x y stride : Int}
    (h : flush BLOCK_SIZE kernel_size ke C x y stride = some C') : C'.length = C.length :=
  foldlM_inv (fun s => s.length = C.length) _ _
    (fun _ _ _ _ hs hb => (flushRow_length _ hb).trans hs) C C' rfl h

theorem flush_laneAt {BLOCK_SIZE : Nat} {kernel_size : Nat × Nat} {ke : List (List V)}
    {C C' : List V} {x y stride : Int}
    (h : flush BLOCK_SIZE kernel_size ke C x y stride = some C') (q : Int) :
    laneAt C' q = laneAt C q +
      ((intRange x (x + kernel_size.1)).map (fun i =>
        ((intRange y (y + ((kernel_size.2 / BLOCK_SIZE : Nat) : Int))).map (fun j =>
          if i * stride + j = q then cellAt ke (i - x) (j - y) else 0)).sum)).sum := by
  refine foldlM_adds (fun (s : List V) (q : Int) => laneAt s q) _
    (fun i q => ((intRange y (y + ((kernel_size.2 / BLOCK_SIZE : Nat) : Int))).map (fun j =>
          if i * stride + j = q then cellAt ke (i - x) (j - y) else 0)).sum) _ ?_ C C' h q
  intro i _ s s' hb p
  exact foldlM_adds (fun (s : List V) (q : Int) => laneAt s q) _
    (fun j q => if i * stride + j = q then cellAt ke (i - x) (j - y) else 0) _
    (fun j _ t t' ht p => (flushBody_spec ht).2 p) s s' hb p

theorem flush_isSome {BLOCK_SIZE : Nat} {kernel_size : Nat × Nat} {ke : List (List V)}
    (hr : Rect ke kernel_size.1 (kernel_size.2 / BLOCK_SIZE)) (C : List V) (x y stride : Int) :
    (flush BLOCK_SIZE kernel_size ke C x y stride).isSome ↔
      ∀ i ∈ intRange x (x + kernel_size.1),
        ∀ j ∈ intRange y (y + ((kernel_size.2 / BLOCK_SIZE : Nat) : Int)),
          inb (i * stride + j) C.length := by
  unfold flush forRange
  refine foldlM_isSome_iff (fun s => s.length = C.length) _ _ _ ?_ ?_ C rfl
  · intro i _ s s' hs hb
    exact (flushRow_length _ hb).trans hs
  · intro i hi s hs
    rw [foldlM_isSome_iff (fun t => t.length = C.length) _
      (fun j => inb (i * stride + j) C.length) _ ?_ ?_ s hs]
    · intro j _ t t' ht hb
      exact (flushBody_spec hb).1.trans ht
    · intro j hj t ht
      rw [flushBody_isSome hr, ht]
      rw [mem_intRange] at hi hj
      have h1 : inb (i - x) kernel_size.1 := ⟨by omega, by omega⟩
      have h2 : inb (j - y) (kernel_size.2 / BLOCK_SIZE) := ⟨by omega, by omega⟩
      simp [h1, h2]

end Flush

end MatKernel

namespace MatKernel

theorem slotAt_isSome {α : Type} {BLOCK_SIZE : Nat} (v : intvec α BLOCK_SIZE) (s : Int) :
    (slotAt v s).isSome ↔ inb s BLOCK_SIZE := by
  unfold slotAt inb
  by_cases h : 0 ≤ s ∧ s.toNat < BLOCK_SIZE
  · rw [dif_pos h]
    simp only [Option.isSome_some, true_iff]
    exact ⟨h.1, by omega⟩
  · rw [dif_neg h]
    simp only [Option.isSome_none, Bool.false_eq_true, false_iff]
    intro hc
    exact h ⟨hc.1, by omega⟩

section Accumulate
variable {α : Type} [CommRing α] {BLOCK_SIZE : Nat}

/-- The product added by one execution of the innermost statement. -/
theorem accBody_spec {A B : List (intvec α BLOCK_SIZE)} {x y stride k i j : Int}
    {ke ke' : List (List (intvec α BLOCK_SIZE))}
    (h : accBody BLOCK_SIZE A B x y stride k i ke j = some ke') :
    keAdd ke (i - x) (j - y)
      ((broadcast (elem A stride i k) : intvec α BLOCK_SIZE) * laneAt B (k * stride + j))
      = some ke' := by
  unfold accBody at h
  cases h1 : readAt A (i * stride + k.tdiv BLOCK_SIZE) with
  | none => simp [h1] at h
  | some lane =>
    simp only [h1, Option.bind_eq_bind, Option.some_bind] at h
    cases h2 : slotAt lane (k.tmod BLOCK_SIZE) with
    | none => simp [h2] at h
    | some a =>
      simp only [h2, Option.some_bind] at h
      cases h3 : readAt B (k * stride + j) with
      | none => simp [h3] at h
      | some b =>
        simp only [h3, Option.some_bind, zero_add] at h
        have e1 : elem A stride i k = a := by simp [elem, h1, h2]
        have e2 : laneAt B (k * stride + j) = b := by simp [laneAt, h3]
        rw [e1, e2]
        exact h

theorem accBody_isSome (A B : List (intvec α BLOCK_SIZE)) (x y stride k i j : Int)
    {ke : List (List (intvec α BLOCK_SIZE))} {n w : Nat} (hr : Rect ke n w) :
    (accBody BLOCK_SIZE A B x y stride k i ke j).isSome ↔
      (inb (i * stride + k.tdiv BLOCK_SIZE) A.length ∧ inb (k.tmod BLOCK_SIZE) BLOCK_SIZE ∧
        inb (k * stride + j) B.length) ∧ (inb (i - x) n ∧ inb (j - y) w) := by
  unfold accBody
  rw [← readAt_isSome A, ← readAt_isSome B]
  cases h1 : readAt A (i * stride + k.tdiv BLOCK_SIZE) with
  | none => simp
  | some lane =>
    rw [← slotAt_isSome lane]
    simp only [Option.bind_eq_bind, Option.some_bind]
    cases h2 : slotAt lane (k.tmod BLOCK_SIZE) with
    | none => simp
    | some a =>
      simp only [Option.some_bind]
      cases h3 : readAt B (k * stride + j) with
      | none => simp
      | some b =>
        simp only [Option.some_bind, Option.isSome_some, true_and]
        exact keAdd_isSome hr _ _ _

theorem accBody_rect {A B : List (intvec α BLOCK_SIZE)} {x y stride k i j : Int}
    {ke ke' : List (List (intvec α BLOCK_SIZE))} {n w : Nat} (hr : Rect ke n w)
    (h : accBody BLOCK_SIZE A B x y stride k i ke j = some ke') : Rect ke' n w :=
  @keAdd_rect (intvec α BLOCK_SIZE) _ _ _ _ _ _ _ _ hr (accBody_spec h)

theorem accBody_cellAt {A B : List (intvec α BLOCK_SIZE)} {x y stride k i j : Int}
    {ke ke' : List (List (intvec α BLOCK_SIZE))}
    (h : accBody BLOCK_SIZE A B x y stride k i ke j = some ke') (p q : Int) :
    cellAt ke' p q = cellAt ke p q + if i - x = p ∧ j - y = q then
      ((broadcast (elem A stride i k) : intvec α BLOCK_SIZE) * laneAt B (k * stride + j)) else 0 :=
  @keAdd_cellAt (intvec α BLOCK_SIZE) _ _ _ _ _ _ (accBody_spec h) p q

theorem accumulate_rect {kernel_size : Nat × Nat} {A B : List (intvec α BLOCK_SIZE)}
    {x y l r stride : Int} {ke : List (List (intvec α BLOCK_SIZE))}
    (h : accumulate BLOCK_SIZE kernel_size A B x y l r stride = some ke) :
    Rect ke kernel_size.1 (kernel_size.2 / BLOCK_SIZE) := by
  refine foldlM_inv (fun s => Rect s kernel_size.1 (kernel_size.2 / BLOCK_SIZE)) _ _ ?_ _ ke
    (rect_keInit α BLOCK_SIZE kernel_size) h
  intro k _ s s' hs hb
  refine foldlM_inv (fun s => Rect s kernel_size.1 (kernel_size.2 / BLOCK_SIZE)) _ _ ?_ s s' hs hb
  intro i _ s s' hs hb
  refine foldlM_inv (fun s => Rect s kernel_size.1 (kernel_size.2 / BLOCK_SIZE)) _ _ ?_ s s' hs hb
  intro j _ s s' hs hb
  exact accBody_rect hs hb

theorem accumulate_cellAt {kernel_size : Nat × Nat} {A B : List (intvec α BLOCK_SIZE)}
    {x y l r stride : Int} {ke : List (List (intvec α BLOCK_SIZE))}
    (h : accumulate BLOCK_SIZE kernel_size A B x y l r stride = some ke) {i j : Int}
    (hi : i ∈ intRange x (x + kernel_size.1))
    (hj : j ∈ intRange y (y + ((kernel_size.2 / BLOCK_SIZE : Nat) : Int))) :
    cellAt ke (i - x) (j - y) = tileGain A B stride l r i j := by
  have key := foldlM_adds
    (fun (s : List (List (intvec α BLOCK_SIZE))) (p : Int × Int) => cellAt s (p.1 - x) (p.2 - y))
    _ (fun k p => ((intRange x (x + kernel_size.1)).map (fun i' =>
        ((intRange y (y + ((kernel_size.2 / BLOCK_SIZE : Nat) : Int))).map (fun j' =>
          if i' = p.1 then (if j' = p.2 then
            (broadcast (elem A stride i' k) : intvec α BLOCK_SIZE) * laneAt B (k * stride + j')
            else 0) else 0)).sum)).sum) _ ?_ _ ke h (i, j)
  · simp only [cellAt_keInit, zero_add] at key
    rw [key]
    unfold tileGain
    congr 1
    apply List.map_congr_left
    intro k _
    simp only [sum_map_ite_const, sum_map_indicator _ (intRange_nodup _ _), hi, hj, if_true]
  · intro k _ s s' hb p
    refine foldlM_adds
      (fun (s : List (List (intvec α BLOCK_SIZE))) (p : Int × Int) => cellAt s (p.1 - x) (p.2 - y))
      _ (fun i' p => ((intRange y (y + ((kernel_size.2 / BLOCK_SIZE : Nat) : Int))).map (fun j' =>
          if i' = p.1 then (if j' = p.2 then
            (broadcast (elem A stride i' k) : intvec α BLOCK_SIZE) * laneAt B (k * stride + j')
            else 0) else 0)).sum) _ ?_ s s' hb p
    intro i' _ s s' hb p
    refine foldlM_adds
      (fun (s : List (List (intvec α BLOCK_SIZE))) (p : Int × Int) => cellAt s (p.1 - x) (p.2 - y))
      _ (fun j' p => if i' = p.1 then (if j' = p.2 then
            (broadcast (elem A stride i' k) : intvec α BLOCK_SIZE) * laneAt B (k * stride + j')
            else 0) else 0) _ ?_ s s' hb p
    intro j' _ s s' hb p
    show cellAt s' (p.1 - x) (p.2 - y) = cellAt s (p.1 - x) (p.2 - y) + _
    rw [accBody_cellAt hb]
    congr 1
    by_cases e1 : i' = p.1
    · by_cases e2 : j' = p.2
      · simp [e1, e2]
      · have : ¬ (j' - y = p.2 - y) := by omega
        simp [e1, e2, this]
    · have : ¬ (i' - x = p.1 - x) := by omega
      simp [e1, this]

theorem accumulate_isSome (kernel_size : Nat × Nat) (A B : List (intvec α BLOCK_SIZE))
    (x y l r stride : Int) :
    (accumulate BLOCK_SIZE kernel_size A B x y l r stride).isSome ↔
      ∀ k ∈ intRange l r, ∀ i ∈ intRange x (x + kernel_size.1),
        ∀ j ∈ intRange y (y + ((kernel_size.2 / BLOCK_SIZE : Nat) : Int)),
          inb (i * stride + k.tdiv BLOCK_SIZE) A.length ∧ inb (k.tmod BLOCK_SIZE) BLOCK_SIZE ∧
            inb (k * stride + j) B.length := by
  unfold accumulate forRange
  refine foldlM_isSome_iff (fun s => Rect s kernel_size.1 (kernel_size.2 / BLOCK_SIZE)) _ _ _
    ?_ ?_ _ (rect_keInit α BLOCK_SIZE kernel_size)
  · intro k _ s s' hs hb
    refine foldlM_inv (fun s => Rect s kernel_size.1 (kernel_size.2 / BLOCK_SIZE)) _ _ ?_ s s' hs hb
    intro i _ s s' hs hb
    refine foldlM_inv (fun s => Rect s kernel_size.1 (kernel_size.2 / BLOCK_SIZE)) _ _ ?_ s s' hs hb
    intro j _ s s' hs hb
    exact accBody_rect hs hb
  · intro k _ s hs
    refine foldlM_isSome_iff (fun s => Rect s kernel_size.1 (kernel_size.2 / BLOCK_SIZE)) _
      (fun i => ∀ j ∈ intRange y (y + ((kernel_size.2 / BLOCK_SIZE : Nat) : Int)),
          inb (i * stride + k.tdiv BLOCK_SIZE) A.length ∧ inb (k.tmod BLOCK_SIZE) BLOCK_SIZE ∧
            inb (k * stride + j) B.length) _ ?_ ?_ s hs
    · intro i _ s s' hs hb
      refine foldlM_inv (fun s => Rect s kernel_size.1 (kernel_size.2 / BLOCK_SIZE)) _ _ ?_ s s' hs hb
      intro j _ s s' hs hb
      exact accBody_rect hs hb
    · intro i hi s hs
      refine foldlM_isSome_iff (fun s => Rect s kernel_size.1 (kernel_size.2 / BLOCK_SIZE)) _
        (fun j => inb (i * stride + k.tdiv BLOCK_SIZE) A.length ∧ inb (k.tmod BLOCK_SIZE) BLOCK_SIZE ∧
            inb (k * stride + j) B.length) _ ?_ ?_ s hs
      · intro j _ s s' hs hb
        exact accBody_rect hs hb
      · intro j hj s hs
        rw [accBody_isSome A B x y stride k i j hs]
        rw [mem_intRange] at hi hj
        have h1 : inb (i - x) kernel_size.1 := ⟨by omega, by omega⟩
        have h2 : inb (j - y) (kernel_size.2 / BLOCK_SIZE) := ⟨by omega, by omega⟩
        simp [h1, h2]

end Accumulate

end MatKernel

namespace MatKernel

section KernelLemmas
variable {α : Type} [CommRing α] {BLOCK_SIZE : Nat} {kernel_size : Nat × Nat}

theorem kernel_eq_some {A B C C' : List (intvec α BLOCK_SIZE)} {x y l r stride : Int}
    (h : kernel BLOCK_SIZE kernel_size A B C x y l r stride = some C') :
    ∃ ke, accumulate BLOCK_SIZE kernel_size A B x y l r stride = some ke ∧
      flush BLOCK_SIZE kernel_size ke C x y stride = some C' := by
  unfold kernel at h
  cases ha : accumulate BLOCK_SIZE kernel_size A B x y l r stride with
  | none => simp [ha] at h
  | some ke =>
    simp only [ha, Option.bind_eq_bind, Option.some_bind] at h
    exact ⟨ke, rfl, h⟩

theorem kernel_length {A B C C' : List (intvec α BLOCK_SIZE)} {x y l r stride : Int}
    (h : kernel BLOCK_SIZE kernel_size A B C x y l r stride = some C') :
    C'.length = C.length := by
  obtain ⟨ke, _, hf⟩ := kernel_eq_some h
  exact @flush_length (intvec α BLOCK_SIZE) _ _ _ _ _ _ _ _ _ hf

theorem kernel_laneAt {A B C C' : List (intvec α BLOCK_SIZE)} {x y l r stride : Int}
    (h : kernel BLOCK_SIZE kernel_size A B C x y l r stride = some C') (q : Int) :
    laneAt C' q = laneAt C q + delta BLOCK_SIZE kernel_size A B x y l r stride q := by
  obtain ⟨ke, ha, hf⟩ := kernel_eq_some h
  rw [@flush_laneAt (intvec α BLOCK_SIZE) _ _ _ _ _ _ _ _ _ hf q]
  unfold delta
  congr 2
  apply List.map_congr_left
  intro i hi
  congr 1
  apply List.map_congr_left
  intro j hj
  rw [accumulate_cellAt ha hi hj]

theorem kernel_isSome_iff (A B C : List (intvec α BLOCK_SIZE)) (x y l r stride : Int) :
    (kernel BLOCK_SIZE kernel_size A B C x y l r stride).isSome ↔
      InBounds BLOCK_SIZE kernel_size A.length B.length C.length x y l r stride := by
  unfold kernel InBounds
  rw [← accumulate_isSome]
  cases ha : accumulate BLOCK_SIZE kernel_size A B x y l r stride with
  | none => simp
  | some ke =>
    simp only [Option.bind_eq_bind, Option.some_bind, Option.isSome_some, true_and]
    exact @flush_isSome (intvec α BLOCK_SIZE) _ _ _ _ (accumulate_rect ha) C x y stride

theorem kernel_some_of_inBounds {A B C : List (intvec α BLOCK_SIZE)} {x y l r stride : Int}
    (h : InBounds BLOCK_SIZE kernel_size A.length B.length C.length x y l r stride) :
    ∃ C', kernel BLOCK_SIZE kernel_size A B C x y l r stride = some C' :=
  Option.isSome_iff_exists.1 ((kernel_isSome_iff A B C x y l r stride).2 h)

theorem inBounds_of_some {A B C C' : List (intvec α BLOCK_SIZE)} {x y l r stride : Int}
    (h : kernel BLOCK_SIZE kernel_size A B C x y l r stride = some C') :
    InBounds BLOCK_SIZE kernel_size A.length B.length C.length x y l r stride :=
  (kernel_isSome_iff A B C x y l r stride).1 (by rw [h]; rfl)

theorem delta_off_tile (A B : List (intvec α BLOCK_SIZE)) {x y l r stride q : Int}
    (hq : ∀ i ∈ intRange x (x + kernel_size.1),
      ∀ j ∈ intRange y (y + ((kernel_size.2 / BLOCK_SIZE : Nat) : Int)), i * stride + j ≠ q) :
    delta BLOCK_SIZE kernel_size A B x y l r stride q = 0 := by
  unfold delta
  apply List.sum_eq_zero
  intro v hv
  obtain ⟨i, hi, rfl⟩ := List.mem_map.1 hv
  apply List.sum_eq_zero
  intro v hv
  obtain ⟨j, hj, rfl⟩ := List.mem_map.1 hv
  simp [hq i hi j hj]

theorem tileGain_append (A B : List (intvec α BLOCK_SIZE)) {l m r : Int} (stride i j : Int)
    (h1 : l ≤ m) (h2 : m ≤ r) :
    tileGain A B stride l r i j = tileGain A B stride l m i j + tileGain A B stride m r i j := by
  unfold tileGain
  rw [intRange_append h1 h2, List.map_append, List.sum_append]

theorem delta_append (A B : List (intvec α BLOCK_SIZE)) {l m r : Int} (x y stride q : Int)
    (h1 : l ≤ m) (h2 : m ≤ r) :
    delta BLOCK_SIZE kernel_size A B x y l r stride q =
      delta BLOCK_SIZE kernel_size A B x y l m stride q +
        delta BLOCK_SIZE kernel_size A B x y m r stride q := by
  unfold delta
  rw [← List.sum_map_add]
  congr 1
  apply List.map_congr_left
  intro i _
  rw [← List.sum_map_add]
  congr 1
  apply List.map_congr_left
  intro j _
  by_cases e : i * stride + j = q
  · simp [e, tileGain_append A B stride i j h1 h2]
  · simp [e]

theorem readAt_eq_of_laneAt {C D : List (intvec α BLOCK_SIZE)} (hlen : C.length = D.length)
    {q : Int} (h : laneAt C q = laneAt D q) : readAt C q = readAt D q := by
  unfold laneAt at h
  have h1 := readAt_isSome C q
  have h2 := readAt_isSome D q
  rw [hlen] at h1
  cases hc : readAt C q with
  | none =>
    cases hd : readAt D q with
    | none => rfl
    | some d =>
      rw [hc] at h1; rw [hd] at h2
      exact absurd (h1.2 (h2.1 rfl)) (by simp)
  | some c =>
    cases hd : readAt D q with
    | none =>
      rw [hc] at h1; rw [hd] at h2
      exact absurd (h2.2 (h1.1 rfl)) (by simp)
    | some d =>
      rw [hc, hd] at h
      simpa using h

end KernelLemmas

end MatKernel

namespace MatKernel

section MoreLemmas
variable {α : Type} [CommRing α] {BLOCK_SIZE : Nat} {kernel_size : Nat × Nat}

theorem kernel_eq_some_iff (A B C D : List (intvec α BLOCK_SIZE)) (x y l r stride : Int) :
    kernel BLOCK_SIZE kernel_size A B C x y l r stride = some D ↔
      InBounds BLOCK_SIZE kernel_size A.length B.length C.length x y l r stride ∧
        D.length = C.length ∧
        ∀ q, laneAt D q = laneAt C q + delta BLOCK_SIZE kernel_size A B x y l r stride q := by
  constructor
  · intro h
    exact ⟨inBounds_of_some h, kernel_length h, kernel_laneAt h⟩
  · rintro ⟨hin, hlen, hq⟩
    obtain ⟨C', h⟩ := kernel_some_of_inBounds (C := C) hin
    rw [h]
    congr 1
    apply list_eq_of_laneAt ((kernel_length h).trans hlen.symm)
    intro q _
    rw [kernel_laneAt h q, hq q]

theorem kernel_bind_eq_some_iff (A B C D : List (intvec α BLOCK_SIZE))
    (x₁ y₁ l₁ r₁ x₂ y₂ l₂ r₂ stride : Int) :
    (kernel BLOCK_SIZE kernel_size A B C x₁ y₁ l₁ r₁ stride).bind
        (fun C₁ => kernel BLOCK_SIZE kernel_size A B C₁ x₂ y₂ l₂ r₂ stride) = some D ↔
      InBounds BLOCK_SIZE kernel_size A.length B.length C.length x₁ y₁ l₁ r₁ stride ∧
      InBounds BLOCK_SIZE kernel_size A.length B.length C.length x₂ y₂ l₂ r₂ stride ∧
        D.length = C.length ∧
        ∀ q, laneAt D q = laneAt C q + delta BLOCK_SIZE kernel_size A B x₁ y₁ l₁ r₁ stride q
          + delta BLOCK_SIZE kernel_size A B x₂ y₂ l₂ r₂ stride q := by
  rw [Option.bind_eq_some]
  constructor
  · rintro ⟨C₁, h1, h2⟩
    rw [kernel_eq_some_iff] at h1 h2
    obtain ⟨i1, len1, q1⟩ := h1
    obtain ⟨i2, len2, q2⟩ := h2
    rw [len1] at i2
    refine ⟨i1, i2, len2.trans len1, fun q => ?_⟩
    rw [q2 q, q1 q]
  · rintro ⟨i1, i2, hlen, hq⟩
    obtain ⟨C₁, h1⟩ := kernel_some_of_inBounds (C := C) i1
    refine ⟨C₁, h1, ?_⟩
    rw [kernel_eq_some_iff, kernel_length h1]
    refine ⟨i2, hlen, fun q => ?_⟩
    rw [hq q, kernel_laneAt h1 q]

theorem inBounds_split (lenA lenB lenC : Nat) (x y stride : Int) {l m r : Int}
    (h1 : l ≤ m) (h2 : m ≤ r) :
    InBounds BLOCK_SIZE kernel_size lenA lenB lenC x y l r stride ↔
      InBounds BLOCK_SIZE kernel_size lenA lenB lenC x y l m stride ∧
        InBounds BLOCK_SIZE kernel_size lenA lenB lenC x y m r stride := by
  unfold InBounds
  constructor
  · rintro ⟨ha, hc⟩
    exact ⟨⟨fun k hk => ha k (mem_intRange.2 (by have := mem_intRange.1 hk; omega)), hc⟩,
      ⟨fun k hk => ha k (mem_intRange.2 (by have := mem_intRange.1 hk; omega)), hc⟩⟩
  · rintro ⟨⟨ha1, hc⟩, ⟨ha2, _⟩⟩
    refine ⟨fun k hk => ?_, hc⟩
    have := mem_intRange.1 hk
    by_cases hkm : k < m
    · exact ha1 k (mem_intRange.2 ⟨this.1, hkm⟩)
    · exact ha2 k (mem_intRange.2 ⟨by omega, this.2⟩)

end MoreLemmas

end MatKernel

namespace MatKernel

/-- The layout of the driver: `A` and `C` hold `rows` rows of `stride` lanes, `B` holds `K` rows of
`stride` lanes, the tile lies inside the `rows x stride` grid of lanes and the contraction range
inside `[0, K)` with `K <= stride*BLOCK_SIZE`.  Then every access of `kernel` is in bounds. -/
theorem inBounds_of_layout (BLOCK_SIZE : Nat) (kernel_size : Nat × Nat) (rows K stride : Nat)
    (x y l r : Int) (hBS : 0 < BLOCK_SIZE) (hK : K ≤ stride * BLOCK_SIZE)
    (hx : 0 ≤ x) (hx' : x + kernel_size.1 ≤ rows) (hy : 0 ≤ y)
    (hy' : y + ((kernel_size.2 / BLOCK_SIZE : Nat) : Int) ≤ stride) (hl : 0 ≤ l) (hr : r ≤ K) :
    InBounds BLOCK_SIZE kernel_size (rows * stride) (K * stride) (rows * stride) x y l r stride := by
  have hb : (0 : Int) < BLOCK_SIZE := by exact_mod_cast hBS
  have hK' : (K : Int) ≤ (stride : Int) * BLOCK_SIZE := by exact_mod_cast hK
  have hs0 : (0 : Int) ≤ stride := Int.ofNat_nonneg _
  have cell : ∀ i j : Int, 0 ≤ i → i < rows → 0 ≤ j → j < stride →
      0 ≤ i * stride + j ∧ i * stride + j < ((rows * stride : Nat) : Int) := by
    intro i j hi1 hi2 hj1 hj2
    have h1 : 0 ≤ i * stride := mul_nonneg hi1 hs0
    have h2 : (i + 1) * stride ≤ (rows : Int) * stride :=
      mul_le_mul_of_nonneg_right (by omega) hs0
    push_cast
    constructor
    · omega
    · nlinarith
  refine ⟨?_, ?_⟩
  · intro k hk i hi j hj
    rw [mem_intRange] at hk hi hj
    have hk0 : 0 ≤ k := by omega
    have hd : k.tdiv BLOCK_SIZE = k / BLOCK_SIZE := Int.tdiv_eq_ediv hk0 hb.le
    have hm : k.tmod BLOCK_SIZE = k % BLOCK_SIZE := Int.tmod_eq_emod hk0 hb.le
    have hd0 : 0 ≤ k / (BLOCK_SIZE : Int) := Int.ediv_nonneg hk0 hb.le
    have hd1 : k / (BLOCK_SIZE : Int) < stride :=
      (Int.ediv_lt_iff_lt_mul hb).2 (by omega)
    refine ⟨?_, ?_, ?_⟩
    · rw [hd]
      exact cell i _ (by omega) (by omega) hd0 hd1
    · rw [hm]
      exact ⟨Int.emod_nonneg k hb.ne', Int.emod_lt_of_pos k hb⟩
    · have h1 : 0 ≤ k * stride := mul_nonneg hk0 hs0
      have h2 : (k + 1) * stride ≤ (K : Int) * stride :=
        mul_le_mul_of_nonneg_right (by omega) hs0
      unfold inb
      push_cast
      constructor
      · omega
      · nlinarith
  · intro i hi j hj
    rw [mem_intRange] at hi hj
    exact cell i j (by omega) (by omega) (by omega) (by omega)

end MatKernel

/-! ## Lemmas on the kernel with 32-bit index arithmetic -/

namespace MatKernel

theorem int32_of_fits {v : Int} (h : fitsInt v) : int32 v = some v := by
  unfold int32
  rw [if_pos h]

theorem int32_of_not_fits {v : Int} (h : ¬ fitsInt v) : int32 v = none := by
  unfold int32
  rw [if_neg h]

theorem int32_eq_some {v u : Int} (h : int32 v = some u) : fitsInt v ∧ u = v := by
  unfold int32 at h
  split at h
  · rename_i hf
    exact ⟨hf, (Option.some.inj h).symm⟩
  · exact Option.noConfusion h

/-- A loop over a list whose body is undefined more often, and agrees where it is defined. -/
theorem foldlM_refines {σ ι : Type} (body' body : σ → ι → Option σ) (L : List ι)
    (h : ∀ i ∈ L, ∀ s s', body' s i = some s' → body s i = some s') :
    ∀ s s', L.foldlM body' s = some s' → L.foldlM body s = some s' := by
  induction L with
  | nil => intro s s' hs; exact hs
  | cons a L ih =>
    intro s s' hs
    rw [List.foldlM_cons] at hs ⊢
    cases hb : body' s a with
    | none => simp [hb] at hs
    | some s1 =>
      simp only [hb, Option.bind_eq_bind, Option.some_bind] at hs
      rw [h a (List.mem_cons_self _ _) s s1 hb]
      simp only [Option.bind_eq_bind, Option.some_bind]
      exact ih (fun i hi => h i (List.mem_cons_of_mem _ hi)) s1 s' hs

/-- Two loops over a list whose bodies agree on its elements. -/
theorem foldlM_congr_mem {σ ι : Type} (body' body : σ → ι → Option σ) (L : List ι)
    (h : ∀ i ∈ L, ∀ s, body' s i = body s i) :
    ∀ s, L.foldlM body' s = L.foldlM body s := by
  induction L with
  | nil => intro s; rfl
  | cons a L ih =>
    intro s
    rw [List.foldlM_cons, List.foldlM_cons, h a (List.mem_cons_self _ _) s]
    cases hb : body s a with
    | none => rfl
    | some s1 =>
      simp only [Option.bind_eq_bind, Option.some_bind]
      exact ih (fun i hi => h i (List.mem_cons_of_mem _ hi)) s1

section Checked
variable {α : Type} [CommRing α] {BLOCK_SIZE : Nat} {kernel_size : Nat × Nat}

theorem accBody32_eq (A B : List (intvec α BLOCK_SIZE)) (x y stride k i : Int)
    (ke : List (List (intvec α BLOCK_SIZE))) (j : Int)
    (h1 : fitsInt (i * stride)) (h2 : fitsInt (i * stride + k.tdiv BLOCK_SIZE))
    (h3 : fitsInt (k * stride)) (h4 : fitsInt (k * stride + j)) (h5 : fitsInt (i - x))
    (h6 : fitsInt (j - y)) :
    accBody32 BLOCK_SIZE A B x y stride k i ke j = accBody BLOCK_SIZE A B x y stride k i ke j := by
  unfold accBody32 accBody
  simp only [int32_of_fits h1, int32_of_fits h2, int32_of_fits h3, int32_of_fits h4,
    int32_of_fits h5, int32_of_fits h6, Option.bind_eq_bind, Option.some_bind]

theorem accBody32_refines (A B : List (intvec α BLOCK_SIZE)) (x y stride k i : Int)
    (ke ke' : List (List (intvec α BLOCK_SIZE))) (j : Int)
    (h : accBody32 BLOCK_SIZE A B x y stride k i ke j = some ke') :
    accBody BLOCK_SIZE A B x y stride k i ke j = some ke' := by
  unfold accBody32 at h
  simp only [Option.bind_eq_bind, Option.bind_eq_some] at h
  obtain ⟨p, hp, ia, hia, lane, hlane, a, ha, q, hq, ib, hib, b, hb, di, hdi, dj, hdj, hke⟩ := h
  obtain ⟨-, rfl⟩ := int32_eq_some hp
  obtain ⟨-, rfl⟩ := int32_eq_some hia
  obtain ⟨-, rfl⟩ := int32_eq_some hq
  obtain ⟨-, rfl⟩ := int32_eq_some hib
  obtain ⟨-, rfl⟩ := int32_eq_some hdi
  obtain ⟨-, rfl⟩ := int32_eq_some hdj
  unfold accBody
  simp only [Option.bind_eq_bind, hlane, ha, hb, Option.some_bind]
  exact hke

theorem flushBody32_eq {V : Type} [Add V] (ke : List (List V)) (x y stride i : Int)
    (C : List V) (j : Int)
    (h1 : fitsInt (i - x)) (h2 : fitsInt (j - y)) (h3 : fitsInt (i * stride))
    (h4 : fitsInt (i * stride + j)) :
    flushBody32 ke x y stride i C j = flushBody ke x y stride i C j := by
  unfold flushBody32 flushBody
  simp only [int32_of_fits h1, int32_of_fits h2, int32_of_fits h3, int32_of_fits h4,
    Option.bind_eq_bind, Option.some_bind]

theorem flushBody32_refines {V : Type} [Add V] (ke : List (List V)) (x y stride i : Int)
    (C C' : List V) (j : Int) (h : flushBody32 ke x y stride i C j = some C') :
    flushBody ke x y stride i C j = some C' := by
  unfold flushBody32 at h
  simp only [Option.bind_eq_bind, Option.bind_eq_some] at h
  obtain ⟨di, hdi, dj, hdj, v, hv, p, hp, q, hq, hC⟩ := h
  obtain ⟨-, rfl⟩ := int32_eq_some hdi
  obtain ⟨-, rfl⟩ := int32_eq_some hdj
  obtain ⟨-, rfl⟩ := int32_eq_some hp
  obtain ⟨-, rfl⟩ := int32_eq_some hq
  unfold flushBody
  simp only [Option.bind_eq_bind, hv, Option.some_bind]
  exact hC

/-- A counted loop whose bound is computed as an `int` refines the loop over the exact bound. -/
theorem forRange32_refines {σ : Type} (lo hi : Int) (body' body : σ → Int → Option σ)
    (h : ∀ v s s', body' s v = some s' → body s v = some s') (s s' : σ)
    (hs : (int32 hi).bind (fun b => forRange lo b body' s) = some s') :
    forRange lo hi body s = some s' := by
  rw [Option.bind_eq_some] at hs
  obtain ⟨b, hb, hs⟩ := hs
  obtain ⟨-, rfl⟩ := int32_eq_some hb
  exact foldlM_refines body' body _ (fun v _ => h v) s s' hs

theorem accumulate32_refines (A B : List (intvec α BLOCK_SIZE)) (x y l r stride : Int)
    (ke : List (List (intvec α BLOCK_SIZE)))
    (h : accumulate32 BLOCK_SIZE kernel_size A B x y l r stride = some ke) :
    accumulate BLOCK_SIZE kernel_size A B x y l r stride = some ke := by
  unfold accumulate32 at h
  unfold accumulate
  refine foldlM_refines _ _ _ (fun k _ s s' hk => ?_) _ _ h
  refine forRange32_refines x _ _ _ (fun i t t' hi => ?_) s s' hk
  exact forRange32_refines y _ _ _
    (fun j u u' hj => accBody32_refines A B x y stride k i u u' j hj) t t' hi

theorem flush32_refines {V : Type} [Add V] (ke : List (List V)) (C C' : List V)
    (x y stride : Int) (h : flush32 BLOCK_SIZE kernel_size ke C x y stride = some C') :
    flush BLOCK_SIZE kernel_size ke C x y stride = some C' := by
  unfold flush32 at h
  unfold flush
  refine forRange32_refines x _ _ _ (fun i t t' hi => ?_) C C' h
  exact forRange32_refines y _ _ _
    (fun j u u' hj => flushBody32_refines ke x y stride i u u' j hj) t t' hi

/-- The kernel with 32-bit index arithmetic refines the kernel with exact index arithmetic: where
the former returns, the latter returns the same. -/
theorem kernel32_refines (A B C C' : List (intvec α BLOCK_SIZE)) (x y l r stride : Int)
    (h : kernel32 BLOCK_SIZE kernel_size A B C x y l r stride = some C') :
    kernel BLOCK_SIZE kernel_size A B C x y l r stride = some C' := by
  unfold kernel32 at h
  split at h
  · simp only [Option.bind_eq_bind, Option.bind_eq_some] at h
    obtain ⟨ke, hke, hC⟩ := h
    unfold kernel
    simp only [Option.bind_eq_bind, accumulate32_refines A B x y l r stride ke hke,
      Option.some_bind]
    exact flush32_refines ke C C' x y stride hC
  · exact Option.noConfusion h

/-- Where every `int` value is representable, the two kernels agree. -/
theorem kernel32_eq_kernel (A B C : List (intvec α BLOCK_SIZE)) (x y l r stride : Int)
    (h : IntSafe BLOCK_SIZE kernel_size x y l r stride) :
    kernel32 BLOCK_SIZE kernel_size A B C x y l r stride =
      kernel BLOCK_SIZE kernel_size A B C x y l r stride := by
  obtain ⟨hargs, hbi, hbj, htile, hacc⟩ := h
  unfold kernel32 kernel
  rw [if_pos hargs]
  have e1 : accumulate32 BLOCK_SIZE kernel_size A B x y l r stride =
      accumulate BLOCK_SIZE kernel_size A B x y l r stride := by
    unfold accumulate32 accumulate forRange
    refine foldlM_congr_mem _ _ _ (fun k hk s => ?_) _
    rw [int32_of_fits hbi, Option.some_bind]
    refine foldlM_congr_mem _ _ _ (fun i hi t => ?_) _
    rw [int32_of_fits hbj, Option.some_bind]
    refine foldlM_congr_mem _ _ _ (fun j hj u => ?_) _
    obtain ⟨a1, a2, a3⟩ := hacc k hk i hi j hj
    obtain ⟨b1, -, b3, b4⟩ := htile i hi j hj
    exact accBody32_eq A B x y stride k i u j b1 a1 a2 a3 b3 b4
  have e2 : ∀ ke : List (List (intvec α BLOCK_SIZE)),
      flush32 BLOCK_SIZE kernel_size ke C x y stride =
        flush BLOCK_SIZE kernel_size ke C x y stride := by
    intro ke
    unfold flush32 flush forRange
    rw [int32_of_fits hbi, Option.some_bind]
    refine foldlM_congr_mem _ _ _ (fun i hi t => ?_) _
    rw [int32_of_fits hbj, Option.some_bind]
    refine foldlM_congr_mem _ _ _ (fun j hj u => ?_) _
    obtain ⟨b1, b2, b3, b4⟩ := htile i hi j hj
    exact flushBody32_eq ke x y stride i u j b3 b4 b1 b2
  rw [e1]
  simp only [e2]

end Checked

end MatKernel

namespace MatKernel

/-- In the layout of the driver, with `stride` and `rows` positive and buffers of at most
`2^31 - 1` lanes, every `int` value that `kernel` computes is representable. -/
theorem intSafe_of_layout (BLOCK_SIZE : Nat) (kernel_size : Nat × Nat) (rows K stride : Nat)
    (x y l r : Int) (hBS : 0 < BLOCK_SIZE) (hstride : 0 < stride) (hrows : 0 < rows)
    (hK : K ≤ stride * BLOCK_SIZE)
    (hsizeA : rows * stride ≤ 2147483647) (hsizeB : K * stride ≤ 2147483647)
    (hx : 0 ≤ x) (hx' : x + kernel_size.1 ≤ rows) (hy : 0 ≤ y)
    (hy' : y + ((kernel_size.2 / BLOCK_SIZE : Nat) : Int) ≤ stride) (hl : 0 ≤ l) (hlr : l ≤ r)
    (hr : r ≤ K) :
    IntSafe BLOCK_SIZE kernel_size x y l r stride := by
  have hin := inBounds_of_layout BLOCK_SIZE kernel_size rows K stride x y l r hBS hK hx hx' hy
    hy' hl hr
  have h1 : stride ≤ rows * stride := Nat.le_mul_of_pos_left _ hrows
  have h2 : rows ≤ rows * stride := Nat.le_mul_of_pos_right _ hstride
  have h3 : K ≤ K * stride := Nat.le_mul_of_pos_right _ hstride
  have hs0 : (0 : Int) ≤ stride := Int.ofNat_nonneg _
  unfold InBounds inb at hin
  obtain ⟨hacc, htile⟩ := hin
  generalize rows * stride = n at hsizeA h1 h2 hacc htile
  generalize K * stride = m at hsizeB h3 hacc
  have hw0 : (0 : Int) ≤ ((kernel_size.2 / BLOCK_SIZE : Nat) : Int) := Int.ofNat_nonneg _
  have hk0 : (0 : Int) ≤ (kernel_size.1 : Int) := Int.ofNat_nonneg _
  unfold IntSafe fitsInt
  refine ⟨⟨⟨by omega, by omega⟩, ⟨by omega, by omega⟩, ⟨by omega, by omega⟩,
    ⟨by omega, by omega⟩, ⟨by omega, by omega⟩⟩, ⟨by omega, by omega⟩, ⟨by omega, by omega⟩,
    ?_, ?_⟩
  · intro i hi j hj
    have hb := htile i hi j hj
    rw [mem_intRange] at hi hj
    have hp : 0 ≤ i * stride := mul_nonneg (by omega) hs0
    refine ⟨⟨by omega, by omega⟩, ⟨by omega, by omega⟩, ⟨by omega, by omega⟩,
      ⟨by omega, by omega⟩⟩
  · intro k hk i hi j hj
    obtain ⟨ha, -, hb⟩ := hacc k hk i hi j hj
    rw [mem_intRange] at hk hi hj
    have hp : 0 ≤ k * stride := mul_nonneg (by omega) hs0
    refine ⟨⟨by omega, by omega⟩, ⟨by omega, by omega⟩, ⟨by omega, by omega⟩⟩

end MatKernel

/-! ## Theorems on the kernel -/

namespace MatKernel

/-- C3.  Associativity of contraction chunking: for `l <= m <= r`, a call over `[l, m)` followed by
a call over `[m, r)` on the same tile has exactly the outcome of one call over `[l, r)`: the same
buffer `C`, lane for lane and slot for slot (and it is undefined exactly when the single call is).
Scalars are any commutative ring, so this covers exact integers and arithmetic modulo `2^w`. -/
theorem kernel_chunks_compose {α : Type} [CommRing α] (BLOCK_SIZE : Nat)
    (kernel_size : Nat × Nat) (A B C : List (intvec α BLOCK_SIZE)) (x y l m r stride : Int)
    (hlm : l ≤ m) (hmr : m ≤ r) :
    (kernel BLOCK_SIZE kernel_size A B C x y l m stride).bind
        (fun C₁ => kernel BLOCK_SIZE kernel_size A B C₁ x y m r stride)
      = kernel BLOCK_SIZE kernel_size A B C x y l r stride := by
  apply Option.ext
  intro D
  rw [Option.mem_def, Option.mem_def, kernel_bind_eq_some_iff, kernel_eq_some_iff,
    inBounds_split A.length B.length C.length x y stride hlm hmr, and_assoc]
  refine and_congr_right (fun _ => and_congr_right (fun _ => and_congr_right (fun _ => ?_)))
  refine forall_congr' (fun q => ?_)
  rw [delta_append A B x y stride q hlm hmr, add_assoc]

/-- C3 (witness).  The 2 x 2 example, split at `m = 1`. -/
theorem kernel_chunks_compose_witness :
    (0 : Int) ≤ 1 ∧ (1 : Int) ≤ 2 ∧
    (kernel 2 (2, 2) sampleA sampleB (zeros 2 2) 0 0 0 1 1).bind
        (fun C₁ => kernel 2 (2, 2) sampleA sampleB C₁ 0 0 1 2 1)
      = kernel 2 (2, 2) sampleA sampleB (zeros 2 2) 0 0 0 2 1 ∧
    (kernel 2 (2, 2) sampleA sampleB (zeros 2 2) 0 0 0 1 1).map slots
      = some [[5, 6], [15, 18]] ∧
    ((kernel 2 (2, 2) sampleA sampleB (zeros 2 2) 0 0 0 1 1).bind
        (fun C₁ => kernel 2 (2, 2) sampleA sampleB C₁ 0 0 1 2 1)).map slots
      = some [[19, 22], [43, 50]] :=
  ⟨by decide, by decide,
    kernel_chunks_compose 2 (2, 2) sampleA sampleB (zeros 2 2) 0 0 0 1 2 1 (by decide) (by decide),
    by decide, by decide⟩

end MatKernel

namespace MatKernel

/-- C4.  Kernel frame: a call changes no lane of `C` other than those at the flat indices
`i*stride + j` of the tile (`x <= i < x + kernel_size.first`,
`y <= j < y + kernel_size.second/BLOCK_SIZE`): every other lane is the same before and after, the
length of `C` is the same, and the buffers behind `A` and `B` are the same. -/
theorem kernel_frame {α : Type} [CommRing α] (BLOCK_SIZE : Nat) (kernel_size : Nat × Nat)
    (m m' : Buffers (intvec α BLOCK_SIZE)) (x y l r stride : Int)
    (h : kernelOn BLOCK_SIZE kernel_size m x y l r stride = some m') :
    m'.A = m.A ∧ m'.B = m.B ∧ m'.C.length = m.C.length ∧
      ∀ q : Int,
        (∀ i j : Int, x ≤ i → i < x + kernel_size.1 → y ≤ j →
          j < y + ((kernel_size.2 / BLOCK_SIZE : Nat) : Int) → i * stride + j ≠ q) →
        readAt m'.C q = readAt m.C q := by
  unfold kernelOn at h
  rw [Option.map_eq_some'] at h
  obtain ⟨C', hk, rfl⟩ := h
  refine ⟨rfl, rfl, kernel_length hk, fun q hq => ?_⟩
  apply readAt_eq_of_laneAt (kernel_length hk)
  rw [kernel_laneAt hk q, delta_off_tile m.A m.B, add_zero]
  intro i hi j hj
  rw [mem_intRange] at hi hj
  exact hq i j hi.1 hi.2 hj.1 hj.2

/-- C4 (witness).  A 1 x 1 tile at the origin of a 2 x 2 matrix of one-slot lanes. -/
theorem kernel_frame_witness :
    ∃ m' : Buffers (intvec Int 1),
      kernelOn 1 (1, 1) ⟨columnA, columnB, zeros 1 4⟩ 0 0 0 1 2 = some m' ∧
      (m'.A = columnA ∧ m'.B = columnB ∧ m'.C.length = (zeros 1 4).length ∧
        ∀ q : Int,
          (∀ i j : Int, 0 ≤ i → i < 0 + ((1, 1) : Nat × Nat).1 → 0 ≤ j →
            j < 0 + ((((1, 1) : Nat × Nat).2 / 1 : Nat) : Int) → i * 2 + j ≠ q) →
          readAt m'.C q = readAt (zeros 1 4) q) :=
  ⟨_, rfl, kernel_frame 1 (1, 1) ⟨columnA, columnB, zeros 1 4⟩ _ 0 0 0 1 2 rfl⟩

/-- C6.  Order independence across disjoint tiles: for two tiles whose destination index sets are
disjoint, running the kernel on tile 1 and then on tile 2 has exactly the outcome of running it on
tile 2 and then on tile 1, and after both calls every lane of tile 1 holds what the call on tile 1
alone had left there. -/
theorem kernel_disjoint_tiles_commute {α : Type} [CommRing α] (BLOCK_SIZE : Nat)
    (kernel_size : Nat × Nat) (A B C : List (intvec α BLOCK_SIZE))
    (x₁ y₁ x₂ y₂ l r stride : Int)
    (hdisj : ∀ i₁ j₁ i₂ j₂ : Int, x₁ ≤ i₁ → i₁ < x₁ + kernel_size.1 → y₁ ≤ j₁ →
      j₁ < y₁ + ((kernel_size.2 / BLOCK_SIZE : Nat) : Int) →
      x₂ ≤ i₂ → i₂ < x₂ + kernel_size.1 → y₂ ≤ j₂ →
      j₂ < y₂ + ((kernel_size.2 / BLOCK_SIZE : Nat) : Int) →
      i₁ * stride + j₁ ≠ i₂ * stride + j₂) :
    (kernel BLOCK_SIZE kernel_size A B C x₁ y₁ l r stride).bind
        (fun C₁ => kernel BLOCK_SIZE kernel_size A B C₁ x₂ y₂ l r stride)
      = (kernel BLOCK_SIZE kernel_size A B C x₂ y₂ l r stride).bind
        (fun C₂ => kernel BLOCK_SIZE kernel_size A B C₂ x₁ y₁ l r stride) ∧
    ∀ C₁ C₁₂, kernel BLOCK_SIZE kernel_size A B C x₁ y₁ l r stride = some C₁ →
      kernel BLOCK_SIZE kernel_size A B C₁ x₂ y₂ l r stride = some C₁₂ →
      ∀ i j : Int, x₁ ≤ i → i < x₁ + kernel_size.1 → y₁ ≤ j →
        j < y₁ + ((kernel_size.2 / BLOCK_SIZE : Nat) : Int) →
        readAt C₁₂ (i * stride + j) = readAt C₁ (i * stride + j) := by
  constructor
  · apply Option.ext
    intro D
    rw [Option.mem_def, Option.mem_def, kernel_bind_eq_some_iff, kernel_bind_eq_some_iff]
    constructor
    · rintro ⟨h1, h2, hlen, hq⟩
      exact ⟨h2, h1, hlen, fun q => by rw [hq q, add_right_comm]⟩
    · rintro ⟨h1, h2, hlen, hq⟩
      exact ⟨h2, h1, hlen, fun q => by rw [hq q, add_right_comm]⟩
  · intro C₁ C₁₂ _ h2 i j hi1 hi2 hj1 hj2
    apply readAt_eq_of_laneAt (kernel_length h2)
    rw [kernel_laneAt h2, delta_off_tile A B, add_zero]
    intro i₂ hi₂ j₂ hj₂
    rw [mem_intRange] at hi₂ hj₂
    exact (hdisj i j i₂ j₂ hi1 hi2 hj1 hj2 hi₂.1 hi₂.2 hj₂.1 hj₂.2).symm

/-- C6 (witness).  The tiles at rows 0 and 1 of a 2 x 1 matrix of one-slot lanes. -/
theorem kernel_disjoint_tiles_commute_witness :
    ((kernel 1 (1, 1) columnA columnB (zeros 1 2) 0 0 0 1 1).bind
        (fun C₁ => kernel 1 (1, 1) columnA columnB C₁ 1 0 0 1 1)
      = (kernel 1 (1, 1) columnA columnB (zeros 1 2) 1 0 0 1 1).bind
        (fun C₂ => kernel 1 (1, 1) columnA columnB C₂ 0 0 0 1 1) ∧
    ∀ C₁ C₁₂, kernel 1 (1, 1) columnA columnB (zeros 1 2) 0 0 0 1 1 = some C₁ →
      kernel 1 (1, 1) columnA columnB C₁ 1 0 0 1 1 = some C₁₂ →
      ∀ i j : Int, 0 ≤ i → i < 0 + ((1, 1) : Nat × Nat).1 → 0 ≤ j →
        j < 0 + ((((1, 1) : Nat × Nat).2 / 1 : Nat) : Int) →
        readAt C₁₂ (i * 1 + j) = readAt C₁ (i * 1 + j)) ∧
    ((kernel 1 (1, 1) columnA columnB (zeros 1 2) 0 0 0 1 1).bind
        (fun C₁ => kernel 1 (1, 1) columnA columnB C₁ 1 0 0 1 1)).isSome = true :=
  ⟨kernel_disjoint_tiles_commute 1 (1, 1) columnA columnB (zeros 1 2) 0 0 1 0 0 1 1
    (by
      intro i₁ j₁ i₂ j₂ h1 h2 h3 h4 h5 h6 h7 h8
      have h2' : i₁ < 1 := h2
      have h4' : j₁ < 1 := h4
      have h6' : i₂ < 2 := h6
      have h8' : j₂ < 1 := h8
      omega),
   by decide⟩

end MatKernel

namespace MatKernel

/-- C12 (counterexample).  The claim as stated, with no bound on the sizes: `BLOCK_SIZE = 1`,
`kernel_size = (1, 1)`, `rows = stride = 65536`, `K = 1`, the tile at `(x, y) = (32768, 0)` and
`[l, r) = [0, 1)` meet every stated precondition, and the lane index `32768*65536 = 2^31` lies
inside the `2^32` lanes of `A`; but the product `i*stride` is not representable in a 32-bit
`int`, and the call is undefined. -/
theorem kernel_index_overflows_for_large_buffers :
    ∃ A B C : List (intvec Int 1),
      (0 < 1 ∧ 0 < 65536 ∧ 1 ≤ 65536 * 1) ∧
      (A.length = 65536 * 65536 ∧ B.length = 1 * 65536 ∧ C.length = 65536 * 65536) ∧
      ((0 : Int) ≤ 32768 ∧ (32768 : Int) + (((1, 1) : Nat × Nat).1 : Int) ≤ 65536 ∧
        (0 : Int) ≤ 0 ∧ (0 : Int) + (((((1, 1) : Nat × Nat).2 / 1 : Nat)) : Int) ≤ 65536 ∧
        (0 : Int) ≤ 0 ∧ (0 : Int) ≤ 1 ∧ (1 : Int) ≤ 1) ∧
      inb ((32768 : Int) * 65536 + (0 : Int).tdiv 1) A.length ∧
      ¬ fitsInt ((32768 : Int) * 65536) ∧
      kernel32 1 (1, 1) A B C 32768 0 0 1 65536 = none := by
  refine ⟨List.replicate (65536 * 65536) 0, List.replicate (1 * 65536) 0,
    List.replicate (65536 * 65536) 0, by decide,
    ⟨List.length_replicate _ _, List.length_replicate _ _, List.length_replicate _ _⟩,
    by decide, ?_, by decide, ?_⟩
  · rw [List.length_replicate]
    decide
  · rfl

/-- C12.  Kernel index safety, for buffers of at most `2^31 - 1` lanes: with `BLOCK_SIZE`, `stride`
and `rows` positive, `K <= stride*BLOCK_SIZE`, `rows*stride <= INT_MAX` and `K*stride <= INT_MAX`,
`A` and `C` holding `rows*stride` lanes and `B` holding `K*stride` lanes, `0 <= x`,
`x + kernel_size.first <= rows`, `0 <= y`, `y + kernel_size.second/BLOCK_SIZE <= stride` and
`0 <= l <= r <= K`, the call returns under 32-bit index arithmetic (no `int` operation overflows
and no access is out of bounds) with the result of the exact arithmetic, every `int` value it
computes is representable, and every index it uses is in bounds: the lane indices into `C` and the
accumulator indices `(i-x, j-y)` for every tile position, and the lane index into `A`, the slot
index `k mod BLOCK_SIZE` and the lane index into `B` for every `k` in `[l, r)`. -/
theorem kernel_index_safety {α : Type} [CommRing α] (BLOCK_SIZE : Nat) (kernel_size : Nat × Nat)
    (rows K stride : Nat) (A B C : List (intvec α BLOCK_SIZE)) (x y l r : Int)
    (hBS : 0 < BLOCK_SIZE) (hstride : 0 < stride) (hrows : 0 < rows)
    (hK : K ≤ stride * BLOCK_SIZE)
    (hsizeA : rows * stride ≤ 2147483647) (hsizeB : K * stride ≤ 2147483647)
    (hA : A.length = rows * stride) (hB : B.length = K * stride) (hC : C.length = rows * stride)
    (hx : 0 ≤ x) (hx' : x + kernel_size.1 ≤ rows) (hy : 0 ≤ y)
    (hy' : y + ((kernel_size.2 / BLOCK_SIZE : Nat) : Int) ≤ stride)
    (hl : 0 ≤ l) (hlr : l ≤ r) (hr : r ≤ K) :
    (∃ C', kernel32 BLOCK_SIZE kernel_size A B C x y l r stride = some C' ∧
      kernel BLOCK_SIZE kernel_size A B C x y l r stride = some C') ∧
    IntSafe BLOCK_SIZE kernel_size x y l r stride ∧
    (∀ i j : Int, x ≤ i → i < x + kernel_size.1 → y ≤ j →
      j < y + ((kernel_size.2 / BLOCK_SIZE : Nat) : Int) →
      inb (i * stride + j) C.length ∧ inb (i - x) kernel_size.1 ∧
        inb (j - y) (kernel_size.2 / BLOCK_SIZE)) ∧
    (∀ k i j : Int, l ≤ k → k < r → x ≤ i → i < x + kernel_size.1 → y ≤ j →
      j < y + ((kernel_size.2 / BLOCK_SIZE : Nat) : Int) →
      inb (i * stride + k.tdiv BLOCK_SIZE) A.length ∧ inb (k.tmod BLOCK_SIZE) BLOCK_SIZE ∧
        inb (k * stride + j) B.length) := by
  have hin : InBounds BLOCK_SIZE kernel_size A.length B.length C.length x y l r stride := by
    rw [hA, hB, hC]
    exact inBounds_of_layout BLOCK_SIZE kernel_size rows K stride x y l r hBS hK hx hx' hy hy' hl hr
  have hsafe := intSafe_of_layout BLOCK_SIZE kernel_size rows K stride x y l r hBS hstride hrows
    hK hsizeA hsizeB hx hx' hy hy' hl hlr hr
  obtain ⟨C', hC'⟩ := kernel_some_of_inBounds (A := A) (B := B) (C := C) hin
  refine ⟨⟨C', ?_, hC'⟩, hsafe, ?_, ?_⟩
  · rw [kernel32_eq_kernel A B C x y l r stride hsafe]
    exact hC'
  · intro i j hi1 hi2 hj1 hj2
    exact ⟨hin.2 i (mem_intRange.2 ⟨hi1, hi2⟩) j (mem_intRange.2 ⟨hj1, hj2⟩),
      ⟨by omega, by omega⟩, ⟨by omega, by omega⟩⟩
  · intro k i j hk1 hk2 hi1 hi2 hj1 hj2
    exact hin.1 k (mem_intRange.2 ⟨hk1, hk2⟩) i (mem_intRange.2 ⟨hi1, hi2⟩) j
      (mem_intRange.2 ⟨hj1, hj2⟩)

/-- C12 (witness).  The 2 x 2 example: one row of lanes per matrix row, `K = 2`; the call returns
`[[19, 22], [43, 50]]` under 32-bit index arithmetic. -/
theorem kernel_index_safety_witness :
    ((∃ C', kernel32 2 (2, 2) sampleA sampleB (zeros 2 2) 0 0 0 2 ((1 : Nat) : Int) = some C' ∧
      kernel 2 (2, 2) sampleA sampleB (zeros 2 2) 0 0 0 2 ((1 : Nat) : Int) = some C') ∧
    IntSafe 2 (2, 2) 0 0 0 2 ((1 : Nat) : Int) ∧
    (∀ i j : Int, 0 ≤ i → i < 0 + ((2, 2) : Nat × Nat).1 → 0 ≤ j →
      j < 0 + ((((2, 2) : Nat × Nat).2 / 2 : Nat) : Int) →
      inb (i * ((1 : Nat) : Int) + j) (zeros 2 2).length ∧ inb (i - 0) ((2, 2) : Nat × Nat).1 ∧
        inb (j - 0) (((2, 2) : Nat × Nat).2 / 2)) ∧
    (∀ k i j : Int, 0 ≤ k → k < 2 → 0 ≤ i → i < 0 + ((2, 2) : Nat × Nat).1 → 0 ≤ j →
      j < 0 + ((((2, 2) : Nat × Nat).2 / 2 : Nat) : Int) →
      inb (i * ((1 : Nat) : Int) + k.tdiv ((2 : Nat) : Int)) sampleA.length ∧
        inb (k.tmod ((2 : Nat) : Int)) 2 ∧ inb (k * ((1 : Nat) : Int) + j) sampleB.length)) ∧
    (kernel32 2 (2, 2) sampleA sampleB (zeros 2 2) 0 0 0 2 1).map slots =
      some [[19, 22], [43, 50]] :=
  ⟨kernel_index_safety 2 (2, 2) 2 2 1 sampleA sampleB (zeros 2 2) 0 0 0 2 (by decide) (by decide)
    (by decide) (by decide) (by decide) (by decide) rfl rfl rfl (by decide) (by decide)
    (by decide) (by decide) (by decide) (by decide) (by decide), by decide⟩

end MatKernel

/-! ## Lemmas on the sorting routines -/

theorem intRange_cons {lo hi : Int} (h : lo < hi) :
    intRange lo hi = lo :: intRange (lo + 1) hi := by
  have e := @intRange_append lo (lo + 1) hi (by omega) (by omega)
  rw [e]
  have : intRange lo (lo + 1) = [lo] := by
    unfold intRange
    have : (lo + 1 - lo).toNat = 1 := by omega
    rw [this, show List.range 1 = [0] from rfl]
    simp
  rw [this]
  rfl

theorem intRange_snoc {lo hi : Int} (h : lo ≤ hi) :
    intRange lo (hi + 1) = intRange lo hi ++ [hi] := by
  have e : intRange hi (hi + 1) = [hi] := by
    rw [intRange_cons (by omega), intRange_eq_nil (le_refl _)]
  rw [@intRange_append lo hi (hi + 1) h (by omega), e]

namespace SelectionSort

/-- Invariant rule for a counted loop that cannot fail. -/
theorem forRange_rule {σ : Type} (Inv : Int → σ → Prop) (body : σ → Int → Except Fault σ)
    (hi : Int) :
    ∀ (n : Nat) (lo : Int) (s : σ), (hi - lo).toNat = n → lo ≤ hi → Inv lo s →
      (∀ v t, lo ≤ v → v < hi → Inv v t → ∃ t', body t v = Except.ok t' ∧ Inv (v + 1) t') →
      ∃ s', forRange lo hi body s = Except.ok s' ∧ Inv hi s' := by
  intro n
  induction n with
  | zero =>
    intro lo s hn hle h0 _
    have e : lo = hi := by omega
    subst e
    refine ⟨s, ?_, h0⟩
    unfold forRange
    rw [intRange_eq_nil (le_refl _)]
    rfl
  | succ n ih =>
    intro lo s hn hle h0 hstep
    have hlt : lo < hi := by omega
    obtain ⟨t, ht, hI⟩ := hstep lo s (le_refl _) hlt h0
    obtain ⟨s', hs', hI'⟩ := ih (lo + 1) t (by omega) (by omega) hI
      (fun v u h1 h2 h3 => hstep v u (by omega) h2 h3)
    refine ⟨s', ?_, hI'⟩
    unfold forRange at hs' ⊢
    rw [intRange_cons hlt, List.foldlM_cons, ht]
    exact hs'

theorem get_of_inb {arr : List Int} {i : Int} (h : inb i arr.length) :
    get arr i = Except.ok (laneAt arr i) := by
  obtain ⟨v, hv⟩ := Option.isSome_iff_exists.1 ((readAt_isSome arr i).2 h)
  simp [get, laneAt, hv]

theorem put_of_inb {arr : List Int} {i : Int} (v : Int) (h : inb i arr.length) :
    ∃ arr', put arr i v = Except.ok arr' ∧ writeAt arr i v = some arr' := by
  obtain ⟨arr', hv⟩ := Option.isSome_iff_exists.1 ((writeAt_isSome arr i v).2 h)
  exact ⟨arr', by simp [put, hv], hv⟩

/-- The inner loop returns the index of a least element of `arr[i..N)`. -/
theorem minLoop_spec (arr : List Int) (N i : Int) (h0 : 0 ≤ i) (hi : i < N)
    (hN : N ≤ arr.length) :
    ∃ m, forRange (i + 1) N (minStep arr) i = Except.ok m ∧ (i ≤ m ∧ m < N) ∧
      ∀ q, i ≤ q → q < N → laneAt arr m ≤ laneAt arr q := by
  have key := forRange_rule
    (fun v m => (i ≤ m ∧ m < v) ∧ ∀ q, i ≤ q → q < v → laneAt arr m ≤ laneAt arr q)
    (minStep arr) N (N - (i + 1)).toNat (i + 1) i rfl (by omega)
    ⟨⟨le_refl _, by omega⟩, fun q h1 h2 => by
      have : q = i := by omega
      rw [this]⟩ ?_
  · obtain ⟨m, hm, h1, h2⟩ := key
    exact ⟨m, hm, h1, h2⟩
  · rintro v m hv1 hv2 ⟨⟨hm1, hm2⟩, hmin⟩
    have hvb : inb v arr.length := ⟨by omega, by omega⟩
    have hmb : inb m arr.length := ⟨by omega, by omega⟩
    unfold minStep
    rw [get_of_inb hvb, get_of_inb hmb]
    by_cases hlt : laneAt arr v < laneAt arr m
    · refine ⟨v, by simp [bind, Except.bind, hlt, pure, Except.pure], ⟨by omega, by omega⟩, ?_⟩
      intro q hq1 hq2
      by_cases e : q = v
      · rw [e]
      · exact le_trans hlt.le (hmin q hq1 (by omega))
    · refine ⟨m, by simp [bind, Except.bind, hlt, pure, Except.pure], ⟨by omega, by omega⟩, ?_⟩
      intro q hq1 hq2
      by_cases e : q = v
      · rw [e]; exact not_lt.1 hlt
      · exact hmin q hq1 (by omega)

/-- Effect of a swap of two cells inside the array. -/
theorem swap_spec (arr : List Int) (a b : Int) (ha : inb a arr.length) (hb : inb b arr.length) :
    ∃ arr', swap arr a b = Except.ok arr' ∧ arr'.length = arr.length ∧
      (∀ q, laneAt arr' q = if q = b then laneAt arr a else if q = a then laneAt arr b
        else laneAt arr q) := by
  obtain ⟨arr1, h1, w1⟩ := put_of_inb (laneAt arr b) ha
  have hb1 : inb b arr1.length := by rw [writeAt_length w1]; exact hb
  obtain ⟨arr2, h2, w2⟩ := put_of_inb (laneAt arr a) hb1
  refine ⟨arr2, ?_, (writeAt_length w2).trans (writeAt_length w1), fun q => ?_⟩
  · unfold swap
    rw [get_of_inb ha, get_of_inb hb]
    simp only [bind, Except.bind, h1, h2]
  · rw [laneAt_writeAt w2 q, laneAt_writeAt w1 q]
    by_cases e1 : b = q
    · simp [e1]
    · have e1' : ¬ q = b := fun h => e1 h.symm
      by_cases e2 : a = q
      · simp [e1, e1', e2]
      · have e2' : ¬ q = a := fun h => e2 h.symm
        simp [e1, e1', e2, e2']

end SelectionSort

namespace SelectionSort

theorem set_set_perm_list (l : List Int) (i j : Nat) (hi : i < l.length) (hj : j < l.length) :
    ((l.set i l[j]).set j l[i]).Perm l := by
  rw [List.perm_iff_count]
  intro x
  have hj' : j < (l.set i l[j]).length := by rw [List.length_set]; exact hj
  rw [List.count_set _ _ _ _ hj', List.count_set _ _ _ _ hi]
  have e : (l.set i l[j])[j] = l[j] := by
    rw [List.getElem_set]
    split <;> rfl
  rw [e]
  have hci : (if (l[i] == x) = true then 1 else 0) ≤ l.count x := by
    by_cases h : l[i] = x
    · have hpos : 0 < l.count x := List.count_pos_iff.2 (h ▸ List.getElem_mem hi)
      rw [if_pos (by simpa using h)]
      exact hpos
    · rw [if_neg (by simpa using h)]
      exact Nat.zero_le _
  generalize (if (l[i] == x) = true then 1 else 0) = ci at hci ⊢
  generalize (if (l[j] == x) = true then 1 else 0) = cj
  omega

theorem swap_perm {arr arr' : List Int} {a b : Int} (h : swap arr a b = Except.ok arr') :
    arr'.Perm arr := by
  unfold swap at h
  cases h1 : readAt arr a with
  | none => simp [get, h1, bind, Except.bind] at h
  | some va =>
    cases h2 : readAt arr b with
    | none => simp [get, h1, h2, bind, Except.bind] at h
    | some vb =>
      have ha := readAt_eq_some h1
      have hb := readAt_eq_some h2
      have hla : a.toNat < arr.length := by have := ha.1; have := ha.2; omega
      have hlb : b.toNat < arr.length := by have := hb.1; have := hb.2; omega
      have w1 : writeAt arr a vb = some (arr.set a.toNat vb) := by
        simp [writeAt, ha.1, hla]
      have w2 : writeAt (arr.set a.toNat vb) b va = some ((arr.set a.toNat vb).set b.toNat va) := by
        simp [writeAt, hb.1, hlb]
      simp only [get, h1, h2, bind, Except.bind, put, w1, w2, Except.ok.injEq] at h
      subst h
      have e1 : va = arr[a.toNat] := by
        simp [readAt, ha.1, List.getElem?_eq_getElem hla] at h1
        exact h1.symm
      have e2 : vb = arr[b.toNat] := by
        simp [readAt, hb.1, List.getElem?_eq_getElem hlb] at h2
        exact h2.symm
      rw [e1, e2]
      exact set_set_perm_list arr a.toNat b.toNat hla hlb

end SelectionSort

namespace SelectionSort

/-- The outer-loop body of `selectionsort` is the inner loop followed by a swap. -/
theorem sortStep_eq (N : Int) (arr : List Int) (i : Int) :
    sortStep N arr i = (forRange (i + 1) N (minStep arr) i) >>= fun m => swap arr m i := rfl

/-- One round at position `i`: a least element of `arr[i..N)` is brought to position `i`. -/
theorem sortStep_spec (arr : List Int) (N i : Int) (h0 : 0 ≤ i) (hi : i < N)
    (hN : N ≤ arr.length) :
    ∃ arr' m, sortStep N arr i = Except.ok arr' ∧ swap arr m i = Except.ok arr' ∧
      forRange (i + 1) N (minStep arr) i = Except.ok m ∧ (i ≤ m ∧ m < N) ∧
      arr'.length = arr.length ∧ arr'.Perm arr ∧
      (∀ q, i ≤ q → q < N → laneAt arr m ≤ laneAt arr q) ∧
      (∀ q, laneAt arr' q = if q = i then laneAt arr m else if q = m then laneAt arr i
        else laneAt arr q) := by
  obtain ⟨m, hm, hmr, hmin⟩ := minLoop_spec arr N i h0 hi hN
  obtain ⟨arr', hs, hlen, hq⟩ := swap_spec arr m i ⟨by omega, by omega⟩ ⟨by omega, by omega⟩
  refine ⟨arr', m, ?_, hs, hm, hmr, hlen, swap_perm hs, hmin, hq⟩
  rw [sortStep_eq, hm]
  exact hs

/-- The rounds `ind, ..., hi - 1` of the outer loop. -/
theorem sortLoop_spec (arr : List Int) (N ind hi : Int) (h0 : 0 ≤ ind) (h1 : ind ≤ hi)
    (h2 : hi ≤ N) (hN : N ≤ arr.length) :
    ∃ out, forRange ind hi (sortStep N) arr = Except.ok out ∧ out.length = arr.length ∧
      out.Perm arr ∧ (∀ q, q < ind ∨ N ≤ q → laneAt out q = laneAt arr q) ∧
      (∀ p q, ind ≤ p → p < hi → p ≤ q → q < N → laneAt out p ≤ laneAt out q) := by
  refine forRange_rule
    (fun v s => s.length = arr.length ∧ s.Perm arr ∧
      (∀ q, q < ind ∨ N ≤ q → laneAt s q = laneAt arr q) ∧
      (∀ p q, ind ≤ p → p < v → p ≤ q → q < N → laneAt s p ≤ laneAt s q))
    (sortStep N) hi (hi - ind).toNat ind arr rfl h1
    ⟨rfl, List.Perm.refl _, fun _ _ => rfl, fun p q hp1 hp2 => by omega⟩ ?_
  rintro v s hv1 hv2 ⟨hlen, hperm, hframe, hsorted⟩
  obtain ⟨s', m, hs', -, -, hmr, hlen', hperm', hmin, hq⟩ :=
    sortStep_spec s N v (by omega) (by omega) (by rw [hlen]; exact hN)
  refine ⟨s', hs', hlen'.trans hlen, hperm'.trans hperm, ?_, ?_⟩
  · intro q hqr
    rw [hq q, if_neg (by omega), if_neg (by omega)]
    exact hframe q hqr
  · intro p q hp1 hp2 hpq hqN
    -- every cell of `s'` in `[v, N)` holds a value that `s` holds in `[v, N)`
    have hfrom : ∀ t, v ≤ t → t < N → ∃ t', v ≤ t' ∧ t' < N ∧ laneAt s' t = laneAt s t' := by
      intro t ht1 ht2
      rw [hq t]
      by_cases e1 : t = v
      · exact ⟨m, hmr.1, hmr.2, by rw [if_pos e1]⟩
      · by_cases e2 : t = m
        · exact ⟨v, le_refl _, by omega, by rw [if_neg e1, if_pos e2]⟩
        · exact ⟨t, ht1, ht2, by rw [if_neg e1, if_neg e2]⟩
    by_cases hpv : p = v
    · subst hpv
      obtain ⟨t', ht1, ht2, ht3⟩ := hfrom q hpq hqN
      rw [ht3, hq p, if_pos rfl]
      exact hmin t' ht1 ht2
    · have hp : laneAt s' p = laneAt s p := by
        rw [hq p, if_neg hpv, if_neg (by omega)]
      rw [hp]
      by_cases hqv : q < v
      · have hq' : laneAt s' q = laneAt s q := by
          rw [hq q, if_neg (by omega), if_neg (by omega)]
        rw [hq']
        exact hsorted p q hp1 (by omega) hpq hqN
      · obtain ⟨t', ht1, ht2, ht3⟩ := hfrom q (by omega) hqN
        rw [ht3]
        exact hsorted p t' hp1 (by omega) (by omega) ht2

/-- The last round of the recursion, at position `N - 1`, swaps a cell with itself. -/
theorem sortStep_last (arr : List Int) (N : Int) (h1 : 1 ≤ N) (hN : N ≤ arr.length) :
    sortStep N arr (N - 1) = Except.ok arr := by
  obtain ⟨arr', m, hs, -, -, hmr, hlen, -, -, hq⟩ :=
    sortStep_spec arr N (N - 1) (by omega) (by omega) hN
  have hm : m = N - 1 := by omega
  rw [hs]
  congr 1
  apply list_eq_of_laneAt hlen
  intro q _
  rw [hq q, hm]
  by_cases e : q = N - 1
  · rw [if_pos e, e]
  · rw [if_neg e, if_neg e]

/-- The recursion performs the rounds `ind, ..., N - 1` of the outer loop. -/
theorem recursive_eq_forRange (N : Int) :
    ∀ (fuel : Nat) (arr : List Int) (ind : Int), 0 ≤ ind → ind ≤ N → N ≤ arr.length →
      (N - ind).toNat < fuel →
      recursiveselectionsort fuel arr N ind = forRange ind N (sortStep N) arr := by
  intro fuel
  induction fuel with
  | zero => intro arr ind _ _ _ h; omega
  | succ fuel ih =>
    intro arr ind h0 h1 hN hf
    unfold recursiveselectionsort
    by_cases e : ind = N
    · rw [if_pos e, e]
      unfold forRange
      rw [intRange_eq_nil (le_refl _)]
      rfl
    · rw [if_neg e]
      have hlt : ind < N := by omega
      obtain ⟨arr', m, hs, hsw, hm, -, hlen, -, -, -⟩ := sortStep_spec arr N ind h0 hlt hN
      have hrest := ih arr' (ind + 1) (by omega) (by omega) (by rw [hlen]; exact hN) (by omega)
      unfold forRange at hrest ⊢
      rw [intRange_cons hlt, List.foldlM_cons, hs]
      unfold forRange at hm
      rw [hm]
      simp only [bind, Except.bind]
      rw [hsw]
      exact hrest

/-- With enough fuel the recursion from `ind = 0` returns what `selectionsort` returns. -/
theorem recursive_eq_selectionsort (arr out : List Int) (N : Int) (h0 : 0 ≤ N)
    (hN : N ≤ arr.length) (h : selectionsort arr N = Except.ok out) (fuel : Nat)
    (hf : N.toNat < fuel) : recursiveselectionsort fuel arr N 0 = Except.ok out := by
  rw [recursive_eq_forRange N fuel arr 0 (le_refl _) h0 hN (by omega)]
  unfold selectionsort at h
  by_cases hz : N = 0
  · subst hz
    unfold forRange at h ⊢
    rw [intRange_eq_nil (by omega)] at h
    rw [intRange_eq_nil (le_refl _)]
    exact h
  · have h1 : 1 ≤ N := by omega
    obtain ⟨out', ho, hlen, -, -, -⟩ :=
      sortLoop_spec arr N 0 (N - 1) (le_refl _) (by omega) (by omega) hN
    rw [ho] at h
    injection h with h
    subst h
    have hr : intRange 0 N = intRange 0 (N - 1) ++ [N - 1] := by
      have := @intRange_snoc 0 (N - 1) (by omega)
      rwa [show N - 1 + 1 = N by omega] at this
    unfold forRange at ho ⊢
    rw [hr, List.foldlM_append, ho]
    simp only [bind, Except.bind, List.foldlM_cons, List.foldlM_nil]
    rw [sortStep_last out' N h1 (by rw [hlen]; exact hN)]
    rfl

/-- The iterative sort on an array that holds at least `N` cells. -/
theorem selectionsort_spec (arr : List Int) (N : Int) (h0 : 0 ≤ N) (hN : N ≤ arr.length) :
    ∃ out, selectionsort arr N = Except.ok out ∧ out.length = arr.length ∧ out.Perm arr ∧
      (∀ q, N ≤ q → laneAt out q = laneAt arr q) ∧
      (∀ p q, 0 ≤ p → p ≤ q → q < N → laneAt out p ≤ laneAt out q) := by
  by_cases hz : N = 0
  · subst hz
    refine ⟨arr, ?_, rfl, List.Perm.refl _, fun _ _ => rfl, fun p q _ _ _ => by omega⟩
    unfold selectionsort forRange
    rw [intRange_eq_nil (by omega)]
    rfl
  · obtain ⟨out, ho, hlen, hperm, hframe, hsorted⟩ :=
      sortLoop_spec arr N 0 (N - 1) (le_refl _) (by omega) (by omega) hN
    refine ⟨out, ho, hlen, hperm, fun q hq => hframe q (Or.inr hq), ?_⟩
    intro p q hp hpq hq
    by_cases e : p = q
    · rw [e]
    · exact hsorted p q hp (by omega) hpq hq

theorem laneAt_natCast (l : List Int) (k : Nat) (h : k < l.length) :
    laneAt l (k : Int) = l[k] := by
  unfold laneAt readAt
  rw [if_pos (Int.ofNat_nonneg k), Int.toNat_ofNat, List.getElem?_eq_getElem h]
  rfl

theorem take_perm_of_frame (arr out : List Int) (n : Nat) (hlen : out.length = arr.length)
    (hperm : out.Perm arr) (hframe : ∀ q : Int, (n : Int) ≤ q → laneAt out q = laneAt arr q) :
    (out.take n).Perm (arr.take n) := by
  have hdrop : out.drop n = arr.drop n := by
    apply List.ext_getElem
    · simp [hlen]
    · intro k hk1 hk2
      rw [List.getElem_drop, List.getElem_drop]
      have hb : n + k < arr.length := by
        rw [List.length_drop] at hk2; omega
      have := hframe ((n + k : Nat) : Int) (by omega)
      rwa [laneAt_natCast arr _ hb, laneAt_natCast out _ (hlen ▸ hb)] at this
  have e1 := List.take_append_drop n out
  have e2 := List.take_append_drop n arr
  rw [← e1, ← e2, hdrop] at hperm
  exact (List.perm_append_right_iff _).1 hperm

end SelectionSort

namespace SelectionSort

theorem sorted_take_of_laneAt (out : List Int) (n : Nat) (hn : n ≤ out.length)
    (h : ∀ p q : Int, 0 ≤ p → p ≤ q → q < n → laneAt out p ≤ laneAt out q) :
    (out.take n).Sorted (fun a b => a ≤ b) := by
  unfold List.Sorted
  rw [List.pairwise_iff_getElem]
  intro i j hi hj hij
  rw [List.length_take] at hi hj
  rw [List.getElem_take, List.getElem_take]
  have := h (i : Int) (j : Int) (by omega) (by omega) (by omega)
  rwa [laneAt_natCast out i (by omega), laneAt_natCast out j (by omega)] at this

end SelectionSort

/-! ## Theorems on the sorting routines -/

namespace SelectionSort

/-- C8.  Selection sort sorts: for every contents of the 10-element array and every `N` with
`0 <= N <= 10`, `selectionsort(N)` returns, `recursiveselectionsort(N, 0)` returns (with fuel for
its `N + 1` calls), and after each the prefix `arr[0..N)` is in non-decreasing order:
`arr[i] <= arr[i+1]` for all `0 <= i < N-1`. -/
theorem selection_sort_sorts (arr : List Int) (harr : arr.length = 10) (N : Int) (h0 : 0 ≤ N)
    (hN : N ≤ 10) :
    ∃ out₁ out₂, selectionsort arr N = Except.ok out₁ ∧
      (∀ fuel : Nat, N.toNat < fuel → recursiveselectionsort fuel arr N 0 = Except.ok out₂) ∧
      (out₁.length = 10 ∧ (∀ i : Int, 0 ≤ i → i < N - 1 → laneAt out₁ i ≤ laneAt out₁ (i + 1)) ∧
        (out₁.take N.toNat).Sorted (fun a b => a ≤ b)) ∧
      (out₂.length = 10 ∧ (∀ i : Int, 0 ≤ i → i < N - 1 → laneAt out₂ i ≤ laneAt out₂ (i + 1)) ∧
        (out₂.take N.toNat).Sorted (fun a b => a ≤ b)) := by
  have hN' : N ≤ arr.length := by rw [harr]; exact hN
  obtain ⟨out, ho, hlen, -, -, hsorted⟩ := selectionsort_spec arr N h0 hN'
  have post : out.length = 10 ∧
      (∀ i : Int, 0 ≤ i → i < N - 1 → laneAt out i ≤ laneAt out (i + 1)) ∧
      (out.take N.toNat).Sorted (fun a b => a ≤ b) := by
    refine ⟨hlen.trans harr, fun i hi1 hi2 => hsorted i (i + 1) hi1 (by omega) (by omega), ?_⟩
    apply sorted_take_of_laneAt out N.toNat (by omega)
    intro p q hp hpq hq
    exact hsorted p q hp hpq (by omega)
  exact ⟨out, out, ho, fun fuel hf => recursive_eq_selectionsort arr out N h0 hN' ho fuel hf,
    post, post⟩

/-- C8 (witness).  The array of `main` with `N = 10`: the output is `-1 1 1 1 2 3 6 7 7 8`. -/
theorem selection_sort_sorts_witness :
    (∃ out₁ out₂, selectionsort arr0 10 = Except.ok out₁ ∧
      (∀ fuel : Nat, (10 : Int).toNat < fuel →
        recursiveselectionsort fuel arr0 10 0 = Except.ok out₂) ∧
      (out₁.length = 10 ∧
        (∀ i : Int, 0 ≤ i → i < 10 - 1 → laneAt out₁ i ≤ laneAt out₁ (i + 1)) ∧
        (out₁.take (10 : Int).toNat).Sorted (fun a b => a ≤ b)) ∧
      (out₂.length = 10 ∧
        (∀ i : Int, 0 ≤ i → i < 10 - 1 → laneAt out₂ i ≤ laneAt out₂ (i + 1)) ∧
        (out₂.take (10 : Int).toNat).Sorted (fun a b => a ≤ b))) ∧
    mainOutput = Except.ok [-1, 1, 1, 1, 2, 3, 6, 7, 7, 8] ∧
    selectionsort arr0 10 = Except.ok [-1, 1, 1, 1, 2, 3, 6, 7, 7, 8] :=
  ⟨selection_sort_sorts arr0 rfl 10 (by decide) (by decide), rfl, rfl⟩

/-- C9.  Selection sort is an in-place rearrangement: for every contents of the 10-element array
and every `N` with `0 <= N <= 10`, the prefix `arr[0..N)` after `selectionsort(N)`, and after
`recursiveselectionsort(N, 0)`, is a permutation of the prefix before the call, and the array
still has 10 cells. -/
theorem selection_sort_permutes (arr : List Int) (harr : arr.length = 10) (N : Int)
    (h0 : 0 ≤ N) (hN : N ≤ 10) :
    ∃ out₁ out₂, selectionsort arr N = Except.ok out₁ ∧
      (∀ fuel : Nat, N.toNat < fuel → recursiveselectionsort fuel arr N 0 = Except.ok out₂) ∧
      (out₁.length = 10 ∧ (out₁.take N.toNat).Perm (arr.take N.toNat)) ∧
      (out₂.length = 10 ∧ (out₂.take N.toNat).Perm (arr.take N.toNat)) := by
  have hN' : N ≤ arr.length := by rw [harr]; exact hN
  obtain ⟨out, ho, hlen, hperm, hframe, -⟩ := selectionsort_spec arr N h0 hN'
  have post : out.length = 10 ∧ (out.take N.toNat).Perm (arr.take N.toNat) := by
    refine ⟨hlen.trans harr, take_perm_of_frame arr out N.toNat hlen hperm ?_⟩
    intro q hq
    exact hframe q (by omega)
  exact ⟨out, out, ho, fun fuel hf => recursive_eq_selectionsort arr out N h0 hN' ho fuel hf,
    post, post⟩

/-- C9 (witness).  The array of `main`, with its three `1`s and two `7`s, and `N = 10`. -/
theorem selection_sort_permutes_witness :
    (∃ out₁ out₂, selectionsort arr0 10 = Except.ok out₁ ∧
      (∀ fuel : Nat, (10 : Int).toNat < fuel →
        recursiveselectionsort fuel arr0 10 0 = Except.ok out₂) ∧
      (out₁.length = 10 ∧ (out₁.take (10 : Int).toNat).Perm (arr0.take (10 : Int).toNat)) ∧
      (out₂.length = 10 ∧ (out₂.take (10 : Int).toNat).Perm (arr0.take (10 : Int).toNat))) ∧
    List.count 1 [-1, 1, 1, 1, 2, 3, 6, 7, 7, 8] = List.count 1 arr0 ∧
    List.count 7 [-1, 1, 1, 1, 2, 3, 6, 7, 7, 8] = List.count 7 arr0 :=
  ⟨selection_sort_permutes arr0 rfl 10 (by decide) (by decide), by decide, by decide⟩

/-- C10.  Recursive and iterative selection sort agree: for every contents of the 10-element
array and every `N` with `0 <= N <= 10`, `recursiveselectionsort(N, 0)` (with fuel for its `N + 1`
calls) leaves the whole array in exactly the state that `selectionsort(N)` leaves; the round at
`ind = N-1`, which the iterative loop does not perform, finds `min_index = N-1` and swaps the cell
with itself, which changes nothing. -/
theorem recursive_sort_agrees_with_iterative (arr : List Int) (harr : arr.length = 10) (N : Int)
    (h0 : 0 ≤ N) (hN : N ≤ 10) :
    ∃ out, selectionsort arr N = Except.ok out ∧
      (∀ fuel : Nat, N.toNat < fuel → recursiveselectionsort fuel arr N 0 = Except.ok out) ∧
      (1 ≤ N → forRange (N - 1 + 1) N (minStep out) (N - 1) = Except.ok (N - 1) ∧
        swap out (N - 1) (N - 1) = Except.ok out) := by
  have hN' : N ≤ arr.length := by rw [harr]; exact hN
  obtain ⟨out, ho, hlen, -, -, -⟩ := selectionsort_spec arr N h0 hN'
  refine ⟨out, ho, fun fuel hf => recursive_eq_selectionsort arr out N h0 hN' ho fuel hf, ?_⟩
  intro h1
  have hNo : N ≤ out.length := by rw [hlen]; exact hN'
  obtain ⟨arr', m, hs, hsw, hm, hmr, -⟩ := sortStep_spec out N (N - 1) (by omega) (by omega) hNo
  have e : m = N - 1 := by omega
  rw [sortStep_last out N h1 hNo] at hs
  injection hs with hs
  rw [e] at hm hsw
  rw [← hs] at hsw
  exact ⟨hm, hsw⟩

/-- C10 (witness).  The array of `main` with `N = 10`. -/
theorem recursive_sort_agrees_with_iterative_witness :
    (∃ out, selectionsort arr0 10 = Except.ok out ∧
      (∀ fuel : Nat, (10 : Int).toNat < fuel →
        recursiveselectionsort fuel arr0 10 0 = Except.ok out) ∧
      ((1 : Int) ≤ 10 → forRange (10 - 1 + 1) 10 (minStep out) (10 - 1) = Except.ok (10 - 1) ∧
        swap out (10 - 1) (10 - 1) = Except.ok out)) ∧
    recursiveselectionsort 11 arr0 10 0 = selectionsort arr0 10 := by
  have h1 : recursiveselectionsort 11 arr0 10 0 = Except.ok [-1, 1, 1, 1, 2, 3, 6, 7, 7, 8] := rfl
  have h2 : selectionsort arr0 10 = Except.ok [-1, 1, 1, 1, 2, 3, 6, 7, 7, 8] := rfl
  exact ⟨recursive_sort_agrees_with_iterative arr0 rfl 10 (by decide) (by decide),
    h1.trans h2.symm⟩

end SelectionSort

namespace SelectionSort

theorem get_ne_outOfFuel (arr : List Int) (i : Int) :
    get arr i ≠ Except.error Fault.outOfFuel := by
  unfold get
  split <;> simp

theorem put_ne_outOfFuel (arr : List Int) (i v : Int) :
    put arr i v ≠ Except.error Fault.outOfFuel := by
  unfold put
  split <;> simp

theorem minStep_ne_outOfFuel (arr : List Int) (m j : Int) :
    minStep arr m j ≠ Except.error Fault.outOfFuel := by
  unfold minStep
  cases h1 : get arr j with
  | error e =>
    have := get_ne_outOfFuel arr j
    rw [h1] at this
    simpa [bind, Except.bind] using this
  | ok aj =>
    cases h2 : get arr m with
    | error e =>
      have := get_ne_outOfFuel arr m
      rw [h2] at this
      simpa [bind, Except.bind] using this
    | ok am =>
      simp only [bind, Except.bind]
      split <;> simp [pure, Except.pure]

theorem foldlM_ne_outOfFuel {σ ι : Type} (body : σ → ι → Except Fault σ)
    (h : ∀ s i, body s i ≠ Except.error Fault.outOfFuel) (L : List ι) :
    ∀ s, L.foldlM body s ≠ Except.error Fault.outOfFuel := by
  induction L with
  | nil => intro s; simp [pure, Except.pure]
  | cons a L ih =>
    intro s
    rw [List.foldlM_cons]
    cases hb : body s a with
    | error e =>
      have := h s a
      rw [hb] at this
      simpa [bind, Except.bind] using this
    | ok t =>
      simp only [bind, Except.bind]
      exact ih t

theorem swap_ne_outOfFuel (arr : List Int) (a b : Int) :
    swap arr a b ≠ Except.error Fault.outOfFuel := by
  unfold swap
  cases h1 : get arr a with
  | error e =>
    have := get_ne_outOfFuel arr a
    rw [h1] at this
    simpa [bind, Except.bind] using this
  | ok va =>
    cases h2 : get arr b with
    | error e =>
      have := get_ne_outOfFuel arr b
      rw [h2] at this
      simpa [bind, Except.bind] using this
    | ok vb =>
      cases h3 : put arr a vb with
      | error e =>
        have := put_ne_outOfFuel arr a vb
        rw [h3] at this
        simpa [bind, Except.bind, h3] using this
      | ok arr1 =>
        simp only [bind, Except.bind, h3]
        exact put_ne_outOfFuel arr1 b va

/-- With fuel for more than `N - ind` calls the recursion does not run out of fuel, whatever the
array holds. -/
theorem recursive_ne_outOfFuel (N : Int) :
    ∀ (fuel : Nat) (arr : List Int) (ind : Int), ind ≤ N → (N - ind).toNat < fuel →
      recursiveselectionsort fuel arr N ind ≠ Except.error Fault.outOfFuel := by
  intro fuel
  induction fuel with
  | zero => intro arr ind _ h; omega
  | succ fuel ih =>
    intro arr ind h1 hf
    unfold recursiveselectionsort
    by_cases e : ind = N
    · rw [if_pos e]
      simp [pure, Except.pure]
    · rw [if_neg e]
      cases hm : forRange (ind + 1) N (minStep arr) ind with
      | error err =>
        have := foldlM_ne_outOfFuel (minStep arr) (minStep_ne_outOfFuel arr)
          (intRange (ind + 1) N) ind
        unfold forRange at hm
        rw [hm] at this
        simpa [bind, Except.bind] using this
      | ok m =>
        cases hs : swap arr m ind with
        | error err =>
          have := swap_ne_outOfFuel arr m ind
          rw [hs] at this
          simpa [bind, Except.bind, hs] using this
        | ok arr' =>
          simp only [bind, Except.bind, hs]
          exact ih arr' (ind + 1) (by omega) (by omega)

/-- With fuel for at most `N - ind` calls the recursion runs out of fuel before the base case. -/
theorem recursive_outOfFuel (N : Int) :
    ∀ (fuel : Nat) (arr : List Int) (ind : Int), 0 ≤ ind → ind ≤ N → N ≤ arr.length →
      fuel ≤ (N - ind).toNat →
      recursiveselectionsort fuel arr N ind = Except.error Fault.outOfFuel := by
  intro fuel
  induction fuel with
  | zero => intro arr ind _ _ _ _; rfl
  | succ fuel ih =>
    intro arr ind h0 h1 hN hf
    unfold recursiveselectionsort
    have hlt : ind < N := by omega
    rw [if_neg (by omega)]
    obtain ⟨arr', m, -, hsw, hm, -, hlen, -, -, -⟩ := sortStep_spec arr N ind h0 hlt hN
    rw [hm]
    simp only [bind, Except.bind, hsw]
    exact ih arr' (ind + 1) (by omega) (by omega) (by rw [hlen]; exact hN) (by omega)

/-- Started above `N`, the recursion never meets the base case `ind == N`: no amount of fuel makes
it return. -/
theorem recursive_above_never_returns (N : Int) :
    ∀ (fuel : Nat) (arr out : List Int) (ind : Int), N < ind →
      recursiveselectionsort fuel arr N ind ≠ Except.ok out := by
  intro fuel
  induction fuel with
  | zero =>
    intro arr out ind _
    unfold recursiveselectionsort
    simp
  | succ fuel ih =>
    intro arr out ind h
    unfold recursiveselectionsort
    rw [if_neg (by omega)]
    cases hm : forRange (ind + 1) N (minStep arr) ind with
    | error err => simp [bind, Except.bind]
    | ok m =>
      cases hs : swap arr m ind with
      | error err => simp [bind, Except.bind, hs]
      | ok arr' =>
        simp only [bind, Except.bind, hs]
        exact ih arr' out (ind + 1) (by omega)

theorem readAt_eq_of_laneAt_int {C D : List Int} (hlen : C.length = D.length) {q : Int}
    (h : laneAt C q = laneAt D q) : readAt C q = readAt D q := by
  unfold laneAt at h
  have h1 := readAt_isSome C q
  have h2 := readAt_isSome D q
  rw [hlen] at h1
  cases hc : readAt C q with
  | none =>
    cases hd : readAt D q with
    | none => rfl
    | some d =>
      rw [hc] at h1; rw [hd] at h2
      exact absurd (h1.2 (h2.1 rfl)) (by simp)
  | some c =>
    cases hd : readAt D q with
    | none =>
      rw [hc] at h1; rw [hd] at h2
      exact absurd (h2.2 (h1.1 rfl)) (by simp)
    | some d =>
      rw [hc, hd] at h
      simpa using h

end SelectionSort

namespace SelectionSort

/-- C14 (counterexample).  The claim as stated, for every `0 <= ind <= N`: with `N = 11` and
`ind = 0` on the array of `main`, the first call reads `arr[10]`, outside the 10 cells of `arr`,
while it searches the minimum; the call returns for no amount of fuel. -/
theorem recursive_sort_leaves_array_for_N_above_10 :
    (0 : Int) ≤ 0 ∧ (0 : Int) ≤ 11 ∧ arr0.length = 10 ∧
    (∀ fuel : Nat, recursiveselectionsort (fuel + 1) arr0 11 0 =
      Except.error Fault.outOfBounds) ∧
    (∀ (fuel : Nat) (out : List Int), recursiveselectionsort fuel arr0 11 0 ≠ Except.ok out) := by
  have h : ∀ fuel : Nat, recursiveselectionsort (fuel + 1) arr0 11 0 =
      Except.error Fault.outOfBounds := by
    intro fuel
    unfold recursiveselectionsort
    rfl
  refine ⟨by decide, by decide, rfl, h, ?_⟩
  intro fuel out
  cases fuel with
  | zero => exact fun h' => Except.noConfusion h'
  | succ fuel =>
    rw [h fuel]
    exact fun h' => Except.noConfusion h'

/-- C14.  Termination of the recursive sort, on the 10-element array.  For `0 <= ind <= N <= 10`
the call reaches the base case `ind == N` and returns with fuel for `N - ind + 1` calls (the first
call and `N - ind` recursive calls), and with fuel for fewer calls it does not: exactly `N - ind`
recursive calls are made.  Started with `ind > N` the equality test `ind == N` is never met and
the call returns for no amount of fuel. -/
theorem recursive_sort_terminates (arr : List Int) (harr : arr.length = 10) (N ind : Int)
    (h0 : 0 ≤ ind) (h1 : ind ≤ N) (hN : N ≤ 10) :
    (∃ out,
      (∀ fuel : Nat, (N - ind).toNat < fuel →
        recursiveselectionsort fuel arr N ind = Except.ok out) ∧
      (∀ fuel : Nat, fuel ≤ (N - ind).toNat →
        recursiveselectionsort fuel arr N ind = Except.error Fault.outOfFuel)) ∧
    (∀ (fuel : Nat) (ind' : Int) (out : List Int), N < ind' →
      recursiveselectionsort fuel arr N ind' ≠ Except.ok out) := by
  refine ⟨?_, fun fuel ind' out h => recursive_above_never_returns N fuel arr out ind' h⟩
  have hN' : N ≤ arr.length := by rw [harr]; exact hN
  obtain ⟨out, ho, -⟩ := sortLoop_spec arr N ind N h0 h1 (le_refl _) hN'
  refine ⟨out, fun fuel hf => ?_, fun fuel hf => recursive_outOfFuel N fuel arr ind h0 h1 hN' hf⟩
  rw [recursive_eq_forRange N fuel arr ind h0 h1 hN' hf]
  exact ho

/-- C14 (witness).  The array of `main` with `N = 10`, `ind = 0`: 11 calls return, 10 do not. -/
theorem recursive_sort_terminates_witness :
    ((∃ out,
        (∀ fuel : Nat, ((10 : Int) - 0).toNat < fuel →
          recursiveselectionsort fuel arr0 10 0 = Except.ok out) ∧
        (∀ fuel : Nat, fuel ≤ ((10 : Int) - 0).toNat →
          recursiveselectionsort fuel arr0 10 0 = Except.error Fault.outOfFuel)) ∧
      (∀ (fuel : Nat) (ind' : Int) (out : List Int), 10 < ind' →
        recursiveselectionsort fuel arr0 10 ind' ≠ Except.ok out)) ∧
    recursiveselectionsort 11 arr0 10 0 = Except.ok [-1, 1, 1, 1, 2, 3, 6, 7, 7, 8] ∧
    recursiveselectionsort 10 arr0 10 0 = Except.error Fault.outOfFuel ∧
    recursiveselectionsort 30 arr0 0 1 = Except.error Fault.outOfBounds :=
  ⟨recursive_sort_terminates arr0 rfl 10 0 (by decide) (by decide) (by decide), rfl, rfl, rfl⟩

/-- C15.  Sort frame, on the 10-element array: for `0 <= ind <= N <= 10`,
`recursiveselectionsort(N, ind)` returns an array in which every cell `arr[p]` with `p < ind` or
`p >= N` is as before the call (only positions in `[ind, N)` are modified), and `selectionsort(N)`
returns an array in which every cell `arr[p]` with `p >= N` is as before. -/
theorem sort_frame (arr : List Int) (harr : arr.length = 10) (N ind : Int) (h0 : 0 ≤ ind)
    (h1 : ind ≤ N) (hN : N ≤ 10) :
    (∃ out, (∀ fuel : Nat, (N - ind).toNat < fuel →
        recursiveselectionsort fuel arr N ind = Except.ok out) ∧ out.length = 10 ∧
      ∀ p : Int, p < ind ∨ N ≤ p → readAt out p = readAt arr p) ∧
    (∃ out, selectionsort arr N = Except.ok out ∧ out.length = 10 ∧
      ∀ p : Int, N ≤ p → readAt out p = readAt arr p) := by
  have hN' : N ≤ arr.length := by rw [harr]; exact hN
  constructor
  · obtain ⟨out, ho, hlen, -, hframe, -⟩ := sortLoop_spec arr N ind N h0 h1 (le_refl _) hN'
    refine ⟨out, fun fuel hf => ?_, hlen.trans harr, fun p hp =>
      readAt_eq_of_laneAt_int hlen (hframe p hp)⟩
    rw [recursive_eq_forRange N fuel arr ind h0 h1 hN' hf]
    exact ho
  · obtain ⟨out, ho, hlen, -, hframe, -⟩ := selectionsort_spec arr N (by omega) hN'
    exact ⟨out, ho, hlen.trans harr, fun p hp => readAt_eq_of_laneAt_int hlen (hframe p hp)⟩

/-- C15 (witness).  The array of `main` with `ind = 3` and `N = 7`: cells 0-2 and 7-9 keep their
values. -/
theorem sort_frame_witness :
    ((∃ out, (∀ fuel : Nat, ((7 : Int) - 3).toNat < fuel →
        recursiveselectionsort fuel arr0 7 3 = Except.ok out) ∧ out.length = 10 ∧
      ∀ p : Int, p < 3 ∨ 7 ≤ p → readAt out p = readAt arr0 p) ∧
    (∃ out, selectionsort arr0 7 = Except.ok out ∧ out.length = 10 ∧
      ∀ p : Int, 7 ≤ p → readAt out p = readAt arr0 p)) ∧
    recursiveselectionsort 5 arr0 7 3 = Except.ok [6, 3, 1, 1, 2, 7, 7, 1, 8, -1] ∧
    selectionsort arr0 7 = Except.ok [1, 1, 2, 3, 6, 7, 7, 1, 8, -1] :=
  ⟨sort_frame arr0 rfl 7 3 (by decide) (by decide) (by decide), rfl, rfl⟩

end SelectionSort

/-! ## Lemmas on Dijkstra's algorithm -/

namespace Dijkstra

theorem pairLt_trans_le {a b c : Int × Int} (h1 : ¬ pairLt b a) (h2 : ¬ pairLt c b) :
    ¬ pairLt c a := by
  unfold pairLt at *
  omega

theorem foldl_min_spec (es : List (Int × Int)) :
    ∀ e : Int × Int,
      es.foldl (fun m x => if pairLt x m then x else m) e ∈ e :: es ∧
      ∀ x ∈ e :: es, ¬ pairLt x (es.foldl (fun m x => if pairLt x m then x else m) e) := by
  induction es with
  | nil =>
    intro e
    simp only [List.foldl_nil, List.mem_singleton, forall_eq, true_and]
    unfold pairLt
    omega
  | cons y es ih =>
    intro e
    rw [List.foldl_cons]
    obtain ⟨hm, hle⟩ := ih (if pairLt y e then y else e)
    have hme : ¬ pairLt e (if pairLt y e then y else e) := by
      by_cases h : pairLt y e
      · rw [if_pos h]
        unfold pairLt at h ⊢
        omega
      · rw [if_neg h]
        unfold pairLt
        omega
    have hmy : ¬ pairLt y (if pairLt y e then y else e) := by
      by_cases h : pairLt y e
      · rw [if_pos h]
        unfold pairLt
        omega
      · rw [if_neg h]
        exact h
    have h0 := hle _ (List.mem_cons_self _ _)
    constructor
    · rcases List.mem_cons.1 hm with h | h
      · rw [h]
        by_cases hy : pairLt y e
        · rw [if_pos hy]; simp
        · rw [if_neg hy]; simp
      · exact List.mem_cons_of_mem _ (List.mem_cons_of_mem _ h)
    · intro x hx
      rcases List.mem_cons.1 hx with h | h
      · rw [h]
        exact pairLt_trans_le h0 hme
      · rcases List.mem_cons.1 h with h | h
        · rw [h]
          exact pairLt_trans_le h0 hmy
        · exact hle x (List.mem_cons_of_mem _ h)

theorem top_eq_none {pq : List (Int × Int)} : top pq = none ↔ pq = [] := by
  cases pq with
  | nil => simp [top]
  | cons e es => simp [top]

theorem top_mem {pq : List (Int × Int)} {cur : Int × Int} (h : top pq = some cur) : cur ∈ pq := by
  cases pq with
  | nil => simp [top] at h
  | cons e es =>
    simp only [top, Option.some.injEq] at h
    rw [← h]
    exact (foldl_min_spec es e).1

theorem top_min {pq : List (Int × Int)} {cur : Int × Int} (h : top pq = some cur) :
    ∀ x ∈ pq, ¬ pairLt x cur := by
  cases pq with
  | nil => simp [top] at h
  | cons e es =>
    simp only [top, Option.some.injEq] at h
    rw [← h]
    exact (foldl_min_spec es e).2

theorem top_key_le {pq : List (Int × Int)} {cur : Int × Int} (h : top pq = some cur)
    {c v : Int} (hx : (c, v) ∈ pq) : cur.1 ≤ c := by
  have := top_min h _ hx
  unfold pairLt at this
  simp only at this
  omega

theorem idsOk_get {nodes : List Node} (h : IdsOk nodes) {i : Nat} {nd : Node}
    (hi : nodes[i]? = some nd) : nd.id = (i : Int) := by
  unfold IdsOk at h
  have hlt : i < nodes.length := (List.getElem?_eq_some.1 hi).1
  have e1 : (nodes.map (fun nd => nd.id))[i]? = some nd.id := by
    rw [List.getElem?_map, hi]; rfl
  have e2 : ((List.range nodes.length).map (fun (i : Nat) => (i : Int)))[i]? = some (i : Int) := by
    rw [List.getElem?_map, List.getElem?_range hlt]; rfl
  rw [h, e2] at e1
  exact (Option.some.inj e1).symm

theorem valid_of_get {nodes : List Node} {i : Nat} {nd : Node} (hi : nodes[i]? = some nd) :
    Valid nodes (i : Int) := by
  have hlt : i < nodes.length := (List.getElem?_eq_some.1 hi).1
  exact ⟨Int.ofNat_nonneg _, by exact_mod_cast hlt⟩

theorem readAt_of_valid {nodes : List Node} {u : Int} (h : Valid nodes u) :
    ∃ nd, readAt nodes u = some nd :=
  Option.isSome_iff_exists.1 ((readAt_isSome nodes u).2 h)

theorem valid_of_readAt {nodes : List Node} {u : Int} {nd : Node} (h : readAt nodes u = some nd) :
    Valid nodes u := readAt_eq_some h

theorem mem_of_readAt {nodes : List Node} {u : Int} {nd : Node} (h : readAt nodes u = some nd) :
    nd ∈ nodes := by
  unfold readAt at h
  split at h
  · exact List.getElem?_mem h
  · simp at h

theorem edge_valid {nodes : List Node} (hid : IdsOk nodes) {u w v : Int}
    (h : Edge nodes u w v) : Valid nodes u ∧ Valid nodes v := by
  obtain ⟨nd, e, tgt, h1, -, -, h4, h5⟩ := h
  refine ⟨valid_of_readAt h1, ?_⟩
  rw [← h5, idsOk_get hid h4]
  exact valid_of_get h4

theorem inCap_of_valid {nodes : List Node} (hfit : (nodes.length : Int) ≤ CAP) {u : Int}
    (h : Valid nodes u) : inCap u := ⟨h.1, lt_of_lt_of_le h.2 hfit⟩

section TreeLemmas
variable {nodes : List Node} {start : Int}

theorem tree_last_mem {s : State} {π : List Int} {v : Int} (h : Tree nodes start s π v) :
    v ∈ π := by
  cases h with
  | root => simp
  | snoc _ _ _ _ _ _ => simp

theorem tree_visited {s : State} {π : List Int} {v : Int} (h : Tree nodes start s π v) :
    ∀ x ∈ π, x = v ∨ s.visited x = true := by
  induction h with
  | root => intro x hx; left; simpa using hx
  | snoc ht hvis _ _ _ _ ih =>
    intro x hx
    rcases List.mem_append.1 hx with h | h
    · right
      rcases ih x h with e | e
      · rw [e]; exact hvis
      · exact e
    · left; simpa using h

theorem tree_nodup {s : State} {π : List Int} {v : Int} (h : Tree nodes start s π v) :
    π.Nodup := by
  induction h with
  | root => simp
  | snoc _ _ _ _ _ hnot ih =>
    rw [List.nodup_append]
    refine ⟨ih, List.nodup_singleton _, ?_⟩
    intro a ha hb
    rw [List.mem_singleton.1 hb] at ha
    exact hnot ha

theorem tree_head {s : State} {π : List Int} {v : Int} (h : Tree nodes start s π v) :
    π.head? = some start := by
  induction h with
  | root => rfl
  | @snoc π₀ u v₀ w ht _ _ _ _ _ ih =>
    cases π₀ with
    | nil => simp at ih
    | cons a t => simpa using ih

theorem tree_start_mem {s : State} {π : List Int} {v : Int} (h : Tree nodes start s π v) :
    start ∈ π := by
  have := tree_head h
  cases π with
  | nil => simp at this
  | cons a t =>
    simp only [List.head?_cons, Option.some.injEq] at this
    rw [this]
    exact List.mem_cons_self _ _

theorem tree_path {s : State} (h0 : s.dist start = 0) {π : List Int} {v : Int}
    (h : Tree nodes start s π v) : PathTo nodes start π v (s.dist v) := by
  induction h with
  | root => rw [h0]; exact PathTo.single
  | snoc _ _ hedge _ hd _ ih =>
    rw [hd]
    exact PathTo.snoc ih hedge

theorem tree_valid (hid : IdsOk nodes) (hs : Valid nodes start) {s : State} {π : List Int}
    {v : Int} (h : Tree nodes start s π v) : ∀ x ∈ π, Valid nodes x := by
  induction h with
  | root => intro x hx; rw [List.mem_singleton.1 hx]; exact hs
  | snoc _ _ hedge _ _ _ ih =>
    intro x hx
    rcases List.mem_append.1 hx with h | h
    · exact ih x h
    · rw [List.mem_singleton.1 h]
      exact (edge_valid hid hedge).2

theorem tree_transfer {s s' : State} {π : List Int} {v : Int} (h : Tree nodes start s π v)
    (hd : ∀ x ∈ π, s'.dist x = s.dist x ∧ s'.path x = s.path x)
    (hv : ∀ x, s.visited x = true → s'.visited x = true) : Tree nodes start s' π v := by
  induction h with
  | root => exact Tree.root
  | @snoc π₀ u v₀ w ht hvis hedge hp hdist hnot ih =>
    have hu : u ∈ π₀ := tree_last_mem ht
    have h1 := hd u (List.mem_append_left _ hu)
    have h2 := hd v₀ (List.mem_append_right _ (List.mem_singleton_self _))
    refine Tree.snoc (ih (fun x hx => hd x (List.mem_append_left _ hx))) (hv u hvis) hedge ?_ ?_
      hnot
    · rw [h2.2]; exact hp
    · rw [h2.1, h1.1]; exact hdist

theorem tree_cases {s : State} {π : List Int} {v : Int} (h : Tree nodes start s π v) :
    (v = start ∧ π = [start]) ∨
    (v ≠ start ∧ ∃ π' u w, π = π' ++ [v] ∧ Tree nodes start s π' u ∧ s.visited u = true ∧
      Edge nodes u w v ∧ s.path v = u ∧ s.dist v = s.dist u + w ∧ v ∉ π') := by
  cases h with
  | root => left; exact ⟨rfl, rfl⟩
  | snoc ht hvis hedge hp hdist hnot =>
    right
    refine ⟨?_, _, _, _, rfl, ht, hvis, hedge, hp, hdist, hnot⟩
    intro e
    exact hnot (e ▸ tree_start_mem ht)

end TreeLemmas

end Dijkstra

namespace Dijkstra

section Invariant
variable {nodes : List Node} {start : Int}

theorem update_true_of_true {vis : Int → Bool} {u : Int} (h : vis u = true) (x : Int) :
    Function.update vis u true x = vis x := by
  by_cases e : x = u
  · rw [e, Function.update_same, h]
  · rw [Function.update_noteq e]

/-- The invariant holds at the loop entry. -/
theorem inv_initial (hs : Valid nodes start) : Inv nodes start none (initial start) := by
  have hd : ∀ v, (initial start).dist v < INT_MAX → v = start := by
    intro v hv
    by_contra hne
    simp only [initial, Function.update_noteq hne] at hv
    exact lt_irrefl _ hv
  refine ⟨?_, ?_, ?_, ?_, ?_, ?_, ?_, ?_, ?_, ?_, ?_⟩
  · intro c v h
    simp only [initial, List.mem_singleton, Prod.mk.injEq] at h
    obtain ⟨rfl, rfl⟩ := h
    refine ⟨hs, ?_, by decide⟩
    simp [initial]
  · intro v _ hv
    have := hd v hv
    subst this
    simp [initial]
  · simp [initial]
  · intro c v _ hv
    simp [initial] at hv
  · intro v hv
    simp [initial] at hv
  · intro v
    by_cases e : v = start
    · subst e
      simp only [initial, Function.update_same]
      exact ⟨by decide, fun h => absurd h (by decide)⟩
    · have h1 : (initial start).dist v = INT_MAX := by
        simp only [initial, Function.update_noteq e]
      rw [h1]
      exact ⟨le_refl _, fun _ => rfl⟩
  · simp [initial]
  · intro _
    refine ⟨rfl, ?_⟩
    intro c v h
    simp only [initial, List.mem_singleton, Prod.mk.injEq] at h
    exact h.2
  · intro v hv
    have := hd v hv
    subst this
    exact ⟨[v], Tree.root⟩
  · intro u rest h
    simp at h
  · intro ev h
    simp [initial] at h

theorem invNN_initial : InvNN nodes none (initial start) := by
  refine ⟨?_, ?_, ?_, ?_, ?_⟩
  · intro v
    by_cases e : v = start
    · subst e
      simp [initial]
    · simp only [initial, Function.update_noteq e]
      decide
  · intro u w v hu
    simp [initial] at hu
  · intro u rest h
    simp at h
  · intro u hu
    simp [initial] at hu
  · intro u rest h
    simp at h

/-- The popped entry of a stale pop belongs to a node that is already visited. -/
theorem stale_visited {s : State} {cur : Int × Int} (hI : Inv nodes start none s)
    (ht : top s.pq = some cur) (hst : cur.1 > s.dist cur.2) : s.visited cur.2 = true := by
  by_contra hv
  have hv' : s.visited cur.2 = false := by simpa using hv
  have hmem := top_mem ht
  obtain ⟨_, _, hlt⟩ := hI.entries cur.1 cur.2 hmem
  have hin := hI.frontier cur.2 hv' (by omega)
  have := top_min ht _ hin
  apply this
  left
  exact hst

/-- The node of a pop that is not stale was not visited, and its key is its `dist`. -/
theorem settle_fresh {s : State} {cur : Int × Int} (hI : Inv nodes start none s)
    (ht : top s.pq = some cur) (hst : ¬ cur.1 > s.dist cur.2) :
    s.visited cur.2 = false ∧ cur.1 = s.dist cur.2 := by
  have hmem := top_mem ht
  obtain ⟨_, hle, _⟩ := hI.entries cur.1 cur.2 hmem
  constructor
  · by_contra hv
    have hv' : s.visited cur.2 = true := by simpa using hv
    have := hI.stale cur.1 cur.2 hmem hv'
    omega
  · omega

/-- A stale pop keeps the invariant. -/
theorem inv_pop_stale {s : State} {cur : Int × Int} (hI : Inv nodes start none s)
    (ht : top s.pq = some cur) (hst : cur.1 > s.dist cur.2) :
    Inv nodes start none (popped s cur) := by
  have hvis := stale_visited hI ht hst
  have hmem := top_mem ht
  have hsame : ∀ x, (popped s cur).visited x = s.visited x := update_true_of_true hvis
  refine ⟨?_, ?_, ?_, ?_, ?_, ?_, ?_, ?_, ?_, ?_, ?_⟩
  · intro c v h
    exact hI.entries c v (List.mem_of_mem_erase h)
  · intro v hv hd
    rw [hsame] at hv
    have hin := hI.frontier v hv hd
    refine (List.mem_erase_of_ne ?_).2 hin
    intro e
    have : v = cur.2 := by rw [← e]
    rw [this, hvis] at hv
    exact Bool.noConfusion hv
  · exact hI.nodup.erase _
  · intro c v h hv
    rw [hsame] at hv
    exact hI.stale c v (List.mem_of_mem_erase h) hv
  · intro v hv
    rw [hsame] at hv
    exact hI.settled v hv
  · exact hI.bound
  · exact hI.source
  · intro hv
    rw [hsame] at hv
    obtain ⟨_, hall⟩ := hI.fresh hv
    have := hall cur.1 cur.2 hmem
    rw [this, hv] at hvis
    exact Bool.noConfusion hvis
  · intro v hd
    obtain ⟨π, hπ⟩ := hI.tree v hd
    exact ⟨π, tree_transfer hπ (fun _ _ => ⟨rfl, rfl⟩) (fun x hx => by rw [hsame]; exact hx)⟩
  · intro u rest h
    simp at h
  · intro ev hev
    rcases List.mem_cons.1 hev with h | h
    · rw [h]
      show s.dist cur.2 < INT_MAX
      have := (hI.entries cur.1 cur.2 hmem).2.2
      omega
    · exact hI.events ev h

theorem invNN_pop_stale {s : State} {cur : Int × Int} (hI : Inv nodes start none s)
    (hN : InvNN nodes none s) (ht : top s.pq = some cur) (hst : cur.1 > s.dist cur.2) :
    InvNN nodes none (popped s cur) := by
  have hvis := stale_visited hI ht hst
  have hsame : ∀ x, (popped s cur).visited x = s.visited x := update_true_of_true hvis
  refine ⟨hN.nonneg, ?_, ?_, ?_, ?_⟩
  · intro u w v hu he
    rw [hsame] at hu
    exact hN.relaxed u w v hu he
  · intro u rest h
    simp at h
  · intro u hu c v h
    rw [hsame] at hu
    exact hN.keys u hu c v (List.mem_of_mem_erase h)
  · intro u rest h
    simp at h

end Invariant

end Dijkstra

namespace Dijkstra

section Settle
variable {nodes : List Node} {start : Int}

theorem popped_visited_of_ne {s : State} {cur : Int × Int} {x : Int} (h : x ≠ cur.2) :
    (popped s cur).visited x = s.visited x := Function.update_noteq h _ _

theorem popped_visited_self (s : State) (cur : Int × Int) :
    (popped s cur).visited cur.2 = true := Function.update_same _ _ _

theorem popped_visited_mono {s : State} {cur : Int × Int} {x : Int} (h : s.visited x = true) :
    (popped s cur).visited x = true := by
  by_cases e : x = cur.2
  · rw [e]; exact popped_visited_self s cur
  · rw [popped_visited_of_ne e]; exact h

/-- A pop that is not stale keeps the invariant, with the whole adjacency list of the popped node
still to be traversed. -/
theorem inv_pop_settle {s : State} {cur : Int × Int} {node : Node}
    (hI : Inv nodes start none s) (ht : top s.pq = some cur) (hst : ¬ cur.1 > s.dist cur.2)
    (hnode : readAt nodes cur.2 = some node) :
    Inv nodes start (some (cur.2, node.children)) (popped s cur) := by
  obtain ⟨hunvis, hkey⟩ := settle_fresh hI ht hst
  have hmem := top_mem ht
  obtain ⟨hvalid, _, hlt⟩ := hI.entries cur.1 cur.2 hmem
  refine ⟨?_, ?_, ?_, ?_, ?_, ?_, ?_, ?_, ?_, ?_, ?_⟩
  · intro c v h
    exact hI.entries c v (List.mem_of_mem_erase h)
  · intro v hv hd
    have hne : v ≠ cur.2 := by
      intro e
      rw [e, popped_visited_self] at hv
      exact Bool.noConfusion hv
    rw [popped_visited_of_ne hne] at hv
    have hin := hI.frontier v hv hd
    refine (List.mem_erase_of_ne ?_).2 hin
    intro e
    exact hne (by rw [← e])
  · exact hI.nodup.erase _
  · intro c v h hv
    have hin : (c, v) ∈ s.pq := List.mem_of_mem_erase h
    by_cases e : v = cur.2
    · have hne : (c, v) ≠ cur := ((hI.nodup.mem_erase_iff).1 h).1
      have hc : c ≠ cur.1 := by
        intro hc
        apply hne
        rw [hc, e]
      have := (hI.entries c v hin).2.1
      show s.dist v < c
      rw [e] at this ⊢
      omega
    · rw [popped_visited_of_ne e] at hv
      exact hI.stale c v hin hv
  · intro v hv
    by_cases e : v = cur.2
    · rw [e]
      exact ⟨hvalid, by show s.dist cur.2 < INT_MAX; omega⟩
    · rw [popped_visited_of_ne e] at hv
      exact hI.settled v hv
  · exact hI.bound
  · exact hI.source
  · intro hv
    exfalso
    have hne : start ≠ cur.2 := by
      intro e
      rw [e, popped_visited_self] at hv
      exact Bool.noConfusion hv
    rw [popped_visited_of_ne hne] at hv
    exact hne ((hI.fresh hv).2 cur.1 cur.2 hmem).symm
  · intro v hd
    obtain ⟨π, hπ⟩ := hI.tree v hd
    exact ⟨π, tree_transfer hπ (fun _ _ => ⟨rfl, rfl⟩) (fun x hx => popped_visited_mono hx)⟩
  · intro u rest h
    simp only [Option.some.injEq, Prod.mk.injEq] at h
    obtain ⟨rfl, rfl⟩ := h
    exact ⟨popped_visited_self s cur, node, hnode, fun e he => he⟩
  · intro ev hev
    rcases List.mem_cons.1 hev with h | h
    · rw [h]
      show s.dist cur.2 < INT_MAX
      omega
    · exact hI.events ev h

theorem invNN_pop_settle {s : State} {cur : Int × Int} {node : Node}
    (hI : Inv nodes start none s) (hN : InvNN nodes none s) (ht : top s.pq = some cur)
    (hst : ¬ cur.1 > s.dist cur.2) (hnode : readAt nodes cur.2 = some node) :
    InvNN nodes (some (cur.2, node.children)) (popped s cur) := by
  obtain ⟨hunvis, hkey⟩ := settle_fresh hI ht hst
  have hmem := top_mem ht
  refine ⟨hN.nonneg, ?_, ?_, ?_, ?_⟩
  · intro u w v hu he
    by_cases e : u = cur.2
    · left
      exact ⟨node.children, by rw [e]⟩
    · rw [popped_visited_of_ne e] at hu
      rcases hN.relaxed u w v hu he with ⟨rest, h⟩ | h
      · simp at h
      · right; exact h
  · intro u rest h node' hnode' e he
    simp only [Option.some.injEq, Prod.mk.injEq] at h
    obtain ⟨rfl, rfl⟩ := h
    rw [hnode] at hnode'
    left
    rw [Option.some.inj hnode']
    exact he
  · intro u hu c v h
    have hin : (c, v) ∈ s.pq := List.mem_of_mem_erase h
    by_cases e : u = cur.2
    · rw [e]
      show s.dist cur.2 ≤ c
      rw [← hkey]
      exact top_key_le ht hin
    · rw [popped_visited_of_ne e] at hu
      exact hN.keys u hu c v hin
  · intro u rest h x hx
    simp only [Option.some.injEq, Prod.mk.injEq] at h
    obtain ⟨rfl, rfl⟩ := h
    by_cases e : x = cur.2
    · rw [e]
    · rw [popped_visited_of_ne e] at hx
      show s.dist x ≤ s.dist cur.2
      rw [← hkey]
      exact hN.keys x hx cur.1 cur.2 hmem

/-- When the adjacency list is exhausted the invariant holds between iterations again. -/
theorem inv_done {s : State} {u : Int} (hI : Inv nodes start (some (u, [])) s) :
    Inv nodes start none s := by
  refine ⟨hI.entries, hI.frontier, hI.nodup, hI.stale, hI.settled, hI.bound, hI.source, ?_,
    hI.tree, ?_, hI.events⟩
  · intro hv
    have := (hI.fresh hv).1
    simp at this
  · intro u rest h
    simp at h

theorem invNN_done {s : State} {u : Int} (hN : InvNN nodes (some (u, [])) s) :
    InvNN nodes none s := by
  refine ⟨hN.nonneg, ?_, ?_, hN.keys, ?_⟩
  · intro x w v hx he
    right
    rcases hN.relaxed x w v hx he with ⟨rest, h⟩ | h
    · simp only [Option.some.injEq, Prod.mk.injEq] at h
      obtain ⟨hxu, -⟩ := h
      rw [hxu] at hN
      obtain ⟨nd, e, tgt, h1, h2, h3, h4, h5⟩ := he
      rcases hN.relaxedPending x [] rfl nd h1 e h2 with h | h
      · simp at h
      · rw [← h5, ← h3]
        exact h tgt h4
    · exact h
  · intro u rest h
    simp at h
  · intro u rest h
    simp at h

end Settle

end Dijkstra

namespace Dijkstra

section Relax
variable {nodes : List Node} {start : Int}

/-- The outcomes of one execution of the body of the edge loop that return. -/
theorem relax_ok_cases {u : Int} {s s' : State} {e : Int × Nat}
    (h : relax nodes u s e = Except.ok s') :
    ∃ tgt, nodes[e.2]? = some tgt ∧ inCap tgt.id ∧
      ((s.visited tgt.id = true ∧ s' = s) ∨
       (s.visited tgt.id = false ∧ inCap u ∧
        (INT_MIN ≤ s.dist u + e.1 ∧ s.dist u + e.1 ≤ INT_MAX) ∧
        s'.visited = s.visited ∧
        s'.trace = Event.summed u tgt.id (s.dist u + e.1) :: s.trace ∧
        ((s.dist u + e.1 < s.dist tgt.id ∧
            s'.dist = Function.update s.dist tgt.id (s.dist u + e.1) ∧
            s'.path = Function.update s.path tgt.id u ∧
            s'.pq = (s.dist u + e.1, tgt.id) :: s.pq) ∨
         (¬ s.dist u + e.1 < s.dist tgt.id ∧ s'.dist = s.dist ∧ s'.path = s.path ∧
            s'.pq = s.pq)))) := by
  unfold relax at h
  split at h
  · exact Except.noConfusion h
  · rename_i tgt htgt
    refine ⟨tgt, htgt, ?_⟩
    split at h
    · exact Except.noConfusion h
    · rename_i hcap
      refine ⟨not_not.1 hcap, ?_⟩
      split at h
      · rename_i hv
        left
        exact ⟨hv, (Except.ok.inj h).symm⟩
      · rename_i hv
        right
        have hv' : s.visited tgt.id = false := by simpa using hv
        split at h
        · exact Except.noConfusion h
        · rename_i hcu
          split at h
          · exact Except.noConfusion h
          · rename_i hrange
            refine ⟨hv', not_not.1 hcu, not_not.1 hrange, ?_⟩
            split at h
            · rename_i hlt
              have := Except.ok.inj h
              subst this
              exact ⟨rfl, rfl, Or.inl ⟨hlt, rfl, rfl, rfl⟩⟩
            · rename_i hlt
              have := Except.ok.inj h
              subst this
              exact ⟨rfl, rfl, Or.inr ⟨hlt, rfl, rfl, rfl⟩⟩

/-- The outcomes of one execution of the body of the edge loop that do not return. -/
theorem relax_error_cases {u : Int} {s : State} {e : Int × Nat} {err : Fault}
    (h : relax nodes u s e = Except.error err) :
    (err = Fault.outOfBounds ∧
      (nodes[e.2]? = none ∨ ∃ tgt, nodes[e.2]? = some tgt ∧ (¬ inCap tgt.id ∨ ¬ inCap u))) ∨
    (err = Fault.overflow ∧ ∃ tgt, nodes[e.2]? = some tgt ∧ s.visited tgt.id = false ∧
      ¬ (INT_MIN ≤ s.dist u + e.1 ∧ s.dist u + e.1 ≤ INT_MAX)) := by
  unfold relax at h
  split at h
  · rename_i hnone
    left
    exact ⟨(Except.error.inj h).symm, Or.inl hnone⟩
  · rename_i tgt htgt
    split at h
    · rename_i hcap
      left
      exact ⟨(Except.error.inj h).symm, Or.inr ⟨tgt, htgt, Or.inl hcap⟩⟩
    · split at h
      · exact Except.noConfusion h
      · rename_i hv
        have hv' : s.visited tgt.id = false := by simpa using hv
        split at h
        · rename_i hcu
          left
          exact ⟨(Except.error.inj h).symm, Or.inr ⟨tgt, htgt, Or.inr hcu⟩⟩
        · split at h
          · rename_i hrange
            right
            exact ⟨(Except.error.inj h).symm, tgt, htgt, hv', hrange⟩
          · split at h <;> exact Except.noConfusion h

/-- The invariant does not depend on the trace beyond the events being right, nor on how many
edges are still to come. -/
theorem inv_congr {s s' : State} {u : Int} {e : Int × Nat} {rest : List (Int × Nat)}
    (hI : Inv nodes start (some (u, e :: rest)) s)
    (hd : s'.dist = s.dist) (hp : s'.path = s.path) (hv : s'.visited = s.visited)
    (hq : s'.pq = s.pq) (ht : ∀ ev ∈ s'.trace, EventOk nodes start ev) :
    Inv nodes start (some (u, rest)) s' := by
  refine ⟨?_, ?_, ?_, ?_, ?_, ?_, ?_, ?_, ?_, ?_, ht⟩
  · rw [hd, hq]; exact hI.entries
  · rw [hd, hq, hv]; exact hI.frontier
  · rw [hq]; exact hI.nodup
  · rw [hd, hq, hv]; exact hI.stale
  · rw [hd, hv]; exact hI.settled
  · rw [hd, hp]; exact hI.bound
  · rw [hd, hp]; exact hI.source
  · rw [hv]
    intro h
    have := (hI.fresh h).1
    simp at this
  · intro v h
    rw [hd] at h
    obtain ⟨π, hπ⟩ := hI.tree v h
    exact ⟨π, tree_transfer hπ (fun x _ => by rw [hd, hp]; exact ⟨rfl, rfl⟩)
      (fun x hx => by rw [hv]; exact hx)⟩
  · intro u' rest' h
    simp only [Option.some.injEq, Prod.mk.injEq] at h
    obtain ⟨rfl, rfl⟩ := h
    obtain ⟨h1, node, h2, h3⟩ := hI.pending u (e :: rest) rfl
    rw [hv]
    exact ⟨h1, node, h2, fun x hx => h3 x (List.mem_cons_of_mem _ hx)⟩

/-- The evaluated sum is the weight of a simple path: the tree path of the visited node `u`
followed by the edge to the node `v`, which is not visited. -/
theorem summed_ok {s : State} {u : Int} {e : Int × Nat} {rest : List (Int × Nat)} {tgt : Node}
    (hI : Inv nodes start (some (u, e :: rest)) s) (htgt : nodes[e.2]? = some tgt)
    (hv : s.visited tgt.id = false) :
    ∃ π, Tree nodes start s π u ∧ tgt.id ∉ π ∧ Edge nodes u e.1 tgt.id ∧
      PathTo nodes start (π ++ [tgt.id]) tgt.id (s.dist u + e.1) ∧ (π ++ [tgt.id]).Nodup := by
  obtain ⟨hvu, node, hnode, hmem⟩ := hI.pending u (e :: rest) rfl
  obtain ⟨π, hπ⟩ := hI.tree u (hI.settled u hvu).2
  have hnot : tgt.id ∉ π := by
    intro hin
    rcases tree_visited hπ _ hin with h | h
    · rw [h, hvu] at hv
      exact Bool.noConfusion hv
    · rw [h] at hv
      exact Bool.noConfusion hv
  have hedge : Edge nodes u e.1 tgt.id :=
    ⟨node, e, tgt, hnode, hmem e (List.mem_cons_self _ _), rfl, htgt, rfl⟩
  refine ⟨π, hπ, hnot, hedge, PathTo.snoc (tree_path hI.source.1 hπ) hedge, ?_⟩
  rw [List.nodup_append]
  refine ⟨tree_nodup hπ, List.nodup_singleton _, ?_⟩
  intro a ha hb
  rw [List.mem_singleton.1 hb] at ha
  exact hnot ha

/-- One execution of the body of the edge loop keeps the invariant. -/
theorem inv_relax (hid : IdsOk nodes) {s s' : State} {u : Int} {e : Int × Nat}
    {rest : List (Int × Nat)} (hI : Inv nodes start (some (u, e :: rest)) s)
    (h : relax nodes u s e = Except.ok s') : Inv nodes start (some (u, rest)) s' := by
  obtain ⟨tgt, htgt, -, hcase⟩ := relax_ok_cases h
  rcases hcase with ⟨-, rfl⟩ | ⟨hv, -, -, hvis, htrace, hcase⟩
  · exact inv_congr hI rfl rfl rfl rfl hI.events
  obtain ⟨π, hπ, hnot, hedge, hpath, hnodup⟩ := summed_ok hI htgt hv
  have hev : ∀ ev ∈ s'.trace, EventOk nodes start ev := by
    intro ev hev
    rw [htrace] at hev
    rcases List.mem_cons.1 hev with h | h
    · rw [h]
      exact ⟨_, hpath, hnodup⟩
    · exact hI.events ev h
  rcases hcase with ⟨hlt, hd, hp, hq⟩ | ⟨-, hd, hp, hq⟩
  swap
  · exact inv_congr hI hd hp hvis hq hev
  obtain ⟨hvu, node, hnode, hmem⟩ := hI.pending u (e :: rest) rfl
  have hvs : s.visited start = true := by
    by_contra hc
    have := (hI.fresh (by simpa using hc)).1
    simp at this
  have hvalid : Valid nodes tgt.id := by
    rw [idsOk_get hid htgt]
    exact valid_of_get htgt
  have hne : ∀ x, s.visited x = true → x ≠ tgt.id := by
    intro x hx e
    rw [e, hv] at hx
    exact Bool.noConfusion hx
  have hdv : s'.dist tgt.id = s.dist u + e.1 := by rw [hd, Function.update_same]
  have hdn : ∀ x, x ≠ tgt.id → s'.dist x = s.dist x := by
    intro x hx
    rw [hd, Function.update_noteq hx]
  have hpn : ∀ x, x ≠ tgt.id → s'.path x = s.path x := by
    intro x hx
    rw [hp, Function.update_noteq hx]
  have hdle : ∀ x, s'.dist x ≤ s.dist x := by
    intro x
    by_cases hx : x = tgt.id
    · rw [hx, hdv]; exact hlt.le
    · rw [hdn x hx]
  have hbv := (hI.bound tgt.id).1
  refine ⟨?_, ?_, ?_, ?_, ?_, ?_, ?_, ?_, ?_, ?_, hev⟩
  · intro c x hx
    rw [hq] at hx
    rcases List.mem_cons.1 hx with h | h
    · simp only [Prod.mk.injEq] at h
      obtain ⟨rfl, rfl⟩ := h
      exact ⟨hvalid, by rw [hdv], by omega⟩
    · obtain ⟨h1, h2, h3⟩ := hI.entries c x h
      exact ⟨h1, le_trans (hdle x) h2, h3⟩
  · intro x hx hfin
    rw [hvis] at hx
    rw [hq]
    by_cases e : x = tgt.id
    · rw [e, hdv]
      exact List.mem_cons_self _ _
    · rw [hdn x e] at hfin ⊢
      exact List.mem_cons_of_mem _ (hI.frontier x hx hfin)
  · rw [hq, List.nodup_cons]
    refine ⟨?_, hI.nodup⟩
    intro hin
    have := (hI.entries _ _ hin).2.1
    omega
  · intro c x hx hxv
    rw [hvis] at hxv
    rw [hq] at hx
    have hxne := hne x hxv
    rcases List.mem_cons.1 hx with h | h
    · simp only [Prod.mk.injEq] at h
      exact absurd h.2 hxne
    · rw [hdn x hxne]
      exact hI.stale c x h hxv
  · intro x hx
    rw [hvis] at hx
    rw [hdn x (hne x hx)]
    exact hI.settled x hx
  · intro x
    by_cases e : x = tgt.id
    · rw [e, hdv]
      exact ⟨by omega, fun h => by omega⟩
    · rw [hdn x e, hpn x e]
      exact hI.bound x
  · rw [hdn start (hne start hvs), hpn start (hne start hvs)]
    exact hI.source
  · intro hc
    rw [hvis, hvs] at hc
    exact Bool.noConfusion hc
  · intro x hfin
    by_cases e : x = tgt.id
    · rw [e]
      have hπ' : Tree nodes start s' π u := by
        refine tree_transfer hπ (fun y hy => ?_) (fun y hy => by rw [hvis]; exact hy)
        have : y ≠ tgt.id := fun e => hnot (e ▸ hy)
        exact ⟨hdn y this, hpn y this⟩
      refine ⟨π ++ [tgt.id], Tree.snoc hπ' (by rw [hvis]; exact hvu) hedge ?_ ?_ hnot⟩
      · rw [hp, Function.update_same]
      · rw [hdv, hdn u (hne u hvu)]
    · rw [hdn x e] at hfin
      obtain ⟨ρ, hρ⟩ := hI.tree x hfin
      refine ⟨ρ, tree_transfer hρ (fun y hy => ?_) (fun y hy => by rw [hvis]; exact hy)⟩
      have : y ≠ tgt.id := by
        intro e'
        rcases tree_visited hρ y hy with h | h
        · exact e (h ▸ e'.symm ▸ rfl)
        · exact hne y h e'
      exact ⟨hdn y this, hpn y this⟩
  · intro u' rest' h
    simp only [Option.some.injEq, Prod.mk.injEq] at h
    obtain ⟨rfl, rfl⟩ := h
    rw [hvis]
    exact ⟨hvu, node, hnode, fun x hx => hmem x (List.mem_cons_of_mem _ hx)⟩

end Relax

end Dijkstra

namespace Dijkstra

section RelaxNN
variable {nodes : List Node} {start : Int}

/-- The additional invariant survives any change that keeps `visited`, lowers no `dist` of a
visited node, raises no `dist`, relaxes the current edge, and pushes only the current sum. -/
theorem invNN_advance {s s' : State} {u : Int} {e : Int × Nat} {rest : List (Int × Nat)}
    {tgt : Node} (hN : InvNN nodes (some (u, e :: rest)) s) (hvu : s.visited u = true)
    (htgt : nodes[e.2]? = some tgt) (he : 0 ≤ e.1)
    (hvis : s'.visited = s.visited) (hle : ∀ x, s'.dist x ≤ s.dist x)
    (heq : ∀ x, s.visited x = true → s'.dist x = s.dist x) (hnn : ∀ x, 0 ≤ s'.dist x)
    (htg : s'.dist tgt.id ≤ s.dist u + e.1)
    (hq : ∀ c x, (c, x) ∈ s'.pq → (c, x) ∈ s.pq ∨ c = s.dist u + e.1) :
    InvNN nodes (some (u, rest)) s' := by
  refine ⟨hnn, ?_, ?_, ?_, ?_⟩
  · intro x w v hx hedge
    rw [hvis] at hx
    rcases hN.relaxed x w v hx hedge with ⟨r, h⟩ | h
    · left
      simp only [Option.some.injEq, Prod.mk.injEq] at h
      exact ⟨rest, by rw [h.1]⟩
    · right
      rw [heq x hx]
      exact le_trans (hle v) h
  · intro x r h node hnode e' he'
    simp only [Option.some.injEq, Prod.mk.injEq] at h
    obtain ⟨rfl, rfl⟩ := h
    rw [heq _ hvu]
    rcases hN.relaxedPending _ (e :: _) rfl node hnode e' he' with h | h
    · rcases List.mem_cons.1 h with h | h
      · right
        intro tgt' htgt'
        rw [h] at htgt' ⊢
        rw [htgt] at htgt'
        rw [← Option.some.inj htgt']
        exact htg
      · left; exact h
    · right
      intro tgt' htgt'
      exact le_trans (hle _) (h tgt' htgt')
  · intro x hx c v h
    rw [hvis] at hx
    rw [heq x hx]
    rcases hq c v h with h | h
    · exact hN.keys x hx c v h
    · have := hN.current u (e :: rest) rfl x hx
      omega
  · intro x r h y hy
    simp only [Option.some.injEq, Prod.mk.injEq] at h
    obtain ⟨rfl, rfl⟩ := h
    rw [hvis] at hy
    rw [heq y hy, heq _ hvu]
    exact hN.current _ (e :: _) rfl y hy

/-- The weight of the current edge is not negative. -/
theorem pending_nonneg (hnn : NonNeg nodes) {s : State} {u : Int} {e : Int × Nat}
    {rest : List (Int × Nat)} (hI : Inv nodes start (some (u, e :: rest)) s) : 0 ≤ e.1 := by
  obtain ⟨-, node, hnode, hmem⟩ := hI.pending u (e :: rest) rfl
  exact hnn node (mem_of_readAt hnode) e (hmem e (List.mem_cons_self _ _))

/-- One execution of the body of the edge loop keeps the additional invariant. -/
theorem invNN_relax (hnn : NonNeg nodes) {s s' : State} {u : Int} {e : Int × Nat}
    {rest : List (Int × Nat)} (hI : Inv nodes start (some (u, e :: rest)) s)
    (hN : InvNN nodes (some (u, e :: rest)) s)
    (h : relax nodes u s e = Except.ok s') : InvNN nodes (some (u, rest)) s' := by
  have he := pending_nonneg hnn hI
  have hvu := (hI.pending u (e :: rest) rfl).1
  obtain ⟨tgt, htgt, -, hcase⟩ := relax_ok_cases h
  rcases hcase with ⟨hv, rfl⟩ | ⟨hv, -, -, hvis, -, hcase⟩
  · refine invNN_advance hN hvu htgt he rfl (fun _ => le_refl _) (fun _ _ => rfl) hN.nonneg ?_
      (fun c x h => Or.inl h)
    have := hN.current u (e :: rest) rfl tgt.id hv
    omega
  rcases hcase with ⟨hlt, hd, -, hq⟩ | ⟨hlt, hd, -, hq⟩
  · have hdu := hN.nonneg u
    refine invNN_advance hN hvu htgt he hvis ?_ ?_ ?_ ?_ ?_
    · intro x
      rw [hd]
      by_cases hx : x = tgt.id
      · rw [hx, Function.update_same]; exact hlt.le
      · rw [Function.update_noteq hx]
    · intro x hx
      have : x ≠ tgt.id := by
        intro e'
        rw [e', hv] at hx
        exact Bool.noConfusion hx
      rw [hd, Function.update_noteq this]
    · intro x
      rw [hd]
      by_cases hx : x = tgt.id
      · rw [hx, Function.update_same]; omega
      · rw [Function.update_noteq hx]; exact hN.nonneg x
    · rw [hd, Function.update_same]
    · intro c x hx
      rw [hq] at hx
      rcases List.mem_cons.1 hx with h | h
      · simp only [Prod.mk.injEq] at h
        exact Or.inr h.1
      · exact Or.inl h
  · refine invNN_advance hN hvu htgt he hvis ?_ ?_ ?_ ?_ ?_
    · intro x; rw [hd]
    · intro x _; rw [hd]
    · intro x; rw [hd]; exact hN.nonneg x
    · rw [hd]; omega
    · intro c x hx
      rw [hq] at hx
      exact Or.inl hx

/-- With non-negative weights and simple paths that fit an `int`, the sum of the body of the edge
loop does not overflow. -/
theorem relax_no_overflow (hnn : NonNeg nodes)
    (hsimple : ∀ π v W, PathTo nodes start π v W → π.Nodup → W ≤ INT_MAX)
    {s : State} {u : Int} {e : Int × Nat} {rest : List (Int × Nat)}
    (hI : Inv nodes start (some (u, e :: rest)) s) (hN : InvNN nodes (some (u, e :: rest)) s) :
    relax nodes u s e ≠ Except.error Fault.overflow := by
  intro h
  rcases relax_error_cases h with ⟨h, -⟩ | ⟨-, tgt, htgt, hv, hrange⟩
  · exact Fault.noConfusion h
  · obtain ⟨π, -, -, -, hpath, hnodup⟩ := summed_ok hI htgt hv
    have h1 := hsimple _ _ _ hpath hnodup
    have h2 := hN.nonneg u
    have h3 := pending_nonneg hnn hI
    apply hrange
    constructor
    · have : INT_MIN ≤ 0 := by decide
      omega
    · exact h1

/-- In a graph that fits the program, the body of the edge loop indexes no vector out of
bounds. -/
theorem relax_no_oob (hid : IdsOk nodes) (hfit : Fits nodes)
    {s : State} {u : Int} {e : Int × Nat} {rest : List (Int × Nat)}
    (hI : Inv nodes start (some (u, e :: rest)) s) :
    relax nodes u s e ≠ Except.error Fault.outOfBounds := by
  intro h
  obtain ⟨hvu, node, hnode, hmem⟩ := hI.pending u (e :: rest) rfl
  have hlt : e.2 < nodes.length :=
    hfit.2 node (mem_of_readAt hnode) e (hmem e (List.mem_cons_self _ _))
  rcases relax_error_cases h with ⟨-, h | ⟨tgt, htgt, h | h⟩⟩ | ⟨h, -⟩
  · rw [List.getElem?_eq_none_iff] at h
    omega
  · apply h
    rw [idsOk_get hid htgt]
    exact inCap_of_valid hfit.1 (valid_of_get htgt)
  · exact h (inCap_of_valid hfit.1 (hI.settled u hvu).1)
  · exact Fault.noConfusion h

/-- The body of the edge loop uses no fuel. -/
theorem relax_ne_outOfFuel {s : State} {u : Int} {e : Int × Nat} :
    relax nodes u s e ≠ Except.error Fault.outOfFuel := by
  intro h
  rcases relax_error_cases h with ⟨h, -⟩ | ⟨h, -⟩ <;> exact Fault.noConfusion h

end RelaxNN

end Dijkstra

namespace Dijkstra

section Loop
variable {nodes : List Node} {start : Int}

/-- Invariant rule for a loop over a list whose body may fail: `P` holds of the elements still to
come and the state, and `E` of every fault. -/
theorem foldlM_except {σ ι ε : Type} (body : σ → ι → Except ε σ) (P : List ι → σ → Prop)
    (E : ε → Prop)
    (hok : ∀ x rest s s', P (x :: rest) s → body s x = Except.ok s' → P rest s')
    (herr : ∀ x rest s e, P (x :: rest) s → body s x = Except.error e → E e) :
    ∀ xs s, P xs s → (∀ s', xs.foldlM body s = Except.ok s' → P [] s') ∧
      (∀ e, xs.foldlM body s = Except.error e → E e) := by
  intro xs
  induction xs with
  | nil =>
    intro s hP
    constructor
    · intro s' h
      have : s = s' := Except.ok.inj h
      rw [← this]; exact hP
    · intro e h
      exact Except.noConfusion h
  | cons x rest ih =>
    intro s hP
    rw [List.foldlM_cons]
    cases hb : body s x with
    | error e =>
      constructor
      · intro s' h
        exact Except.noConfusion h
      · intro e' h
        have : e = e' := Except.error.inj h
        rw [← this]
        exact herr x rest s e hP hb
    | ok t => exact ih t (hok x rest s t hP hb)

/-- The outcomes of one iteration of the `while` loop. -/
theorem step_cases (s : State) (cur : Int × Int) :
    (¬ inCap cur.2 ∧ step nodes s cur = Except.error Fault.outOfBounds) ∨
    (inCap cur.2 ∧ cur.1 > s.dist cur.2 ∧ step nodes s cur = Except.ok (popped s cur)) ∨
    (inCap cur.2 ∧ ¬ cur.1 > s.dist cur.2 ∧ readAt nodes cur.2 = none ∧
      step nodes s cur = Except.error Fault.outOfBounds) ∨
    (inCap cur.2 ∧ ¬ cur.1 > s.dist cur.2 ∧ ∃ node, readAt nodes cur.2 = some node ∧
      step nodes s cur = node.children.foldlM (relax nodes cur.2) (popped s cur)) := by
  unfold step
  by_cases h1 : inCap cur.2
  · by_cases h2 : cur.1 > s.dist cur.2
    · right; left
      exact ⟨h1, h2, by simp only [h1, h2, not_true_eq_false, if_false, if_true]⟩
    · right; right
      cases h3 : readAt nodes cur.2 with
      | none =>
        left
        exact ⟨h1, h2, rfl, by simp only [h1, h2, not_true_eq_false, if_false]⟩
      | some node =>
        right
        exact ⟨h1, h2, node, rfl, by simp only [h1, h2, not_true_eq_false, if_false]⟩
  · left
    exact ⟨h1, by simp only [h1, not_false_eq_true, if_true]⟩

theorem loop_none {fuel : Nat} {s : State} (h : top s.pq = none) :
    loop nodes fuel s = Except.ok s := by
  cases fuel <;> simp only [loop, h]

theorem loop_zero_some {s : State} {cur : Int × Int} (h : top s.pq = some cur) :
    loop nodes 0 s = Except.error Fault.outOfFuel := by
  simp only [loop, h]

theorem loop_succ_ok {fuel : Nat} {s s1 : State} {cur : Int × Int} (h : top s.pq = some cur)
    (h1 : step nodes s cur = Except.ok s1) : loop nodes (fuel + 1) s = loop nodes fuel s1 := by
  simp only [loop, h, h1]

theorem loop_succ_error {fuel : Nat} {s : State} {cur : Int × Int} {e : Fault}
    (h : top s.pq = some cur) (h1 : step nodes s cur = Except.error e) :
    loop nodes (fuel + 1) s = Except.error e := by
  simp only [loop, h, h1]

/-- Two sums over `0, ..., n - 1` whose terms differ at one index only. -/
theorem sum_range_update (f g : Nat → Nat) (k d : Nat) (hk : f k = g k + d)
    (hne : ∀ i, i ≠ k → f i = g i) :
    ∀ n, (k < n → ((List.range n).map f).sum = ((List.range n).map g).sum + d) ∧
      (n ≤ k → ((List.range n).map f).sum = ((List.range n).map g).sum) := by
  intro n
  induction n with
  | zero => exact ⟨fun h => absurd h (Nat.not_lt_zero _), fun _ => rfl⟩
  | succ n ih =>
    rw [List.range_succ, List.map_append, List.map_append, List.sum_append, List.sum_append]
    simp only [List.map_cons, List.map_nil, List.sum_cons, List.sum_nil, add_zero]
    constructor
    · intro h
      by_cases e : k = n
      · rw [ih.2 (by omega), ← e, hk]; omega
      · rw [ih.1 (by omega), hne n (fun h => e h.symm)]; omega
    · intro h
      rw [ih.2 (by omega), hne n (by omega)]

/-- A stale pop lowers the work left by one. -/
theorem work_popped_stale {s : State} {cur : Int × Int} (hv : s.visited cur.2 = true)
    (hmem : cur ∈ s.pq) : work nodes (popped s cur) + 1 = work nodes s := by
  have hvis : (popped s cur).visited = s.visited := by
    funext x
    exact update_true_of_true hv x
  have hlen : (popped s cur).pq.length + 1 = s.pq.length := by
    show (s.pq.erase cur).length + 1 = s.pq.length
    rw [List.length_erase_of_mem hmem]
    have := List.length_pos_of_mem hmem
    omega
  unfold work
  rw [hvis]
  omega

/-- Settling a node lowers the work left by one and by its adjacency list. -/
theorem work_popped_fresh {s : State} {cur : Int × Int} {node : Node}
    (hv : s.visited cur.2 = false) (hnode : readAt nodes cur.2 = some node) (hmem : cur ∈ s.pq) :
    work nodes (popped s cur) + 1 + node.children.length = work nodes s := by
  have hlen : (popped s cur).pq.length + 1 = s.pq.length := by
    show (s.pq.erase cur).length + 1 = s.pq.length
    rw [List.length_erase_of_mem hmem]
    have := List.length_pos_of_mem hmem
    omega
  obtain ⟨h0, hlt⟩ := valid_of_readAt hnode
  have hk : nodes[cur.2.toNat]? = some node := by
    unfold readAt at hnode
    rw [if_pos h0] at hnode
    exact hnode
  have hcast : ((cur.2.toNat : Nat) : Int) = cur.2 := Int.toNat_of_nonneg h0
  have hsum := (sum_range_update
    (fun (i : Nat) => if s.visited (i : Int) = true then 0
      else ((nodes[i]?).map (fun nd => nd.children.length)).getD 0)
    (fun (i : Nat) => if (popped s cur).visited (i : Int) = true then 0
      else ((nodes[i]?).map (fun nd => nd.children.length)).getD 0)
    cur.2.toNat node.children.length ?_ ?_ nodes.length).1 (by omega)
  · unfold work
    rw [hsum]
    omega
  · simp only [hcast, hv, popped_visited_self, hk, Option.map_some', Option.getD_some,
      if_true, zero_add]
    simp
  · intro i hi
    have : (i : Int) ≠ cur.2 := by omega
    simp only [popped_visited_of_ne this]

/-- An iteration of the `while` loop keeps the invariant and lowers the work left; its faults are
never for fuel, and in a graph that fits the program never for an index. -/
theorem step_spec (hid : IdsOk nodes) {s : State} {cur : Int × Int}
    (hI : Inv nodes start none s) (ht : top s.pq = some cur) :
    (∀ s', step nodes s cur = Except.ok s' →
      Inv nodes start none s' ∧ work nodes s' < work nodes s) ∧
    (∀ e, step nodes s cur = Except.error e →
      e ≠ Fault.outOfFuel ∧ (Fits nodes → e ≠ Fault.outOfBounds)) := by
  have hmem := top_mem ht
  have hvalid := (hI.entries cur.1 cur.2 hmem).1
  rcases @step_cases nodes s cur with ⟨h1, h2⟩ | ⟨-, hst, h2⟩ | ⟨-, -, h1, h2⟩ |
    ⟨-, hst, node, hnode, h2⟩
  · rw [h2]
    refine ⟨fun s' h => Except.noConfusion h, fun e h => ?_⟩
    rw [← Except.error.inj h]
    exact ⟨fun h => Fault.noConfusion h, fun hfit _ => h1 (inCap_of_valid hfit.1 hvalid)⟩
  · rw [h2]
    refine ⟨fun s' h => ?_, fun e h => Except.noConfusion h⟩
    rw [← Except.ok.inj h]
    refine ⟨inv_pop_stale hI ht hst, ?_⟩
    have := @work_popped_stale nodes s cur (stale_visited hI ht hst) hmem
    omega
  · obtain ⟨nd, hnd⟩ := readAt_of_valid hvalid
    rw [h1] at hnd
    exact Option.noConfusion hnd
  · rw [h2]
    obtain ⟨hunvis, -⟩ := settle_fresh hI ht hst
    have hwork := work_popped_fresh hunvis hnode hmem
    have hfold := foldlM_except (relax nodes cur.2)
      (fun rest t => Inv nodes start (some (cur.2, rest)) t ∧
        work nodes t + rest.length ≤ work nodes (popped s cur) + node.children.length)
      (fun e => e ≠ Fault.outOfFuel ∧ (Fits nodes → e ≠ Fault.outOfBounds))
      ?_ ?_ node.children (popped s cur) ⟨inv_pop_settle hI ht hst hnode, le_refl _⟩
    · refine ⟨fun s' h => ?_, hfold.2⟩
      obtain ⟨h3, h4⟩ := hfold.1 s' h
      refine ⟨inv_done h3, ?_⟩
      simp only [List.length_nil, add_zero] at h4
      omega
    · intro x rest t t' ⟨hP, hW⟩ hb
      refine ⟨inv_relax hid hP hb, ?_⟩
      have hle : work nodes t' ≤ work nodes t + 1 := by
        obtain ⟨tgt, -, -, hcase⟩ := relax_ok_cases hb
        rcases hcase with ⟨-, rfl⟩ | ⟨-, -, -, hvis, -, hcase⟩
        · omega
        · unfold work
          rw [hvis]
          rcases hcase with ⟨-, -, -, hq⟩ | ⟨-, -, -, hq⟩
          · rw [hq, List.length_cons]; omega
          · rw [hq]; omega
      simp only [List.length_cons] at hW
      omega
    · intro x rest t e ⟨hP, _⟩ hb
      exact ⟨fun h => relax_ne_outOfFuel (h ▸ hb), fun hfit h => relax_no_oob hid hfit hP (h ▸ hb)⟩

/-- An iteration of the `while` loop over non-negative weights keeps the additional invariant,
and does not overflow when the simple paths fit an `int`. -/
theorem step_specNN (hid : IdsOk nodes) (hnn : NonNeg nodes) {s : State} {cur : Int × Int}
    (hI : Inv nodes start none s) (hN : InvNN nodes none s) (ht : top s.pq = some cur) :
    (∀ s', step nodes s cur = Except.ok s' → InvNN nodes none s') ∧
    (∀ e, step nodes s cur = Except.error e →
      (∀ π v W, PathTo nodes start π v W → π.Nodup → W ≤ INT_MAX) → e ≠ Fault.overflow) := by
  rcases @step_cases nodes s cur with ⟨-, h2⟩ | ⟨-, hst, h2⟩ | ⟨-, -, -, h2⟩ |
    ⟨-, hst, node, hnode, h2⟩
  · rw [h2]
    refine ⟨fun s' h => Except.noConfusion h, fun e h _ => ?_⟩
    rw [← Except.error.inj h]
    exact fun h => Fault.noConfusion h
  · rw [h2]
    refine ⟨fun s' h => ?_, fun e h => Except.noConfusion h⟩
    rw [← Except.ok.inj h]
    exact invNN_pop_stale hI hN ht hst
  · rw [h2]
    refine ⟨fun s' h => Except.noConfusion h, fun e h _ => ?_⟩
    rw [← Except.error.inj h]
    exact fun h => Fault.noConfusion h
  · rw [h2]
    have hfold := foldlM_except (relax nodes cur.2)
      (fun rest t => Inv nodes start (some (cur.2, rest)) t ∧ InvNN nodes (some (cur.2, rest)) t)
      (fun e => (∀ π v W, PathTo nodes start π v W → π.Nodup → W ≤ INT_MAX) →
        e ≠ Fault.overflow)
      ?_ ?_ node.children (popped s cur)
      ⟨inv_pop_settle hI ht hst hnode, invNN_pop_settle hI hN ht hst hnode⟩
    · exact ⟨fun s' h => invNN_done (hfold.1 s' h).2, hfold.2⟩
    · intro x rest t t' ⟨hP, hQ⟩ hb
      exact ⟨inv_relax hid hP hb, invNN_relax hnn hP hQ hb⟩
    · intro x rest t e ⟨hP, hQ⟩ hb hsimple h
      exact relax_no_overflow hnn hsimple hP hQ (h ▸ hb)

end Loop

end Dijkstra

namespace Dijkstra

section Run
variable {nodes : List Node} {start : Int}

/-- The `while` loop keeps the invariant and ends with an empty queue; in a graph that fits the
program it does not fault on an index, and with fuel for the work left it does not run out of
fuel. -/
theorem loop_spec (hid : IdsOk nodes) : ∀ (fuel : Nat) (s : State), Inv nodes start none s →
    (∀ s', loop nodes fuel s = Except.ok s' → Inv nodes start none s' ∧ s'.pq = []) ∧
    (∀ e, loop nodes fuel s = Except.error e →
      (Fits nodes → e ≠ Fault.outOfBounds) ∧ (work nodes s ≤ fuel → e ≠ Fault.outOfFuel)) := by
  intro fuel
  induction fuel with
  | zero =>
    intro s hI
    cases ht : top s.pq with
    | none =>
      rw [loop_none ht]
      refine ⟨fun s' h => ?_, fun e h => Except.noConfusion h⟩
      rw [← Except.ok.inj h]
      exact ⟨hI, top_eq_none.1 ht⟩
    | some cur =>
      rw [loop_zero_some ht]
      refine ⟨fun s' h => Except.noConfusion h, fun e h => ?_⟩
      rw [← Except.error.inj h]
      refine ⟨fun _ h => Fault.noConfusion h, fun hw _ => ?_⟩
      have := List.length_pos_of_mem (top_mem ht)
      unfold work at hw
      omega
  | succ fuel ih =>
    intro s hI
    cases ht : top s.pq with
    | none =>
      rw [loop_none ht]
      refine ⟨fun s' h => ?_, fun e h => Except.noConfusion h⟩
      rw [← Except.ok.inj h]
      exact ⟨hI, top_eq_none.1 ht⟩
    | some cur =>
      obtain ⟨hok, herr⟩ := step_spec hid hI ht
      cases hs : step nodes s cur with
      | error e =>
        rw [loop_succ_error ht hs]
        refine ⟨fun s' h => Except.noConfusion h, fun e' h => ?_⟩
        rw [← Except.error.inj h]
        exact ⟨(herr e hs).2, fun _ => (herr e hs).1⟩
      | ok s1 =>
        rw [loop_succ_ok ht hs]
        obtain ⟨hI1, hw1⟩ := hok s1 hs
        obtain ⟨h1, h2⟩ := ih s1 hI1
        exact ⟨h1, fun e h => ⟨(h2 e h).1, fun hw => (h2 e h).2 (by omega)⟩⟩

/-- Over non-negative weights the `while` loop keeps the additional invariant, and does not
overflow when the simple paths fit an `int`. -/
theorem loop_specNN (hid : IdsOk nodes) (hnn : NonNeg nodes) : ∀ (fuel : Nat) (s : State),
    Inv nodes start none s → InvNN nodes none s →
    (∀ s', loop nodes fuel s = Except.ok s' → InvNN nodes none s') ∧
    (∀ e, loop nodes fuel s = Except.error e →
      (∀ π v W, PathTo nodes start π v W → π.Nodup → W ≤ INT_MAX) → e ≠ Fault.overflow) := by
  intro fuel
  induction fuel with
  | zero =>
    intro s hI hN
    cases ht : top s.pq with
    | none =>
      rw [loop_none ht]
      refine ⟨fun s' h => ?_, fun e h => Except.noConfusion h⟩
      rw [← Except.ok.inj h]
      exact hN
    | some cur =>
      rw [loop_zero_some ht]
      refine ⟨fun s' h => Except.noConfusion h, fun e h _ => ?_⟩
      rw [← Except.error.inj h]
      exact fun h => Fault.noConfusion h
  | succ fuel ih =>
    intro s hI hN
    cases ht : top s.pq with
    | none =>
      rw [loop_none ht]
      refine ⟨fun s' h => ?_, fun e h => Except.noConfusion h⟩
      rw [← Except.ok.inj h]
      exact hN
    | some cur =>
      obtain ⟨hok, herr⟩ := step_specNN hid hnn hI hN ht
      cases hs : step nodes s cur with
      | error e =>
        rw [loop_succ_error ht hs]
        refine ⟨fun s' h => Except.noConfusion h, fun e' h => ?_⟩
        rw [← Except.error.inj h]
        exact herr e hs
      | ok s1 =>
        rw [loop_succ_ok ht hs]
        exact ih s1 ((step_spec hid hI ht).1 s1 hs).1 (hok s1 hs)

/-- More fuel does not change a result. -/
theorem loop_mono : ∀ (fuel : Nat) (s s' : State), loop nodes fuel s = Except.ok s' →
    ∀ fuel', fuel ≤ fuel' → loop nodes fuel' s = Except.ok s' := by
  intro fuel
  induction fuel with
  | zero =>
    intro s s' h fuel' _
    cases ht : top s.pq with
    | none =>
      rw [loop_none ht] at h ⊢
      exact h
    | some cur =>
      rw [loop_zero_some ht] at h
      exact Except.noConfusion h
  | succ fuel ih =>
    intro s s' h fuel' hle
    cases ht : top s.pq with
    | none =>
      rw [loop_none ht] at h ⊢
      exact h
    | some cur =>
      obtain ⟨k, rfl⟩ : ∃ k, fuel' = k + 1 := ⟨fuel' - 1, by omega⟩
      cases hs : step nodes s cur with
      | error e =>
        rw [loop_succ_error ht hs] at h
        exact Except.noConfusion h
      | ok s1 =>
        rw [loop_succ_ok ht hs] at h ⊢
        exact ih s1 s' h k (by omega)

/-- Only cells of the vector `dist` are ever written. -/
theorem loop_capped : ∀ (fuel : Nat) (s s' : State), (∀ v, s.dist v < INT_MAX → inCap v) →
    loop nodes fuel s = Except.ok s' → ∀ v, s'.dist v < INT_MAX → inCap v := by
  intro fuel
  induction fuel with
  | zero =>
    intro s s' hc h
    cases ht : top s.pq with
    | none =>
      rw [loop_none ht] at h
      rw [← Except.ok.inj h]
      exact hc
    | some cur =>
      rw [loop_zero_some ht] at h
      exact Except.noConfusion h
  | succ fuel ih =>
    intro s s' hc h
    cases ht : top s.pq with
    | none =>
      rw [loop_none ht] at h
      rw [← Except.ok.inj h]
      exact hc
    | some cur =>
      cases hs : step nodes s cur with
      | error e =>
        rw [loop_succ_error ht hs] at h
        exact Except.noConfusion h
      | ok s1 =>
        rw [loop_succ_ok ht hs] at h
        refine ih s1 s' ?_ h
        rcases @step_cases nodes s cur with ⟨-, h2⟩ | ⟨-, -, h2⟩ | ⟨-, -, -, h2⟩ |
          ⟨-, -, node, -, h2⟩
        · rw [h2] at hs
          exact Except.noConfusion hs
        · rw [h2] at hs
          rw [← Except.ok.inj hs]
          exact hc
        · rw [h2] at hs
          exact Except.noConfusion hs
        · rw [h2] at hs
          refine (foldlM_except (relax nodes cur.2)
            (fun _ t => ∀ v, t.dist v < INT_MAX → inCap v) (fun _ => True) ?_
            (fun _ _ _ _ _ _ => trivial) node.children (popped s cur) hc).1 s1 hs
          intro x rest t t' hP hb v hv
          obtain ⟨tgt, -, hcap, hcase⟩ := relax_ok_cases hb
          rcases hcase with ⟨-, rfl⟩ | ⟨-, -, -, -, -, ⟨-, hd, -, -⟩ | ⟨-, hd, -, -⟩⟩
          · exact hP v hv
          · by_cases e : v = tgt.id
            · rw [e]; exact hcap
            · rw [hd, Function.update_noteq e] at hv
              exact hP v hv
          · rw [hd] at hv
            exact hP v hv

/-- The sum of the lengths of the adjacency lists, node by node. -/
theorem sum_range_children (nodes : List Node) :
    ((List.range nodes.length).map (fun (i : Nat) =>
      ((nodes[i]?).map (fun nd => nd.children.length)).getD 0)).sum = edgeCount nodes := by
  unfold edgeCount
  congr 1
  apply List.ext_getElem
  · simp
  · intro i h1 h2
    simp only [List.length_map, List.length_range] at h1
    simp [List.getElem?_eq_getElem h1]

/-- The work to do at the start: every adjacency list, and the entry of `start`. -/
theorem work_initial : work nodes (initial start) = 1 + edgeCount nodes := by
  unfold work
  rw [← sum_range_children]
  simp [initial]

/-- What a run of `dijkstras` that returns leaves behind. -/
theorem dijkstras_ok (hid : IdsOk nodes) {fuel : Nat} {destination : Int} {s : State}
    (h : dijkstras nodes fuel start destination = Except.ok s) :
    Valid nodes start ∧ Inv nodes start none s ∧ s.pq = [] ∧
      ∀ v, s.dist v < INT_MAX → inCap v := by
  unfold dijkstras at h
  simp only at h
  split at h
  · exact Except.noConfusion h
  · rename_i hcap
    have hcap : inCap start := not_not.1 hcap
    have hvalid : Valid nodes start := by
      have ht : top (initial start).pq = some (0, start) := rfl
      cases fuel with
      | zero =>
        rw [loop_zero_some ht] at h
        exact Except.noConfusion h
      | succ fuel =>
        rcases @step_cases nodes (initial start) (0, start) with
          ⟨-, h2⟩ | ⟨-, hst, -⟩ | ⟨-, -, -, h2⟩ | ⟨-, -, node, hnode, -⟩
        · rw [loop_succ_error ht h2] at h
          exact Except.noConfusion h
        · simp [initial] at hst
        · rw [loop_succ_error ht h2] at h
          exact Except.noConfusion h
        · exact valid_of_readAt hnode
    obtain ⟨h1, h2⟩ := (loop_spec hid fuel (initial start) (inv_initial hvalid)).1 s h
    refine ⟨hvalid, h1, h2, loop_capped fuel (initial start) s ?_ h⟩
    intro v hv
    by_cases e : v = start
    · rw [e]; exact hcap
    · simp [initial, Function.update_noteq e] at hv

/-- What a run of `dijkstras` over non-negative weights that returns leaves behind. -/
theorem dijkstras_okNN (hid : IdsOk nodes) (hnn : NonNeg nodes) {fuel : Nat}
    {destination : Int} {s : State}
    (h : dijkstras nodes fuel start destination = Except.ok s) : InvNN nodes none s := by
  have hvalid := (dijkstras_ok hid h).1
  unfold dijkstras at h
  simp only at h
  split at h
  · exact Except.noConfusion h
  · exact (loop_specNN hid hnn fuel (initial start) (inv_initial hvalid) invNN_initial).1 s h

/-- In a graph that fits the program, a run of `dijkstras` from a node of the graph with fuel for
every adjacency-list entry can only fail by overflow. -/
theorem dijkstras_error (hid : IdsOk nodes) (hfit : Fits nodes) (hs : Valid nodes start)
    {fuel : Nat} (hfuel : edgeCount nodes < fuel) {destination : Int} {e : Fault}
    (h : dijkstras nodes fuel start destination = Except.error e) : e = Fault.overflow := by
  unfold dijkstras at h
  simp only at h
  split at h
  · rename_i hcap
    exact absurd (inCap_of_valid hfit.1 hs) hcap
  · obtain ⟨h1, h2⟩ := (loop_spec hid fuel (initial start) (inv_initial hs)).2 e h
    have h3 := h1 hfit
    have h4 := h2 (by rw [work_initial]; omega)
    cases e with
    | outOfBounds => exact absurd rfl h3
    | overflow => rfl
    | outOfFuel => exact absurd rfl h4

/-- Over non-negative weights with simple paths that fit an `int`, a run of `dijkstras` does not
overflow. -/
theorem dijkstras_no_overflow (hid : IdsOk nodes) (hnn : NonNeg nodes)
    (hsimple : ∀ π v W, PathTo nodes start π v W → π.Nodup → W ≤ INT_MAX)
    (fuel : Nat) (destination : Int) :
    dijkstras nodes fuel start destination ≠ Except.error Fault.overflow := by
  intro h
  unfold dijkstras at h
  simp only at h
  split at h
  · exact Fault.noConfusion (Except.error.inj h)
  · rename_i hcap
    by_cases hs : Valid nodes start
    · exact (loop_specNN hid hnn fuel (initial start) (inv_initial hs) invNN_initial).2 _ h
        hsimple rfl
    · have ht : top (initial start).pq = some (0, start) := rfl
      cases fuel with
      | zero =>
        rw [loop_zero_some ht] at h
        exact Fault.noConfusion (Except.error.inj h)
      | succ fuel =>
        rcases @step_cases nodes (initial start) (0, start) with
          ⟨-, h2⟩ | ⟨-, hst, -⟩ | ⟨-, -, -, h2⟩ | ⟨-, -, node, hnode, -⟩
        · rw [loop_succ_error ht h2] at h
          exact Fault.noConfusion (Except.error.inj h)
        · simp [initial] at hst
        · rw [loop_succ_error ht h2] at h
          exact Fault.noConfusion (Except.error.inj h)
        · exact hs (valid_of_readAt hnode)

/-- In a graph that fits the program, with non-negative weights and simple paths that fit an
`int`, `dijkstras` returns, and returns the same state for every sufficient amount of fuel and
every destination. -/
theorem dijkstras_total (hid : IdsOk nodes) (hnn : NonNeg nodes) (hfit : Fits nodes)
    (hs : Valid nodes start)
    (hsimple : ∀ π v W, PathTo nodes start π v W → π.Nodup → W ≤ INT_MAX) :
    ∃ s, ∀ fuel destination, edgeCount nodes < fuel →
      dijkstras nodes fuel start destination = Except.ok s := by
  cases h : dijkstras nodes (edgeCount nodes + 1) start 0 with
  | error e =>
    have := dijkstras_error hid hfit hs (Nat.lt_succ_self _) h
    rw [this] at h
    exact absurd h (dijkstras_no_overflow hid hnn hsimple _ _)
  | ok s =>
    refine ⟨s, fun fuel destination hfuel => ?_⟩
    unfold dijkstras at h ⊢
    simp only at h ⊢
    split at h
    · exact Except.noConfusion h
    · rename_i hcap
      rw [if_neg hcap]
      exact loop_mono _ _ _ h fuel (by omega)

end Run

end Dijkstra

namespace Dijkstra

section Final
variable {nodes : List Node} {start : Int}

/-- At the end of a run over non-negative weights whose simple paths have a weight below
`INT_MAX`, every node on a path from `start` is visited and its `dist` is at most the weight of
the path. -/
theorem reach_visited {s : State} (hI : Inv nodes start none s) (hN : InvNN nodes none s)
    (hq : s.pq = [])
    (hsimple : ∀ π v W, PathTo nodes start π v W → π.Nodup → W < INT_MAX)
    {π : List Int} {v W : Int} (h : PathTo nodes start π v W) :
    s.visited v = true ∧ s.dist v ≤ W := by
  induction h with
  | single =>
    refine ⟨?_, le_of_eq hI.source.1⟩
    by_contra hv
    have := hI.frontier start (by simpa using hv) (by rw [hI.source.1]; decide)
    rw [hq] at this
    exact List.not_mem_nil _ this
  | @snoc π u v W w hp hedge ih =>
    obtain ⟨hvu, hle⟩ := ih
    have hrel : s.dist v ≤ s.dist u + w := by
      rcases hN.relaxed u w v hvu hedge with ⟨rest, h⟩ | h
      · exact Option.noConfusion h
      · exact h
    refine ⟨?_, by omega⟩
    by_contra hv
    have hv : s.visited v = false := by simpa using hv
    obtain ⟨ρ, hρ⟩ := hI.tree u (hI.settled u hvu).2
    have hnot : v ∉ ρ := by
      intro hin
      rcases tree_visited hρ v hin with h | h
      · rw [h, hvu] at hv
        exact Bool.noConfusion hv
      · rw [h] at hv
        exact Bool.noConfusion hv
    have hnodup : (ρ ++ [v]).Nodup := by
      rw [List.nodup_append]
      refine ⟨tree_nodup hρ, List.nodup_singleton _, ?_⟩
      intro a ha hb
      rw [List.mem_singleton.1 hb] at ha
      exact hnot ha
    have := hsimple _ _ _ (PathTo.snoc (tree_path hI.source.1 hρ) hedge) hnodup
    have := hI.frontier v hv (by omega)
    rw [hq] at this
    exact List.not_mem_nil _ this

/-- A path does not leave the graph. -/
theorem pathTo_valid (hid : IdsOk nodes) (hs : Valid nodes start) {π : List Int} {v W : Int}
    (h : PathTo nodes start π v W) : ∀ x ∈ π, Valid nodes x := by
  induction h with
  | single =>
    intro x hx
    rw [List.mem_singleton.1 hx]
    exact hs
  | snoc hp hedge ih =>
    intro x hx
    rcases List.mem_append.1 hx with h | h
    · exact ih x h
    · rw [List.mem_singleton.1 h]
      exact (edge_valid hid hedge).2

/-- The weight of a path over non-negative weights is not negative. -/
theorem pathTo_nonneg (hnn : NonNeg nodes) {π : List Int} {v W : Int}
    (h : PathTo nodes start π v W) : 0 ≤ W := by
  induction h with
  | single => exact le_refl _
  | snoc hp hedge ih =>
    obtain ⟨nd, e, tgt, h1, h2, h3, -, -⟩ := hedge
    have := hnn nd (mem_of_readAt h1) e h2
    omega

/-- The weight of a path is at most the largest weight times the number of its edges. -/
theorem pathTo_weight_le {M : Int} (hM : ∀ nd ∈ nodes, ∀ e ∈ nd.children, e.1 ≤ M)
    {π : List Int} {v W : Int} (h : PathTo nodes start π v W) :
    W ≤ M * ((π.length : Int) - 1) := by
  induction h with
  | single => simp
  | @snoc π₀ u v₀ W₀ w hp hedge ih =>
    obtain ⟨nd, e, tgt, h1, h2, h3, -, -⟩ := hedge
    have := hM nd (mem_of_readAt h1) e h2
    rw [List.length_append, List.length_singleton]
    push_cast
    have e1 : M * ((π₀.length : Int) + 1 - 1) = M * ((π₀.length : Int) - 1) + M := by
      ring
    rw [e1]
    omega

/-- A list of nodes of the graph without repetition is no longer than the graph. -/
theorem nodup_valid_length {π : List Int} (hnd : π.Nodup) (hv : ∀ x ∈ π, Valid nodes x) :
    π.length ≤ nodes.length := by
  have hsub : π ⊆ (List.range nodes.length).map (fun (i : Nat) => (i : Int)) := by
    intro x hx
    obtain ⟨h0, h1⟩ := hv x hx
    rw [List.mem_map]
    exact ⟨x.toNat, List.mem_range.2 (by omega), Int.toNat_of_nonneg h0⟩
  have := (hnd.subperm hsub).length_le
  simpa using this

/-- The weight of a simple path is at most the largest weight times the number of nodes less
one. -/
theorem simple_weight_le (hid : IdsOk nodes) (hs : Valid nodes start) {M : Int} (h0 : 0 ≤ M)
    (hM : ∀ nd ∈ nodes, ∀ e ∈ nd.children, e.1 ≤ M)
    {π : List Int} {v W : Int} (h : PathTo nodes start π v W) (hnd : π.Nodup) :
    W ≤ M * ((nodes.length : Int) - 1) := by
  have h1 := pathTo_weight_le hM h
  have h2 := nodup_valid_length hnd (pathTo_valid hid hs h)
  have h3 : M * ((π.length : Int) - 1) ≤ M * ((nodes.length : Int) - 1) :=
    mul_le_mul_of_nonneg_left (by omega) h0
  omega

/-- The walk over the predecessors is over at `-1`. -/
theorem walk_end (path : Int → Int) (fuel : Nat) : walk path fuel (-1) = Except.ok [] := by
  cases fuel <;> simp [walk]

/-- More fuel does not change the result of the walk over the predecessors. -/
theorem walk_mono (path : Int → Int) : ∀ (fuel : Nat) (v : Int) (l : List Int),
    walk path fuel v = Except.ok l → ∀ fuel', fuel ≤ fuel' → walk path fuel' v = Except.ok l := by
  intro fuel
  induction fuel with
  | zero =>
    intro v l h fuel' _
    unfold walk at h
    split at h
    · rename_i hv
      rw [hv, walk_end]
      exact h
    · exact Except.noConfusion h
  | succ fuel ih =>
    intro v l h fuel' hle
    obtain ⟨k, rfl⟩ : ∃ k, fuel' = k + 1 := ⟨fuel' - 1, by omega⟩
    unfold walk at h ⊢
    split at h
    · rename_i hv
      rw [if_pos hv]
      exact h
    · rename_i hv
      rw [if_neg hv]
      split at h
      · exact Except.noConfusion h
      · rename_i hc
        rw [if_neg hc]
        cases hw : walk path fuel (path v) with
        | error e =>
          rw [hw] at h
          exact Except.noConfusion h
        | ok rest =>
          rw [hw] at h
          rw [ih (path v) rest hw k (by omega)]
          exact h

/-- The walk over the predecessors from a node follows its tree path back to `start`, in exactly
as many iterations as the path has nodes. -/
theorem walk_tree {s : State} (hroot : s.path start = -1) {π : List Int} {v : Int}
    (h : Tree nodes start s π v) (hcap : ∀ x ∈ π, inCap x) :
    (∀ k, π.length ≤ k → walk s.path k v = Except.ok π.reverse) ∧
    (∀ k, k < π.length → walk s.path k v = Except.error Fault.outOfFuel) := by
  induction h with
  | root =>
    have hc := hcap start (List.mem_singleton.2 rfl)
    have hne : start ≠ -1 := by
      intro e
      have := hc.1
      omega
    constructor
    · intro k hk
      obtain ⟨k', rfl⟩ : ∃ k', k = k' + 1 := ⟨k - 1, by simp at hk; omega⟩
      unfold walk
      rw [if_neg hne, if_neg (not_not.2 hc), hroot, walk_end]
      rfl
    · intro k hk
      have : k = 0 := by simp at hk; omega
      subst this
      unfold walk
      rw [if_neg hne]
  | @snoc π u v w ht hvis hedge hp hdist hnot ih =>
    have hc := hcap v (List.mem_append.2 (Or.inr (List.mem_singleton.2 rfl)))
    have hne : v ≠ -1 := by
      intro e
      have := hc.1
      omega
    obtain ⟨ih1, ih2⟩ := ih (fun x hx => hcap x (List.mem_append.2 (Or.inl hx)))
    constructor
    · intro k hk
      rw [List.length_append, List.length_singleton] at hk
      obtain ⟨k', rfl⟩ : ∃ k', k = k' + 1 := ⟨k - 1, by omega⟩
      unfold walk
      rw [if_neg hne, if_neg (not_not.2 hc), hp, ih1 k' (by omega)]
      simp
    · intro k hk
      rw [List.length_append, List.length_singleton] at hk
      cases k with
      | zero =>
        unfold walk
        rw [if_neg hne]
      | succ k' =>
        unfold walk
        rw [if_neg hne, if_neg (not_not.2 hc), hp, ih2 k' (by omega)]

/-- More fuel and another destination do not change a result of `dijkstras`. -/
theorem dijkstras_mono {fuel : Nat} {destination : Int} {s : State}
    (h : dijkstras nodes fuel start destination = Except.ok s) (fuel' : Nat) (destination' : Int)
    (hle : fuel ≤ fuel') : dijkstras nodes fuel' start destination' = Except.ok s := by
  unfold dijkstras at h ⊢
  simp only at h ⊢
  split at h
  · exact Except.noConfusion h
  · rename_i hcap
    rw [if_neg hcap]
    exact loop_mono _ _ _ h fuel' hle

theorem mainNodes_idsOk : IdsOk mainNodes := by decide

theorem mainNodes_nonNeg : NonNeg mainNodes := by decide

theorem mainNodes_fits : Fits mainNodes := by decide

theorem mainNodes_valid : Valid mainNodes 0 := by decide

/-- Every simple path of the graph of `main` weighs at most `7 * 2555`. -/
theorem mainNodes_simple {π : List Int} {v W : Int} (h : PathTo mainNodes 0 π v W)
    (hnd : π.Nodup) : W ≤ 17885 := by
  have hM : ∀ nd ∈ mainNodes, ∀ e ∈ nd.children, e.1 ≤ 2555 := by decide
  have := simple_weight_le mainNodes_idsOk mainNodes_valid (by decide) hM h hnd
  have hlen : mainNodes.length = 8 := rfl
  rw [hlen] at this
  omega

/-- The run of `main`: `dist[7] = 4908`, and the nodes printed are `7, 5, 6, 0`. -/
theorem mainNodes_run (fuel : Nat) (hfuel : edgeCount mainNodes < fuel) :
    ∃ s, dijkstras mainNodes fuel 0 7 = Except.ok s ∧ s.dist 7 = 4908 ∧
      walk s.path fuel 7 = Except.ok [7, 5, 6, 0] ∧ mainOutput fuel = Except.ok [7, 5, 6, 0] := by
  have hcount : edgeCount mainNodes = 24 := by decide
  rw [hcount] at hfuel
  have h1 : (dijkstras mainNodes 25 0 7).toOption.map (fun s => s.dist 7) = some 4908 := by
    decide
  have h2 : mainOutput 25 = Except.ok [7, 5, 6, 0] := rfl
  cases h : dijkstras mainNodes 25 0 7 with
  | error e =>
    rw [h] at h1
    exact Option.noConfusion h1
  | ok s =>
    rw [h] at h1
    have hd : s.dist 7 = 4908 := Option.some.inj h1
    unfold mainOutput at h2
    rw [h] at h2
    have hrun := dijkstras_mono h fuel 7 (by omega)
    have hwalk := walk_mono s.path 25 7 _ h2 fuel (by omega)
    refine ⟨s, hrun, hd, hwalk, ?_⟩
    unfold mainOutput
    rw [hrun]
    exact hwalk

end Final

end Dijkstra

namespace Dijkstra

theorem spoke_length (m : Nat) : (spoke m).length = m + 1 := by
  simp [spoke]

theorem spoke_get (m : Nat) {i : Nat} (h : i < m + 1) :
    (spoke m)[i]? =
      some { id := (i : Int), children := if i = 0 then [((1 : Int), m)] else [] } := by
  unfold spoke
  rw [List.getElem?_map, List.getElem?_range h]
  rfl

theorem spoke_idsOk (m : Nat) : IdsOk (spoke m) := by
  unfold IdsOk
  rw [spoke_length]
  unfold spoke
  rw [List.map_map]
  rfl

theorem spoke_children (m : Nat) : ∀ nd ∈ spoke m, ∀ e ∈ nd.children, e = ((1 : Int), m) := by
  intro nd hnd e he
  unfold spoke at hnd
  rw [List.mem_map] at hnd
  obtain ⟨i, -, rfl⟩ := hnd
  by_cases h : i = 0
  · simp only [h, if_true, List.mem_singleton] at he
    exact he
  · simp only [h, if_false, List.not_mem_nil] at he

theorem spoke_valid (m : Nat) : Valid (spoke m) 0 := by
  unfold Valid
  rw [spoke_length]
  omega

theorem spoke_edge (m : Nat) : Edge (spoke m) 0 1 (m : Int) := by
  refine ⟨{ id := ((0 : Nat) : Int), children := if (0 : Nat) = 0 then [((1 : Int), m)] else [] },
    ((1 : Int), m), { id := (m : Int), children := if m = 0 then [((1 : Int), m)] else [] },
    ?_, ?_, rfl, spoke_get m (Nat.lt_succ_self m), rfl⟩
  · unfold readAt
    rw [if_pos (le_refl _)]
    exact spoke_get m (Nat.succ_pos m)
  · simp

/-- On a spoke whose last node is beyond the vectors, the first iteration of the `while` loop
indexes `visited` with that node. -/
theorem spoke_step (m : Nat) (hm : ¬ inCap (m : Int)) :
    step (spoke m) (initial 0) (0, 0) = Except.error Fault.outOfBounds := by
  rcases @step_cases (spoke m) (initial 0) (0, 0) with
    ⟨-, h2⟩ | ⟨-, hst, -⟩ | ⟨-, -, -, h2⟩ | ⟨-, -, node, hnode, h2⟩
  · exact h2
  · simp [initial] at hst
  · exact h2
  · rw [h2]
    have h0 : readAt (spoke m) 0 = some
        { id := ((0 : Nat) : Int), children := if (0 : Nat) = 0 then [((1 : Int), m)] else [] } := by
      unfold readAt
      rw [if_pos (le_refl _)]
      exact spoke_get m (Nat.succ_pos m)
    have hnode' : readAt (spoke m) 0 = some node := hnode
    rw [h0] at hnode'
    rw [← Option.some.inj hnode']
    simp only [if_true, List.foldlM_cons, List.foldlM_nil]
    have hr : relax (spoke m) (0, 0).2 (popped (initial 0) (0, 0)) ((1 : Int), m) =
        Except.error Fault.outOfBounds := by
      unfold relax
      simp only [spoke_get m (Nat.lt_succ_self m)]
      rw [if_pos hm]
    rw [hr]
    rfl

/-- On a spoke whose last node is beyond the vectors, `dijkstras` from node `0` returns for no
amount of fuel. -/
theorem spoke_run (m : Nat) (hm : ¬ inCap (m : Int)) (destination : Int) :
    (∀ fuel, dijkstras (spoke m) (fuel + 1) 0 destination = Except.error Fault.outOfBounds) ∧
    (∀ fuel s, dijkstras (spoke m) fuel 0 destination ≠ Except.ok s) := by
  have ht : top (initial 0).pq = some (0, 0) := rfl
  have h0 : ¬ ¬ inCap 0 := not_not.2 (by decide)
  have h1 : ∀ fuel, dijkstras (spoke m) (fuel + 1) 0 destination =
      Except.error Fault.outOfBounds := by
    intro fuel
    unfold dijkstras
    simp only
    rw [if_neg h0]
    exact loop_succ_error ht (spoke_step m hm)
  refine ⟨h1, ?_⟩
  intro fuel s
  cases fuel with
  | zero =>
    unfold dijkstras
    simp only
    rw [if_neg h0, loop_zero_some ht]
    exact fun h => Except.noConfusion h
  | succ fuel =>
    rw [h1 fuel]
    exact fun h => Except.noConfusion h

/-- The simple paths of a spoke weigh at most `m`. -/
theorem spoke_simple (m : Nat) {π : List Int} {v W : Int} (h : PathTo (spoke m) 0 π v W)
    (hnd : π.Nodup) : W ≤ m := by
  have hM : ∀ nd ∈ spoke m, ∀ e ∈ nd.children, e.1 ≤ 1 := by
    intro nd hnd e he
    rw [spoke_children m nd hnd e he]
  have := simple_weight_le (spoke_idsOk m) (spoke_valid m) (by decide) hM h hnd
  rw [spoke_length] at this
  push_cast at this
  omega

end Dijkstra

/-! ## Theorems on Dijkstra's algorithm -/

namespace Dijkstra

/-- C11 (counterexample).  The claim as stated, for every graph: the graph of `100006` nodes whose
only edge, of weight `1`, goes from node `0` to node `100005` meets every stated condition (node
`i` has id `i`, the weight is non-negative, every simple path weighs less than `INT_MAX`, `0` is a
node, the child pointer points into the graph), and node `100005` is reachable from `0`; but the
first iteration indexes the `100005` cells of `visited` with `100005`, and the call returns for no
amount of fuel. -/
theorem dijkstras_leaves_vectors_above_100005_nodes :
    (spoke 100005).length = 100006 ∧ IdsOk (spoke 100005) ∧ NonNeg (spoke 100005) ∧
    (∀ π v W, PathTo (spoke 100005) 0 π v W → π.Nodup → W < INT_MAX) ∧
    Valid (spoke 100005) 0 ∧
    (∀ nd ∈ spoke 100005, ∀ e ∈ nd.children, e.2 < (spoke 100005).length) ∧
    Reachable (spoke 100005) 0 100005 ∧
    (∀ (fuel : Nat) (destination : Int),
      dijkstras (spoke 100005) (fuel + 1) 0 destination = Except.error Fault.outOfBounds) ∧
    (∀ (fuel : Nat) (destination : Int) (s : State),
      dijkstras (spoke 100005) fuel 0 destination ≠ Except.ok s) := by
  have hm : ¬ inCap ((100005 : Nat) : Int) := by decide
  refine ⟨spoke_length _, spoke_idsOk _, ?_, ?_, spoke_valid _, ?_, ?_,
    fun fuel destination => (spoke_run 100005 hm destination).1 fuel,
    fun fuel destination s => (spoke_run 100005 hm destination).2 fuel s⟩
  · intro nd hnd e he
    rw [spoke_children _ nd hnd e he]
    decide
  · intro π v W hp hnd
    have := spoke_simple 100005 hp hnd
    exact lt_of_le_of_lt this (by decide)
  · intro nd hnd e he
    rw [spoke_children _ nd hnd e he, spoke_length]
    decide
  · exact ⟨[0] ++ [100005], 0 + 1, PathTo.snoc PathTo.single (spoke_edge 100005)⟩

/-- C11.  Dijkstra computes single-source shortest distances, in a graph that fits the program.
For every graph of at most `100005` nodes in which node `i` has id `i`, every child pointer points
to a node of the graph, every weight is non-negative and every simple path from `start` has a
weight below `INT_MAX`, and for every node `start` of the graph: `dijkstras(start, destination)`
returns, with one and the same state for every destination (and every sufficient amount of
fuel); in that state `dist[start] = 0`, for every node `v` reachable from `start` the value
`dist[v]` is the weight of a path from `start` to `v` and at most the weight of every such path,
and `dist[v] = INT_MAX` for every `v` that is not reachable.  On the graph of `main`,
`dist[7] = 4908` and the nodes printed are `7, 5, 6, 0`. -/
theorem dijkstras_computes_shortest_distances (nodes : List Node) (start : Int)
    (hid : IdsOk nodes) (hnn : NonNeg nodes)
    (hsimple : ∀ π v W, PathTo nodes start π v W → π.Nodup → W < INT_MAX)
    (hfit : Fits nodes) (hs : Valid nodes start) :
    (∃ s,
      (∀ fuel destination, edgeCount nodes < fuel →
        dijkstras nodes fuel start destination = Except.ok s) ∧
      (∀ fuel destination s', dijkstras nodes fuel start destination = Except.ok s' → s' = s) ∧
      s.dist start = 0 ∧
      (∀ v, Reachable nodes start v →
        (∃ π, PathTo nodes start π v (s.dist v)) ∧
        ∀ π W, PathTo nodes start π v W → s.dist v ≤ W) ∧
      (∀ v, ¬ Reachable nodes start v → s.dist v = INT_MAX)) ∧
    (∀ fuel, edgeCount mainNodes < fuel → ∃ s, dijkstras mainNodes fuel 0 7 = Except.ok s ∧
      s.dist 7 = 4908 ∧ mainOutput fuel = Except.ok [7, 5, 6, 0]) := by
  refine ⟨?_, ?_⟩
  · obtain ⟨s, hall⟩ := dijkstras_total hid hnn hfit hs
      (fun π v W hp hnd => (hsimple π v W hp hnd).le)
    have h := hall (edgeCount nodes + 1) 0 (Nat.lt_succ_self _)
    obtain ⟨-, hI, hq, -⟩ := dijkstras_ok hid h
    have hN := dijkstras_okNN hid hnn h
    refine ⟨s, hall, ?_, hI.source.1, ?_, ?_⟩
    · intro fuel destination s' h'
      have h1 := dijkstras_mono h' (max fuel (edgeCount nodes + 1)) destination
        (le_max_left _ _)
      have h2 := hall (max fuel (edgeCount nodes + 1)) destination
        (lt_of_lt_of_le (Nat.lt_succ_self _) (le_max_right _ _))
      rw [h1] at h2
      exact Except.ok.inj h2
    · intro v ⟨π, W, hp⟩
      have hv := (reach_visited hI hN hq hsimple hp).1
      obtain ⟨ρ, hρ⟩ := hI.tree v (hI.settled v hv).2
      exact ⟨⟨ρ, tree_path hI.source.1 hρ⟩,
        fun π' W' hp' => (reach_visited hI hN hq hsimple hp').2⟩
    · intro v hv
      by_contra hne
      have hlt : s.dist v < INT_MAX := lt_of_le_of_ne (hI.bound v).1 hne
      obtain ⟨ρ, hρ⟩ := hI.tree v hlt
      exact hv ⟨ρ, _, tree_path hI.source.1 hρ⟩
  · intro fuel hfuel
    obtain ⟨s, h1, h2, -, h3⟩ := mainNodes_run fuel hfuel
    exact ⟨s, h1, h2, h3⟩

/-- C11 (witness).  The graph of `main` from node `0`: the run returns, `dist[7] = 4908` is the
weight of a path from `0` to `7`, and no path from `0` to `7` weighs less. -/
theorem dijkstras_computes_shortest_distances_witness :
    ∃ s, dijkstras mainNodes 25 0 7 = Except.ok s ∧ s.dist 0 = 0 ∧ s.dist 7 = 4908 ∧
      (∃ π, PathTo mainNodes 0 π 7 4908) ∧ (∀ π W, PathTo mainNodes 0 π 7 W → 4908 ≤ W) ∧
      mainOutput 25 = Except.ok [7, 5, 6, 0] := by
  obtain ⟨s₁, hrun₁, hd₁, -, hout⟩ := mainNodes_run 25 (by decide)
  obtain ⟨s, -, huniq, h0, hreach, hun⟩ := (dijkstras_computes_shortest_distances mainNodes 0
    mainNodes_idsOk mainNodes_nonNeg
    (fun π v W hp hnd => lt_of_le_of_lt (mainNodes_simple hp hnd) (by decide))
    mainNodes_fits mainNodes_valid).1
  have hs : s₁ = s := huniq 25 7 s₁ hrun₁
  rw [hs] at hrun₁ hd₁
  have hr : Reachable mainNodes 0 7 := by
    by_contra hne
    have := hun 7 hne
    rw [hd₁] at this
    exact absurd this (by decide)
  have := hreach 7 hr
  rw [hd₁] at this
  exact ⟨s, hrun₁, h0, hd₁, this.1, this.2, hout⟩

/-- C16.  Predecessor consistency.  For every graph in which node `i` has id `i`, with weights of
any sign: whenever `dijkstras(start, destination)` returns (an overflowing sum is a fault, so no
sum overflowed), every `dist[v]` is at most `INT_MAX`, every `v != start` with
`dist[v] < INT_MAX` has a predecessor `path[v]` that is a node whose adjacency list holds an edge
`(w, v)` with `dist[v] = dist[path[v]] + w`, and every `v` with `dist[v] = INT_MAX` has
`path[v] = -1`.  When the graph fits the program and `start` is one of its nodes, the call can
fail by overflow only. -/
theorem dijkstras_predecessors_consistent (nodes : List Node) (start : Int) (hid : IdsOk nodes) :
    (∀ fuel destination s, dijkstras nodes fuel start destination = Except.ok s →
      (∀ v, s.dist v ≤ INT_MAX) ∧
      (∀ v, v ≠ start → s.dist v < INT_MAX →
        Valid nodes (s.path v) ∧
        ∃ w, Edge nodes (s.path v) w v ∧ s.dist v = s.dist (s.path v) + w) ∧
      (∀ v, s.dist v = INT_MAX → s.path v = -1)) ∧
    (Fits nodes → Valid nodes start → ∀ fuel destination e, edgeCount nodes < fuel →
      dijkstras nodes fuel start destination = Except.error e → e = Fault.overflow) := by
  refine ⟨?_, ?_⟩
  · intro fuel destination s h
    obtain ⟨-, hI, -, -⟩ := dijkstras_ok hid h
    refine ⟨fun v => (hI.bound v).1, ?_, fun v => (hI.bound v).2⟩
    intro v hne hlt
    obtain ⟨π, hπ⟩ := hI.tree v hlt
    rcases tree_cases hπ with ⟨h, -⟩ | ⟨-, π', u, w, -, -, hvu, hedge, hp, hd, -⟩
    · exact absurd h hne
    · rw [hp]
      exact ⟨(hI.settled u hvu).1, w, hedge, hd⟩
  · intro hfit hs fuel destination e hfuel h
    exact dijkstras_error hid hfit hs hfuel h

/-- C16 (witness).  A graph with the negative weight `-4` on the edge `2 - 1`: the run from `0`
returns with `path[1] = 2`, `dist[2] = 2` and `dist[1] = -2`, the sum along that edge. -/
theorem dijkstras_predecessors_consistent_witness :
    ∃ s, dijkstras sampleNeg 10 0 1 = Except.ok s ∧ s.path 1 = 2 ∧ s.dist 1 = -2 ∧
      s.dist 2 = 2 ∧ Valid sampleNeg 2 ∧ (∃ w, Edge sampleNeg 2 w 1 ∧ s.dist 1 = s.dist 2 + w) ∧
      s.path 0 = -1 := by
  have h1 : (dijkstras sampleNeg 10 0 1).toOption.map
      (fun s => (s.path 1, s.dist 1, s.dist 2, s.path 0)) = some (2, -2, 2, -1) := by decide
  cases h : dijkstras sampleNeg 10 0 1 with
  | error e =>
    rw [h] at h1
    exact Option.noConfusion h1
  | ok s =>
    rw [h] at h1
    have h2 := Option.some.inj h1
    simp only [Prod.mk.injEq] at h2
    obtain ⟨hp, hd1, hd2, hp0⟩ := h2
    have := ((dijkstras_predecessors_consistent sampleNeg 0 (by decide)).1 10 1 s h).2.1 1
      (by decide) (by rw [hd1]; decide)
    rw [hp] at this
    exact ⟨s, rfl, hp, hd1, hd2, this.1, this.2, hp0⟩

/-- C17.  Path reconstruction ends at the start.  For every graph in which node `i` has id `i`:
whenever `dijkstras(start, destination)` returns, `path[start] = -1`, and for every `v` with
`dist[v] < INT_MAX` there is a list `π` of nodes without repetition, no longer than the graph,
that begins with `start`, ends with `v` and is a path of weight `dist[v]`, such that the walk
`while (curnode != -1) curnode = path[curnode]` from `v` ends after exactly `π.length`
iterations and lists `π` in reverse.  When the graph fits the program and `start` is one of its
nodes, the call can fail by overflow only. -/
theorem path_walk_ends_at_start (nodes : List Node) (start : Int) (hid : IdsOk nodes) :
    (∀ fuel destination s, dijkstras nodes fuel start destination = Except.ok s →
      s.path start = -1 ∧
      ∀ v, s.dist v < INT_MAX → ∃ π : List Int,
        π.Nodup ∧ π.length ≤ nodes.length ∧ π.head? = some start ∧ π.getLast? = some v ∧
        PathTo nodes start π v (s.dist v) ∧
        (∀ k, π.length ≤ k → walk s.path k v = Except.ok π.reverse) ∧
        (∀ k, k < π.length → walk s.path k v = Except.error Fault.outOfFuel)) ∧
    (Fits nodes → Valid nodes start → ∀ fuel destination e, edgeCount nodes < fuel →
      dijkstras nodes fuel start destination = Except.error e → e = Fault.overflow) := by
  refine ⟨?_, ?_⟩
  · intro fuel destination s h
    obtain ⟨hs, hI, -, hcap⟩ := dijkstras_ok hid h
    refine ⟨hI.source.2, ?_⟩
    intro v hlt
    obtain ⟨π, hπ⟩ := hI.tree v hlt
    have hcapπ : ∀ x ∈ π, inCap x := by
      intro x hx
      rcases tree_visited hπ x hx with e | hv
      · rw [e]; exact hcap v hlt
      · exact hcap x (hI.settled x hv).2
    have hlast : π.getLast? = some v := by
      rcases tree_cases hπ with ⟨e1, e2⟩ | ⟨-, π', u, w, e, -⟩
      · rw [e2, e1]; rfl
      · rw [e]; simp
    obtain ⟨hw1, hw2⟩ := walk_tree hI.source.2 hπ hcapπ
    exact ⟨π, tree_nodup hπ, nodup_valid_length (tree_nodup hπ) (tree_valid hid hs hπ),
      tree_head hπ, hlast, tree_path hI.source.1 hπ, hw1, hw2⟩
  · intro hfit hs fuel destination e hfuel h
    exact dijkstras_error hid hfit hs hfuel h

/-- C17 (witness).  The graph of `main`: `path[0] = -1`, and the walk from `7` lists the four
nodes `7, 5, 6, 0` of a path without repetition from `0` to `7`, in four iterations. -/
theorem path_walk_ends_at_start_witness :
    ∃ s, dijkstras mainNodes 25 0 7 = Except.ok s ∧ s.path 0 = -1 ∧
      ∃ π : List Int, π.Nodup ∧ π.reverse = [7, 5, 6, 0] ∧ PathTo mainNodes 0 π 7 (s.dist 7) ∧
        walk s.path 4 7 = Except.ok [7, 5, 6, 0] ∧
        walk s.path 3 7 = Except.error Fault.outOfFuel := by
  obtain ⟨s, hrun, hd, hwalk, -⟩ := mainNodes_run 25 (by decide)
  obtain ⟨h0, hall⟩ := (path_walk_ends_at_start mainNodes 0 mainNodes_idsOk).1 25 7 s hrun
  obtain ⟨π, hnd, hlen, -, -, hpath, hw1, hw2⟩ := hall 7 (by rw [hd]; decide)
  have hlen8 : π.length ≤ 25 := le_trans hlen (by decide)
  have hrev : π.reverse = [7, 5, 6, 0] := by
    have := hw1 25 hlen8
    rw [hwalk] at this
    exact (Except.ok.inj this).symm
  have hl4 : π.length = 4 := by
    have := congrArg List.length hrev
    simpa using this
  refine ⟨s, hrun, h0, π, hnd, hrev, hpath, ?_, ?_⟩
  · rw [← hrev]
    exact hw1 4 (by omega)
  · exact hw2 3 (by omega)

/-- C18.  No overflow on the `INT_MAX` sentinel.  For every graph in which node `i` has id `i`,
every weight is non-negative and every simple path from `start` weighs at most `INT_MAX`:
`dijkstras(start, destination)` never fails by overflow; whenever it returns, every node popped
from the queue had `dist[curnode] < INT_MAX`, and every sum `dist[curnode] + nextweight` that was
evaluated is the weight of a simple path from `start` to `nextnode`, hence between `0` and
`INT_MAX = 2^31 - 1`.  The call does return when the graph fits the program and `start` is one of
its nodes. -/
theorem dijkstras_sums_do_not_overflow (nodes : List Node) (start : Int)
    (hid : IdsOk nodes) (hnn : NonNeg nodes)
    (hsimple : ∀ π v W, PathTo nodes start π v W → π.Nodup → W ≤ INT_MAX) :
    (∀ fuel destination,
      dijkstras nodes fuel start destination ≠ Except.error Fault.overflow) ∧
    (∀ fuel destination s, dijkstras nodes fuel start destination = Except.ok s →
      (∀ curdist curnode dcur, Event.popped curdist curnode dcur ∈ s.trace →
        dcur < INT_MAX) ∧
      (∀ curnode nextnode sum, Event.summed curnode nextnode sum ∈ s.trace →
        (∃ π, PathTo nodes start π nextnode sum ∧ π.Nodup) ∧ 0 ≤ sum ∧ sum ≤ INT_MAX)) ∧
    (Fits nodes → Valid nodes start → ∃ s, ∀ fuel destination, edgeCount nodes < fuel →
      dijkstras nodes fuel start destination = Except.ok s) := by
  refine ⟨fun fuel destination => dijkstras_no_overflow hid hnn hsimple fuel destination, ?_,
    fun hfit hs => dijkstras_total hid hnn hfit hs hsimple⟩
  intro fuel destination s h
  obtain ⟨-, hI, -, -⟩ := dijkstras_ok hid h
  constructor
  · intro curdist curnode dcur hev
    exact hI.events _ hev
  · intro curnode nextnode sum hev
    obtain ⟨π, hp, hnd⟩ := hI.events _ hev
    exact ⟨⟨π, hp, hnd⟩, pathTo_nonneg hnn hp, hsimple π nextnode sum hp hnd⟩

/-- C18 (witness).  The graph of `main` from node `0`: the run returns after 8 pops and 12
evaluated sums, each popped node with `dist` below `INT_MAX` and each sum between `0` and
`INT_MAX`. -/
theorem dijkstras_sums_do_not_overflow_witness :
    dijkstras mainNodes 25 0 7 ≠ Except.error Fault.overflow ∧
    ∃ s, dijkstras mainNodes 25 0 7 = Except.ok s ∧ s.trace.length = 20 ∧
      (∀ curdist curnode dcur, Event.popped curdist curnode dcur ∈ s.trace →
        dcur < INT_MAX) ∧
      (∀ curnode nextnode sum, Event.summed curnode nextnode sum ∈ s.trace →
        (∃ π, PathTo mainNodes 0 π nextnode sum ∧ π.Nodup) ∧ 0 ≤ sum ∧ sum ≤ INT_MAX) := by
  have hthm := dijkstras_sums_do_not_overflow mainNodes 0 mainNodes_idsOk mainNodes_nonNeg
    (fun π v W hp hnd => le_trans (mainNodes_simple hp hnd) (by decide))
  have h1 : (dijkstras mainNodes 25 0 7).toOption.map (fun s => s.trace.length) = some 20 := by
    decide
  cases h : dijkstras mainNodes 25 0 7 with
  | error e =>
    rw [h] at h1
    exact Option.noConfusion h1
  | ok s =>
    rw [h] at h1
    refine ⟨fun h' => Except.noConfusion h', s, rfl, Option.some.inj h1, ?_⟩
    have := hthm.2.1 25 7 s h
    exact this

end Dijkstra
